import Mathlib

/-!
Verification of the hash-table engine of the repository.

Shallow embedding of `src/src/MyHashTable.ts` (class `StaticHashTable`) and of
the extendible-hashing part of `src/unnamed/part_003` (class
`AdvancedHashTable`).  TypeScript mutation is rendered as explicit state
passing: operations take the table and return the result together with the new
table.  A thrown exception is rendered as `none`.  JavaScript numbers used as
hash values are modelled as `Int` (they may be negative); `%` on numbers is the
truncated remainder, i.e. `Int.tmod`.  The caller-supplied key-equality
function `equalsFn` defaults to `===` in the source; it is modelled as
decidable equality on the key type, which is exactly `===` for primitive keys.
-/

namespace HashTableSpec

/-- CollisionStrategy enum of MyHashTable.ts. -/
inductive CollisionStrategy where
  | LINEAR_PROBING
  | CHAINED_LINEAR
  | DOUBLE_HASHING
  | SEPARATE_OVERFLOW
deriving DecidableEq, Repr

/-- Entry stored in a bucket or in overflow (interface Entry of MyHashTable.ts).
The optional TS fields `next` and `deleted` are modelled with the defaults the
code observes for `undefined` (`next` is only ever stored, `deleted` is only
tested for truthiness). -/
structure Entry (K V : Type) where
  key : K
  value : V
  next : Option Int := none
  deleted : Bool := false
deriving DecidableEq, Repr

/-- The fields of class StaticHashTable (MyHashTable.ts, lines 75-112).
`overflow` slots are `Option` because the TS array is filled with `null`. -/
structure StaticHashTable (K V : Type) where
  buckets : List (List (Entry K V))
  overflow : List (Option (Entry K V))
  strategy : CollisionStrategy
  primaryHash : K → Int
  secondaryHash : Option (K → Int)
  bucketCapacity : Nat
  numBuckets : Nat
  overflowSize : Nat

/-- interface HashStaticOptions of MyHashTable.ts. -/
structure HashStaticOptions (K : Type) where
  numBuckets : Nat
  bucketCapacity : Nat
  primaryHash : K → Int
  secondaryHash : Option (K → Int) := none
  strategy : Option CollisionStrategy := none
  overflowSize : Option Nat := none

/-- The StaticHashTable constructor (MyHashTable.ts, lines 94-112).  It
performs no validation at all: in particular it does not check that a
secondary hash is present when DOUBLE_HASHING is selected. -/
def mkStaticHashTable {K V : Type} (opts : HashStaticOptions K) : StaticHashTable K V :=
  let numBuckets := opts.numBuckets
  let overflowSize := opts.overflowSize.getD (max 4 (numBuckets / 2))
  { buckets := List.replicate numBuckets []
    overflow := List.replicate overflowSize none
    strategy := opts.strategy.getD CollisionStrategy.LINEAR_PROBING
    primaryHash := opts.primaryHash
    secondaryHash := opts.secondaryHash
    bucketCapacity := opts.bucketCapacity
    numBuckets := numBuckets
    overflowSize := overflowSize }

/-- StaticHashTable.mod (lines 124-126): `((n % m) + m) % m` with the JS
truncated remainder. -/
def StaticHashTable.mod (n m : Int) : Int :=
  (n.tmod m + m).tmod m

variable {K V : Type} [DecidableEq K]

/-- Bucket access `this.buckets[idx]`; all accesses in the source are in
range, out-of-range reads are given the JS-unreachable default. -/
def StaticHashTable.bucketAt (t : StaticHashTable K V) (i : Nat) : List (Entry K V) :=
  t.buckets.getD i []

/-- StaticHashTable.probeIndex (lines 138-153).  DOUBLE_HASHING without a
secondary hash throws (`none`). -/
def StaticHashTable.probeIndex (t : StaticHashTable K V) (key : K) (attempt : Nat) :
    Option Int :=
  let h1 := StaticHashTable.mod (t.primaryHash key) (t.numBuckets : Int)
  if t.strategy = CollisionStrategy.DOUBLE_HASHING then
    match t.secondaryHash with
    | none => none
    | some sh =>
      let h2 := StaticHashTable.mod (sh key) (t.numBuckets : Int)
      let h2 := if h2 = 0 then 1 else h2
      some (StaticHashTable.mod (h1 + (attempt : Int) * h2) (t.numBuckets : Int))
  else
    some (StaticHashTable.mod (h1 + (attempt : Int)) (t.numBuckets : Int))

/-- The update loop `for (const e of bucket) if (!e.deleted && eq(e.key,key))
e.value = value` shared by every insertar branch: replaces the value of the
first live entry with the given key, `none` when there is no such entry. -/
def updateLive (k : K) (v : V) : List (Entry K V) → Option (List (Entry K V))
  | [] => none
  | e :: es =>
    if e.deleted = false ∧ e.key = k then some ({ e with value := v } :: es)
    else (updateLive k v es).map (e :: ·)

/-- The search loop `for (const e of bucket) if (!e.deleted && eq) return
e.value` shared by every buscar branch. -/
def findLive (k : K) : List (Entry K V) → Option V
  | [] => none
  | e :: es => if e.deleted = false ∧ e.key = k then some e.value else findLive k es

/-- The delete loop `for (const e of bucket) if (!e.deleted && eq) e.deleted =
true` shared by every eliminar branch: tombstones the first live entry with
the given key. -/
def tombstoneLive (k : K) : List (Entry K V) → Option (List (Entry K V))
  | [] => none
  | e :: es =>
    if e.deleted = false ∧ e.key = k then some ({ e with deleted := true } :: es)
    else (tombstoneLive k es).map (e :: ·)

/-- `const baseIdx = this.mod(this.primaryHash(key), this.numBuckets)` computed
at the top of insertar, buscar and eliminar. -/
def StaticHashTable.baseIndex (t : StaticHashTable K V) (k : K) : Nat :=
  (StaticHashTable.mod (t.primaryHash k) (t.numBuckets : Int)).toNat

/-- insertar, LINEAR_PROBING / DOUBLE_HASHING branch (lines 177-202): the
`for (let i = 0; i < numBuckets; i++)` loop, over the list of remaining
attempts. -/
def insertProbe (t : StaticHashTable K V) (k : K) (v : V) :
    List Nat → Option (Bool × StaticHashTable K V)
  | [] => some (false, t)
  | i :: rest =>
    match t.probeIndex k i with
    | none => none
    | some idxI =>
      let idx := idxI.toNat
      let bucket := t.bucketAt idx
      match updateLive k v bucket with
      | some bucket2 => some (true, { t with buckets := t.buckets.set idx bucket2 })
      | none =>
        if bucket.length < t.bucketCapacity then
          some (true,
            { t with buckets := t.buckets.set idx (bucket ++ [{ key := k, value := v }]) })
        else insertProbe t k v rest

/-- insertar, CHAINED_LINEAR branch, inner `for (let offset = 1; offset <
numBuckets; offset++)` loop (lines 235-242): pushes into the first nearby
bucket with room. -/
def chainedOffsetScan (t : StaticHashTable K V) (k : K) (v : V) (cursor : Nat) :
    List Nat → Bool × StaticHashTable K V
  | [] => (false, t)
  | off :: rest =>
    let cand := (StaticHashTable.mod ((cursor : Int) + (off : Int)) (t.numBuckets : Int)).toNat
    let cb := t.bucketAt cand
    if cb.length < t.bucketCapacity then
      (true,
        { t with buckets := t.buckets.set cand (cb ++ [{ key := k, value := v, next := some (-1) }]) })
    else chainedOffsetScan t k v cursor rest

/-- insertar, SEPARATE_OVERFLOW branch, `for (let i = 0; i < overflowSize;
i++)` loop (lines 267-279): first slot that is null or tombstoned-with-equal-
key is overwritten; a live slot with equal key is updated in place. -/
def overflowScan (t : StaticHashTable K V) (k : K) (v : V) :
    List Nat → Bool × StaticHashTable K V
  | [] => (false, t)
  | i :: rest =>
    match t.overflow.getD i none with
    | none => (true, { t with overflow := t.overflow.set i (some { key := k, value := v }) })
    | some ov =>
      if ov.deleted = true ∧ ov.key = k then
        (true, { t with overflow := t.overflow.set i (some { key := k, value := v }) })
      else if ov.deleted = false ∧ ov.key = k then
        (true, { t with overflow := t.overflow.set i (some { ov with value := v }) })
      else overflowScan t k v rest

/-- StaticHashTable.insertar (lines 173-287).  Returns `none` when the source
throws (probeIndex without secondary hash under DOUBLE_HASHING).  In the
CHAINED_LINEAR branch the `while (!visited.has(cursor))` loop binds `cursor`
as a `const` and every path through its body returns or breaks, so the body
runs exactly once on `baseIdx`. -/
def StaticHashTable.insertar (t : StaticHashTable K V) (k : K) (v : V) :
    Option (Bool × StaticHashTable K V) :=
  let baseIdx := t.baseIndex k
  match t.strategy with
  | CollisionStrategy.LINEAR_PROBING | CollisionStrategy.DOUBLE_HASHING =>
    insertProbe t k v (List.range t.numBuckets)
  | CollisionStrategy.CHAINED_LINEAR =>
    let bucket := t.bucketAt baseIdx
    match updateLive k v bucket with
    | some bucket2 => some (true, { t with buckets := t.buckets.set baseIdx bucket2 })
    | none =>
      if bucket.length < t.bucketCapacity then
        some (true,
          { t with buckets := t.buckets.set baseIdx (bucket ++ [{ key := k, value := v, next := some (-1) }]) })
      else
        some (chainedOffsetScan t k v baseIdx (List.range' 1 (t.numBuckets - 1)))
  | CollisionStrategy.SEPARATE_OVERFLOW =>
    let bucket := t.bucketAt baseIdx
    match updateLive k v bucket with
    | some bucket2 => some (true, { t with buckets := t.buckets.set baseIdx bucket2 })
    | none =>
      if bucket.length < t.bucketCapacity then
        some (true,
          { t with buckets := t.buckets.set baseIdx (bucket ++ [{ key := k, value := v }]) })
      else
        some (overflowScan t k v (List.range t.overflowSize))

/-- buscar, LINEAR_PROBING / DOUBLE_HASHING loop (lines 310-319). -/
def buscarProbe (t : StaticHashTable K V) (k : K) :
    List Nat → Option (Option V × StaticHashTable K V)
  | [] => some (none, t)
  | i :: rest =>
    match t.probeIndex k i with
    | none => none
    | some idxI =>
      match findLive k (t.bucketAt idxI.toNat) with
      | some v => some (some v, t)
      | none => buscarProbe t k rest

/-- buscar, CHAINED_LINEAR loop (lines 325-335).  The `while
(!visited.has(cursor))` loop starts at `baseIdx` and steps `cursor = mod
(cursor + 1, numBuckets)`, so it visits the `numBuckets` distinct indices in
that order and stops at the first revisit: embedded as a recursion on the
number of buckets left to visit. -/
def buscarChained (t : StaticHashTable K V) (k : K) : Nat → Nat → Option V
  | 0, _ => none
  | n + 1, cursor =>
    match findLive k (t.bucketAt cursor) with
    | some v => some v
    | none =>
      buscarChained t k n (StaticHashTable.mod ((cursor : Int) + 1) (t.numBuckets : Int)).toNat

/-- buscar, SEPARATE_OVERFLOW overflow loop (lines 346-349). -/
def overflowFind (t : StaticHashTable K V) (k : K) : List Nat → Option V
  | [] => none
  | i :: rest =>
    match t.overflow.getD i none with
    | some ov => if ov.deleted = false ∧ ov.key = k then some ov.value else overflowFind t k rest
    | none => overflowFind t k rest

/-- StaticHashTable.buscar (lines 303-356).  The method only reads the table;
the state it leaves behind is returned alongside the value to make that frame
property a statement (`none` models the probeIndex throw). -/
def StaticHashTable.buscar (t : StaticHashTable K V) (k : K) :
    Option (Option V × StaticHashTable K V) :=
  let baseIdx := t.baseIndex k
  match t.strategy with
  | CollisionStrategy.LINEAR_PROBING | CollisionStrategy.DOUBLE_HASHING =>
    buscarProbe t k (List.range t.numBuckets)
  | CollisionStrategy.CHAINED_LINEAR =>
    some (buscarChained t k t.numBuckets baseIdx, t)
  | CollisionStrategy.SEPARATE_OVERFLOW =>
    match findLive k (t.bucketAt baseIdx) with
    | some v => some (some v, t)
    | none => some (overflowFind t k (List.range t.overflowSize), t)

/-- eliminar, LINEAR_PROBING / DOUBLE_HASHING loop (lines 375-384). -/
def eliminarProbe (t : StaticHashTable K V) (k : K) :
    List Nat → Option (Bool × StaticHashTable K V)
  | [] => some (false, t)
  | i :: rest =>
    match t.probeIndex k i with
    | none => none
    | some idxI =>
      let idx := idxI.toNat
      match tombstoneLive k (t.bucketAt idx) with
      | some bucket2 => some (true, { t with buckets := t.buckets.set idx bucket2 })
      | none => eliminarProbe t k rest

/-- eliminar, CHAINED_LINEAR loop (lines 390-402), embedded like
`buscarChained`. -/
def eliminarChained (t : StaticHashTable K V) (k : K) :
    Nat → Nat → Bool × StaticHashTable K V
  | 0, _ => (false, t)
  | n + 1, cursor =>
    match tombstoneLive k (t.bucketAt cursor) with
    | some bucket2 => (true, { t with buckets := t.buckets.set cursor bucket2 })
    | none =>
      eliminarChained t k n (StaticHashTable.mod ((cursor : Int) + 1) (t.numBuckets : Int)).toNat

/-- eliminar, SEPARATE_OVERFLOW overflow loop (lines 416-422). -/
def overflowDelete (t : StaticHashTable K V) (k : K) :
    List Nat → Bool × StaticHashTable K V
  | [] => (false, t)
  | i :: rest =>
    match t.overflow.getD i none with
    | some ov =>
      if ov.deleted = false ∧ ov.key = k then
        (true, { t with overflow := t.overflow.set i (some { ov with deleted := true }) })
      else overflowDelete t k rest
    | none => overflowDelete t k rest

/-- StaticHashTable.eliminar (lines 368-429): logical deletion for every
strategy. -/
def StaticHashTable.eliminar (t : StaticHashTable K V) (k : K) :
    Option (Bool × StaticHashTable K V) :=
  let baseIdx := t.baseIndex k
  match t.strategy with
  | CollisionStrategy.LINEAR_PROBING | CollisionStrategy.DOUBLE_HASHING =>
    eliminarProbe t k (List.range t.numBuckets)
  | CollisionStrategy.CHAINED_LINEAR =>
    some (eliminarChained t k t.numBuckets baseIdx)
  | CollisionStrategy.SEPARATE_OVERFLOW =>
    match tombstoneLive k (t.bucketAt baseIdx) with
    | some bucket2 => some (true, { t with buckets := t.buckets.set baseIdx bucket2 })
    | none => some (overflowDelete t k (List.range t.overflowSize))

/-! ## AdvancedHashTable (src/unnamed/part_003), extendible-hashing part

Only the EXTENDIBLE_HASH method is exercised by the claims; the embedding
covers the constructor, the directory, `setExtendible`, `splitBucket`,
`updateDirectory`, `getExtendible` and the `set`/`get` dispatch arms for that
method.  Keys are strings in the scenarios; `String(key)` is the identity on
them and the class hashes the character codes, so keys are modelled as their
character-code sequences (`List Nat`).  `setExtendible` recurses with no
termination guarantee, so it takes explicit fuel; `none` means the call has
not returned within that many rounds. -/

/-- CollisionResolutionMethod enum of part_003. -/
inductive CollisionResolutionMethod where
  | CHAINING
  | LINEAR_PROBING
  | CHAINED_LINEAR_PROBING
  | SEPARATE_OVERFLOW
  | TABLE_ASSISTED_HASH
  | EXTENDIBLE_HASH
deriving DecidableEq, Repr

/-- interface HashEntry of part_003 (the probing metadata fields are never
set or read on the extendible path). -/
structure AHashEntry (V : Type) where
  key : List Nat
  value : V
  isDeleted : Bool := false
deriving DecidableEq, Repr

/-- interface Bucket of part_003.  Overflow chains never nest (a chain bucket
is created as `{ entries: [] }` and its own chain is never touched), so the
chain is its entry list. -/
structure ABucket (V : Type) where
  entries : List (AHashEntry V)
  overflowChain : Option (List (AHashEntry V)) := none
deriving DecidableEq, Repr

/-- interface DirectoryEntry of part_003. -/
structure DirectoryEntry where
  bucketIndex : Nat
  depth : Nat
deriving DecidableEq, Repr

/-- The fields of class AdvancedHashTable used on the extendible path. -/
structure AdvancedHashTable (V : Type) where
  buckets : List (ABucket V)
  overflowArea : List (AHashEntry V)
  size : Nat
  capacity : Nat
  bucketCapacity : Nat
  method : CollisionResolutionMethod
  directory : List DirectoryEntry
  globalDepth : Nat
deriving DecidableEq, Repr

/-- JS ToInt32: wrap an integer into the signed 32-bit range. -/
def toInt32 (n : Int) : Int :=
  (n + 2 ^ 31) % 2 ^ 32 - 2 ^ 31

/-- One step of the hash loop of part_003 lines 93-97:
`hash = ((hash << 5) - hash) + char; hash = hash & hash`.  `<<` coerces its
result to int32 and `x & x` is ToInt32 of x. -/
def hashStep (h : Int) (c : Nat) : Int :=
  toInt32 (toInt32 (h * 32) - h + (c : Int))

/-- AdvancedHashTable.hash (lines 89-100) on the key's character codes,
including the final `Math.abs`. -/
def jsHash (s : List Nat) : Nat :=
  (s.foldl hashStep 0).natAbs

/-- Helper for `Math.ceil(Math.log2(n))`: the least g with n ≤ 2 ^ g, by
halving (rounding up) until 1 is reached; the first argument is fuel, n
itself always suffices. -/
def ceilLog2Aux : Nat → Nat → Nat
  | 0, _ => 0
  | fuel + 1, n => if n ≤ 1 then 0 else ceilLog2Aux fuel ((n + 1) / 2) + 1

/-- `Math.ceil(Math.log2(n))` as used by initializeExtendibleHash. -/
def ceilLog2 (n : Nat) : Nat :=
  ceilLog2Aux n n

/-- AdvancedHashTable.initializeExtendibleHash (lines 78-84):
`globalDepth = ceil(log2 capacity)`, directory of size `2 ^ globalDepth` with
slot i pointing at bucket `i % capacity`. -/
def initializeExtendibleHash {V : Type} (t : AdvancedHashTable V) : AdvancedHashTable V :=
  let g := ceilLog2 t.capacity
  { t with
    globalDepth := g
    directory := (List.range (2 ^ g)).map (fun i => { bucketIndex := i % t.capacity, depth := g }) }

/-- The AdvancedHashTable constructor (lines 48-65) followed by
initializeBuckets, for the extendible method. -/
def mkAdvancedHashTable {V : Type} (capacity : Nat)
    (method : CollisionResolutionMethod) (bucketCapacity : Nat) : AdvancedHashTable V :=
  let t : AdvancedHashTable V :=
    { buckets := List.replicate capacity { entries := [] }
      overflowArea := []
      size := 0
      capacity := capacity
      bucketCapacity := bucketCapacity
      method := method
      directory := []
      globalDepth := 0 }
  if method = CollisionResolutionMethod.EXTENDIBLE_HASH then initializeExtendibleHash t else t

/-- Bucket access `this.buckets[i]` of part_003 (all reads on the extendible
path are in range). -/
def AdvancedHashTable.bucketAt {V : Type} (t : AdvancedHashTable V) (i : Nat) : ABucket V :=
  t.buckets.getD i { entries := [] }

/-- AdvancedHashTable.getExtendibleHashIndex (lines 148-153):
`directoryIndex = hash & ((1 << globalDepth) - 1)`, then
`directory[directoryIndex]?.bucketIndex || 0`.  `jsHash` is a non-negative
number below `2 ^ 31`, so `& mask` is `Nat.land`. -/
def AdvancedHashTable.getExtendibleHashIndex {V : Type} (t : AdvancedHashTable V)
    (key : List Nat) : Nat :=
  let mask := 2 ^ t.globalDepth - 1
  let directoryIndex := (jsHash key) &&& mask
  ((t.directory.get? directoryIndex).map (fun d => d.bucketIndex)).getD 0

/-- AdvancedHashTable.updateDirectory (lines 474-486): every directory slot
still pointing at the old bucket keeps it when the slot index is even and is
redirected to the new bucket when the slot index is odd. -/
def updateDirectory {V : Type} (t : AdvancedHashTable V)
    (oldBucketIndex newBucketIndex : Nat) : AdvancedHashTable V :=
  { t with directory := t.directory.mapIdx (fun i d =>
      if d.bucketIndex = oldBucketIndex then
        if i % 2 = 0 then { d with bucketIndex := oldBucketIndex }
        else { d with bucketIndex := newBucketIndex }
      else d) }

/-- AdvancedHashTable.splitBucket (lines 447-469): append a fresh bucket,
redistribute the overflowing bucket's entries by recomputed directory index
(the directory is updated only afterwards, and the recomputation reads only
the directory, so the redistribution is a partition of the old entry list),
then update the directory. -/
def splitBucket {V : Type} (t : AdvancedHashTable V) (bucketIndex : Nat) :
    AdvancedHashTable V :=
  let bucket := t.bucketAt bucketIndex
  let newBucketIndex := t.buckets.length
  let t1 : AdvancedHashTable V := { t with buckets := t.buckets ++ [{ entries := [] }] }
  let keep := bucket.entries.filter (fun e => decide (t1.getExtendibleHashIndex e.key = bucketIndex))
  let moved := bucket.entries.filter (fun e => decide (¬ t1.getExtendibleHashIndex e.key = bucketIndex))
  let b1 := t1.buckets.set bucketIndex { bucket with entries := keep }
  let t2 : AdvancedHashTable V := { t1 with buckets := b1.set newBucketIndex { entries := moved } }
  updateDirectory t2 bucketIndex newBucketIndex

/-- AdvancedHashTable.setExtendible (lines 415-442).  The source recurses
unconditionally after a split; the fuel counts the remaining rounds and
`none` means the fuel ran out before the call returned. -/
def setExtendible {V : Type} [DecidableEq V] :
    Nat → AdvancedHashTable V → List Nat → V → Option (AdvancedHashTable V)
  | 0, _, _, _ => none
  | fuel + 1, t, key, value =>
    let entry : AHashEntry V := { key := key, value := value }
    let bucketIndex := t.getExtendibleHashIndex key
    let bucket := t.bucketAt bucketIndex
    if bucket.entries.length = 0 then
      some { t with
        buckets := t.buckets.set bucketIndex { bucket with entries := [entry] }
        size := t.size + 1 }
    else
      match bucket.entries.findIdx? (fun e => decide (e.key = key)) with
      | some i =>
        some { t with buckets := t.buckets.set bucketIndex { bucket with entries := bucket.entries.set i entry } }
      | none =>
        if t.bucketCapacity ≤ bucket.entries.length then
          setExtendible fuel (splitBucket t bucketIndex) key value
        else
          some { t with
            buckets := t.buckets.set bucketIndex { bucket with entries := bucket.entries ++ [entry] }
            size := t.size + 1 }

/-- AdvancedHashTable.getExtendible (lines 535-541). -/
def getExtendible {V : Type} (t : AdvancedHashTable V) (key : List Nat) : Option V :=
  let bucketIndex := t.getExtendibleHashIndex key
  let bucket := t.bucketAt bucketIndex
  ((bucket.entries.find? (fun e => decide (e.key = key))).map (fun e => e.value))

/-- AdvancedHashTable.set (lines 158-218), EXTENDIBLE_HASH arm: the method
dispatches straight to setExtendible and returns (lines 165-168).  The other
arms are not exercised by any claim and are left out of the embedding. -/
def AdvancedHashTable.set {V : Type} [DecidableEq V] (fuel : Nat)
    (t : AdvancedHashTable V) (key : List Nat) (value : V) : Option (AdvancedHashTable V) :=
  match t.method with
  | CollisionResolutionMethod.EXTENDIBLE_HASH => setExtendible fuel t key value
  | _ => none

/-- AdvancedHashTable.get (lines 491-530), EXTENDIBLE_HASH arm (line 492-494).
The other arms are not exercised by any claim and are left out. -/
def AdvancedHashTable.get {V : Type} (t : AdvancedHashTable V) (key : List Nat) : Option V :=
  match t.method with
  | CollisionResolutionMethod.EXTENDIBLE_HASH => getExtendible t key
  | _ => none

/-! ## Derived notions used by the statements -/

/-- No live (non-deleted) entry with the given key in a bucket. -/
def NoLiveKey (k : K) (b : List (Entry K V)) : Prop :=
  ∀ e ∈ b, e.deleted = false → e.key ≠ k

instance (k : K) (b : List (Entry K V)) : Decidable (NoLiveKey k b) :=
  List.decidableBAll _ b

/-- An entry is live for key `k`. -/
def liveFor (k : K) (e : Entry K V) : Bool :=
  !e.deleted && decide (e.key = k)

/-- Number of live entries with the given key across the whole structure:
all base buckets plus the overflow area (an overflow slot counts when it
holds a live entry with the key). -/
def liveCount (t : StaticHashTable K V) (k : K) : Nat :=
  t.buckets.flatten.countP (liveFor k) +
    t.overflow.countP (fun o => o.any (liveFor k))

/-- A live entry with the given key is present somewhere in the structure. -/
def LiveIn (t : StaticHashTable K V) (k : K) (e : Entry K V) : Prop :=
  (e ∈ t.buckets.flatten ∨ some e ∈ t.overflow) ∧ liveFor k e = true

/-- Probe position `i` of key `k` is exhausted for insertion: whatever index
probeIndex yields there, its bucket holds no live entry for `k` and is full. -/
def probeExhausted (t : StaticHashTable K V) (k : K) (i : Nat) : Bool :=
  (t.probeIndex k i).all fun idx =>
    decide (NoLiveKey k (t.bucketAt idx.toNat)) &&
      decide (t.bucketCapacity ≤ (t.bucketAt idx.toNat).length)

/-- The claim C3 precondition: the insert exhausts its full attempt budget.
For the probing strategies that means the loop runs all `numBuckets` attempts
without updating or placing (every probe bucket is full and free of a live
entry for the key, and probeIndex itself does not throw); for
SEPARATE_OVERFLOW it means the base bucket is full without a live entry for
the key and every overflow slot is occupied by an entry with a different key. -/
def InsertExhausted (t : StaticHashTable K V) (k : K) : Prop :=
  t.strategy ≠ CollisionStrategy.CHAINED_LINEAR ∧
  ((t.strategy = CollisionStrategy.LINEAR_PROBING ∨
      t.strategy = CollisionStrategy.DOUBLE_HASHING) →
    (t.strategy = CollisionStrategy.DOUBLE_HASHING → t.secondaryHash.isSome = true) ∧
      ∀ i < t.numBuckets, probeExhausted t k i = true) ∧
  (t.strategy = CollisionStrategy.SEPARATE_OVERFLOW →
    NoLiveKey k (t.bucketAt (t.baseIndex k)) ∧
      t.bucketCapacity ≤ (t.bucketAt (t.baseIndex k)).length ∧
      ∀ i < t.overflowSize, ((t.overflow.getD i none).any fun e => decide (e.key ≠ k)) = true)

instance (t : StaticHashTable K V) (k : K) : Decidable (InsertExhausted t k) := by
  unfold InsertExhausted
  infer_instance

/-- State after an insertar call, the thrown case leaving the state behind. -/
def afterInsert (t : StaticHashTable K V) (k : K) (v : V) : StaticHashTable K V :=
  match t.insertar k v with
  | some (_, t2) => t2
  | none => t

/-- State after an eliminar call. -/
def afterDelete (t : StaticHashTable K V) (k : K) : StaticHashTable K V :=
  match t.eliminar k with
  | some (_, t2) => t2
  | none => t

/-- A mutating call on the table: insertar or eliminar. -/
inductive TableOp (K V : Type) where
  | ins (k : K) (v : V)
  | del (k : K)

/-- The key a TableOp touches. -/
def TableOp.key : TableOp K V → K
  | .ins k _ => k
  | .del k => k

/-- Run one TableOp. -/
def applyOp (t : StaticHashTable K V) : TableOp K V → StaticHashTable K V
  | .ins k v => afterInsert t k v
  | .del k => afterDelete t k

/-- Run a sequence of TableOps. -/
def applyOps (t : StaticHashTable K V) (ops : List (TableOp K V)) : StaticHashTable K V :=
  ops.foldl applyOp t

/-- Table states reachable from a freshly constructed table (with at least
one bucket, as the engine divides by numBuckets) by insertar and eliminar
calls; a thrown call does not produce a state. -/
inductive Reachable : StaticHashTable K V → Prop where
  | init (opts : HashStaticOptions K) (h : 0 < opts.numBuckets) :
      Reachable (mkStaticHashTable opts)
  | ins {t t' : StaticHashTable K V} {k : K} {v : V} {r : Bool} (ht : Reachable t)
      (h : t.insertar k v = some (r, t')) : Reachable t'
  | del {t t' : StaticHashTable K V} {k : K} {r : Bool} (ht : Reachable t)
      (h : t.eliminar k = some (r, t')) : Reachable t'

/-! ## Invariants of the probing and separate-overflow strategies -/

/-- Every stored entry sits at one of its own probe positions, and every
earlier position of its probe sequence was (hence, lengths never shrinking,
still is) full. -/
def Placed (t : StaticHashTable K V) : Prop :=
  ∀ b < t.buckets.length, ∀ e ∈ t.bucketAt b,
    ∃ i < t.numBuckets, ∃ idx, t.probeIndex e.key i = some idx ∧ idx.toNat = b ∧
      ∀ j < i, ∀ idx2, t.probeIndex e.key j = some idx2 →
        t.bucketCapacity ≤ (t.bucketAt idx2.toNat).length

/-- Invariant of the LINEAR_PROBING / DOUBLE_HASHING strategies: entries are
placed along their probe sequences and the overflow area is never touched. -/
def ProbInv (t : StaticHashTable K V) : Prop :=
  Placed t ∧ ∀ x ∈ t.overflow, x = none

/-- Invariant of the SEPARATE_OVERFLOW strategy: every bucket entry sits in
its home bucket, occupied overflow slots form a prefix, no two overflow
slots hold entries with the same key (so each key occupies at most one slot,
live or tombstoned), and a live overflow entry means its home bucket is
full. -/
def SepInv (t : StaticHashTable K V) : Prop :=
  (∀ b < t.buckets.length, ∀ e ∈ t.bucketAt b, t.baseIndex e.key = b) ∧
  (∀ i j : Nat, i ≤ j → j < t.overflow.length →
    (t.overflow.getD j none).isSome = true → (t.overflow.getD i none).isSome = true) ∧
  (∀ i j : Nat, i < j → j < t.overflow.length → ∀ ei ej : Entry K V,
    t.overflow.getD i none = some ei → t.overflow.getD j none = some ej →
    ei.key ≠ ej.key) ∧
  (∀ i < t.overflow.length, ∀ e : Entry K V, t.overflow.getD i none = some e →
    e.deleted = false → t.bucketCapacity ≤ (t.bucketAt (t.baseIndex e.key)).length)

/-- Structural well-formedness maintained by every strategy. -/
def WfStatic (t : StaticHashTable K V) : Prop :=
  t.buckets.length = t.numBuckets ∧ t.overflow.length = t.overflowSize ∧ 0 < t.numBuckets

/-- Full invariant of reachable states (trivial for CHAINED_LINEAR, whose
states do satisfy none of the stronger properties). -/
def Inv (t : StaticHashTable K V) : Prop :=
  WfStatic t ∧
  ((t.strategy = CollisionStrategy.LINEAR_PROBING ∨
      t.strategy = CollisionStrategy.DOUBLE_HASHING) →
    ProbInv t ∧ ∀ k, liveCount t k ≤ 1) ∧
  (t.strategy = CollisionStrategy.SEPARATE_OVERFLOW →
    SepInv t ∧ ∀ k, liveCount t k ≤ 1)

/-- A probe attempt the insert scan passes over: the addressed bucket holds
no live entry for the key and is full. -/
def ProbeSkip (t : StaticHashTable K V) (k : K) (i : Nat) : Prop :=
  ∀ idx, t.probeIndex k i = some idx →
    NoLiveKey k (t.bucketAt idx.toNat) ∧
      t.bucketCapacity ≤ (t.bucketAt idx.toNat).length

/-- An overflow slot the scan passes over: occupied by a different key. -/
def SlotSkip (t : StaticHashTable K V) (k : K) (i : Nat) : Prop :=
  ∃ ov, t.overflow.getD i none = some ov ∧ ov.key ≠ k

/-- The configuration and array shapes two tables share: every mutating
operation of the engine preserves all of this. -/
def SameShape (t t' : StaticHashTable K V) : Prop :=
  t'.strategy = t.strategy ∧ t'.primaryHash = t.primaryHash ∧
    t'.secondaryHash = t.secondaryHash ∧ t'.bucketCapacity = t.bucketCapacity ∧
    t'.numBuckets = t.numBuckets ∧ t'.overflowSize = t.overflowSize ∧
    t'.buckets.length = t.buckets.length ∧ t'.overflow.length = t.overflow.length

/-! ## Concrete tables used by witnesses and counterexamples -/

/-- CHAINED_LINEAR, 3 buckets of capacity 1, all keys hashing to bucket 0. -/
def chEx0 : StaticHashTable Nat Nat := mkStaticHashTable
  { numBuckets := 3, bucketCapacity := 1, primaryHash := fun _ => 0
    strategy := some CollisionStrategy.CHAINED_LINEAR }

/-- chEx0 after insertar(10,100): key 10 lands in bucket 0. -/
def chEx1 : StaticHashTable Nat Nat := afterInsert chEx0 10 100

/-- chEx1 after insertar(7,70): bucket 0 full, key 7 chains into bucket 1. -/
def chEx2 : StaticHashTable Nat Nat := afterInsert chEx1 7 70

/-- chEx2 after insertar(7,71): bucket 0 holds no 7 and is full, buckets 1
is full, so a second entry for key 7 is appended in bucket 2. -/
def chEx3 : StaticHashTable Nat Nat := afterInsert chEx2 7 71

/-- CHAINED_LINEAR, 2 buckets of capacity 1. -/
def chDel0 : StaticHashTable Nat Nat := mkStaticHashTable
  { numBuckets := 2, bucketCapacity := 1, primaryHash := fun _ => 0
    strategy := some CollisionStrategy.CHAINED_LINEAR }

/-- chDel0 after insertar(3,30). -/
def chDel1 : StaticHashTable Nat Nat := afterInsert chDel0 3 30

/-- chDel1 after eliminar(3). -/
def chDel2 : StaticHashTable Nat Nat := afterDelete chDel1 3

/-- LINEAR_PROBING, 5 buckets of capacity 2, identity hash (the C9
scenario; keys 0,5,10,... all collide on bucket 0). -/
def lpEx0 : StaticHashTable Int Nat := mkStaticHashTable
  { numBuckets := 5, bucketCapacity := 2, primaryHash := fun k => k }

/-- lpEx0 after inserting the seven colliding keys 0,5,10,15,20,25,30. -/
def lpEx7 : StaticHashTable Int Nat :=
  afterInsert (afterInsert (afterInsert (afterInsert (afterInsert (afterInsert
    (afterInsert lpEx0 0 1) 5 2) 10 3) 15 4) 20 5) 25 6) 30 7

/-- lpEx7 after inserting three more colliding keys 35,40,45: ten entries,
every slot of the table taken. -/
def lpEx10 : StaticHashTable Int Nat :=
  afterInsert (afterInsert (afterInsert lpEx7 35 8) 40 9) 45 10

/-- LINEAR_PROBING, 1 bucket of capacity 1, identity hash. -/
def lpFull0 : StaticHashTable Nat Nat := mkStaticHashTable
  { numBuckets := 1, bucketCapacity := 1, primaryHash := fun k => (k : Int) }

/-- lpFull0 after insertar(1,10): the single slot is taken. -/
def lpFull1 : StaticHashTable Nat Nat := afterInsert lpFull0 1 10

/-- SEPARATE_OVERFLOW, 1 bucket of capacity 1, overflow of size 1. -/
def soEx0 : StaticHashTable Nat Nat := mkStaticHashTable
  { numBuckets := 1, bucketCapacity := 1, primaryHash := fun _ => 0
    strategy := some CollisionStrategy.SEPARATE_OVERFLOW, overflowSize := some 1 }

/-- soEx0 after insertar(1,10) (base bucket) and insertar(2,20) (overflow
slot 0), then eliminar(2): overflow slot 0 holds a tombstoned entry, key 2. -/
def soEx3 : StaticHashTable Nat Nat := afterDelete (afterInsert (afterInsert soEx0 1 10) 2 20) 2

/-- Options selecting DOUBLE_HASHING without a secondary hash. -/
def dhOpts : HashStaticOptions Nat :=
  { numBuckets := 4, bucketCapacity := 1, primaryHash := fun k => (k : Int)
    strategy := some CollisionStrategy.DOUBLE_HASHING }

/-- DOUBLE_HASHING selected without a secondary hash: the constructor accepts
the options without any check. -/
def dhEx0 : StaticHashTable Nat Nat := mkStaticHashTable dhOpts

/-- AdvancedHashTable with EXTENDIBLE_HASH, capacity 4, bucketCapacity 4. -/
def advEx0 : AdvancedHashTable Nat :=
  mkAdvancedHashTable 4 CollisionResolutionMethod.EXTENDIBLE_HASH 4

/-- One extendible insert with ample fuel. -/
def afterSetE (t : AdvancedHashTable Nat) (k : List Nat) (v : Nat) : AdvancedHashTable Nat :=
  (setExtendible 16 t k v).getD t

/-- advEx0 after inserting the single-character keys "a","e","i","m"
(char codes 97,101,105,109): all hash to directory slot 1, bucket 1 fills up. -/
def advOdd4 : AdvancedHashTable Nat :=
  afterSetE (afterSetE (afterSetE (afterSetE advEx0 [97] 1) [101] 2) [105] 3) [109] 4

/-- advOdd4 after inserting "q" (char code 113, directory slot 1): one bucket
split, the directory slot is odd so it is redirected to the new bucket. -/
def advOdd5 : AdvancedHashTable Nat := afterSetE advOdd4 [113] 5

/-- advEx0 after inserting the single-character keys "0","4","8","<"
(char codes 48,52,56,60): all hash to directory slot 0, bucket 0 fills up. -/
def advEven4 : AdvancedHashTable Nat :=
  afterSetE (afterSetE (afterSetE (afterSetE advEx0 [48] 1) [52] 2) [56] 3) [60] 4

/-- Options of the small LINEAR_PROBING table used by the amended-claim
witnesses: 2 buckets of capacity 1, identity hash. -/
def lpWOpts : HashStaticOptions Nat :=
  { numBuckets := 2, bucketCapacity := 1, primaryHash := fun k => (k : Int) }

/-- Fresh witness table. -/
def lpW0 : StaticHashTable Nat Nat := mkStaticHashTable lpWOpts

/-- lpW0 after insertar(0,7). -/
def lpW1 : StaticHashTable Nat Nat := afterInsert lpW0 0 7

/-- lpW1 after insertar(0,9): the live entry for key 0 is overwritten in
place. -/
def lpW2 : StaticHashTable Nat Nat := afterInsert lpW1 0 9

/-! ## Counterexamples on the CHAINED_LINEAR, SEPARATE_OVERFLOW and
LINEAR_PROBING strategies -/

/-- C1, counterexample: under CHAINED_LINEAR, with 3 buckets of capacity 1
and every key hashing to bucket 0, after insertar(10,100) and insertar(7,70)
the call insertar(7,71) returns true yet buscar(7) returns the stale value
70 — the round trip fails immediately, before any delete or overwrite. -/
theorem C1_chained_roundtrip_cex :
    (chEx2.insertar 7 71).map Prod.fst = some true ∧
      (chEx3.buscar 7).map Prod.fst = some (some 70) := by
  constructor <;> decide

/-- C2, counterexample: in the same reachable CHAINED_LINEAR state the key 7
occupies two live entries at once (value 70 in bucket 1 and value 71 in
bucket 2), so the at-most-one-live-entry-per-key invariant fails under that
strategy. -/
theorem C2_chained_uniqueness_cex : liveCount chEx3 7 = 2 := by
  decide

/-- C4, counterexample: under CHAINED_LINEAR, after insertar(3,30),
eliminar(3) returns true but the Entry with key 3 is still physically
present (tombstoned), contradicting the claim that no Entry with the key
remains anywhere. -/
theorem C4_chained_delete_cex :
    (chDel1.eliminar 3).map Prod.fst = some true ∧
      chDel2.buckets.flatten.countP (fun e => decide (e.key = 3)) = 1 := by
  constructor <;> decide

/-- C5, counterexample: under SEPARATE_OVERFLOW with one base slot and one
overflow slot, after the overflow slot's occupant (key 2) is tombstoned,
insertar(3,30) returns false even though a tombstoned slot exists — the code
reuses a tombstoned slot only for an equal key, not regardless of key. -/
theorem C5_overflow_reuse_cex :
    (soEx3.overflow.getD 0 none).any (fun e => e.deleted) = true ∧
      (soEx3.insertar 3 30).map Prod.fst = some false := by
  constructor <;> decide

/-- C8, counterexample: constructing a StaticHashTable with DOUBLE_HASHING
and no secondaryHash succeeds and yields an ordinary table (the constructor
performs no check), and the error instead surfaces when insertar, buscar or
eliminar first computes a probe index — so the failure is not raised at
configuration time. -/
theorem C8_constructor_accepts_missing_secondary :
    dhEx0.strategy = CollisionStrategy.DOUBLE_HASHING ∧
      dhEx0.secondaryHash = none ∧
      dhEx0.buckets = List.replicate 4 [] ∧
      dhEx0.insertar 0 0 = none ∧
      dhEx0.buscar 0 = none ∧
      dhEx0.eliminar 0 = none :=
  ⟨rfl, rfl, rfl, rfl, rfl, rfl⟩

/-- C9, counterexample: in the claimed scenario (5 buckets of capacity 2,
LINEAR_PROBING, seven keys colliding on bucket 0) the insertion of an 8th
colliding key returns true, not false: seven entries cannot fill ten slots. -/
theorem C9_eighth_insert_succeeds_cex :
    (lpEx7.insertar 35 8).map Prod.fst = some true := by
  decide

/-- C9, amended: the seven colliding keys land as the probe formula
prescribes (two directly in bucket 0, the rest pushed along buckets 1..4),
an 8th colliding key still succeeds, and only once all ten slots are taken
(after the 10th key) does insertar report a full table. -/
theorem C9_linear_probing_run :
    lpEx7.buckets.map (List.map Entry.key) = [[0, 5], [10, 15], [20, 25], [30], []] ∧
      (lpEx7.insertar 35 8).map Prod.fst = some true ∧
      lpEx10.buckets.map (List.map Entry.key) =
        [[0, 5], [10, 15], [20, 25], [30, 35], [40, 45]] ∧
      (lpEx10.insertar 50 11).map Prod.fst = some false := by
  refine ⟨by decide, by decide, by decide, by decide⟩

/-! ## Extendible hashing: the split leaves a stuck bucket stuck -/

/-- Setting a list position to the element it already holds changes nothing. -/
theorem list_set_self {α : Type _} :
    ∀ (l : List α) (i : Nat) (h : i < l.length), l.set i (l.get ⟨i, h⟩) = l
  | _ :: _, 0, _ => rfl
  | a :: l, i + 1, h =>
    congrArg (a :: ·) (list_set_self l i (Nat.lt_of_succ_lt_succ h))

/-- mapIdx with a function that fixes every present element is the identity. -/
theorem mapIdx_eq_self {α : Type _} (l : List α) (f : Nat → α → α)
    (h : ∀ i (hi : i < l.length), f i (l.get ⟨i, hi⟩) = l.get ⟨i, hi⟩) :
    l.mapIdx f = l := by
  induction l generalizing f with
  | nil => rfl
  | cons a l ih =>
    rw [List.mapIdx_cons]
    exact congrArg₂ (· :: ·) (h 0 (Nat.succ_pos _))
      (ih _ (fun i hi => h (i + 1) (Nat.succ_lt_succ hi)))

/-- findIdx? misses when no element satisfies the predicate. -/
theorem findIdx_none_of {α : Type _} (p : α → Bool) :
    ∀ (l : List α), (∀ e ∈ l, p e = false) → l.findIdx? p = none
  | [], _ => rfl
  | a :: l, h => by
    have ha := h a (List.mem_cons_self a l)
    have hrest := findIdx_none_of p l (fun e he => h e (List.mem_cons_of_mem a he))
    simp [List.findIdx?_cons, ha, hrest]

/-- When every entry of the overfull bucket re-addresses to the same bucket
and every directory slot pointing at it is even, splitBucket only appends a
fresh empty bucket: the overfull bucket and the directory are unchanged. -/
theorem splitBucket_stuck_eq {V : Type} (t : AdvancedHashTable V) (b : Nat)
    (hblt : b < t.buckets.length)
    (hredis : ∀ e ∈ (t.bucketAt b).entries, t.getExtendibleHashIndex e.key = b)
    (hdir : ∀ i (hi : i < t.directory.length),
      (t.directory.get ⟨i, hi⟩).bucketIndex = b → i % 2 = 0) :
    splitBucket t b = { t with buckets := t.buckets ++ [{ entries := [] }] } := by
  have hidx : ∀ key, ({ t with buckets := t.buckets ++ [{ entries := [] }] } :
      AdvancedHashTable V).getExtendibleHashIndex key = t.getExtendibleHashIndex key :=
    fun _ => rfl
  have hkeep : (t.bucketAt b).entries.filter
      (fun e => decide (({ t with buckets := t.buckets ++ [{ entries := [] }] } :
        AdvancedHashTable V).getExtendibleHashIndex e.key = b)) = (t.bucketAt b).entries := by
    refine List.filter_eq_self.mpr fun e he => ?_
    rw [hidx]
    exact decide_eq_true (hredis e he)
  have hmoved : (t.bucketAt b).entries.filter
      (fun e => decide (¬ ({ t with buckets := t.buckets ++ [{ entries := [] }] } :
        AdvancedHashTable V).getExtendibleHashIndex e.key = b)) = [] := by
    refine List.filter_eq_nil_iff.mpr fun e he => ?_
    rw [hidx]
    simp [hredis e he]
  have hblt2 : b < (t.buckets ++ [({ entries := [] } : ABucket V)]).length := by
    rw [List.length_append]; exact Nat.lt_succ_of_lt hblt
  have hgetb : (t.buckets ++ [({ entries := [] } : ABucket V)]).get ⟨b, hblt2⟩ =
      t.bucketAt b := by
    rw [List.get_eq_getElem, List.getElem_append_left hblt]
    unfold AdvancedHashTable.bucketAt
    rw [List.getD_eq_getElem _ _ hblt]
  have hsetb := list_set_self (t.buckets ++ [({ entries := [] } : ABucket V)]) b hblt2
  rw [hgetb] at hsetb
  have hlen : t.buckets.length < (t.buckets ++ [({ entries := [] } : ABucket V)]).length := by
    rw [List.length_append]; exact Nat.lt_succ_of_le (Nat.le_refl _)
  have hgetL : (t.buckets ++ [({ entries := [] } : ABucket V)]).get
      ⟨t.buckets.length, hlen⟩ = { entries := [] } := by
    rw [List.get_eq_getElem, List.getElem_append_right (Nat.le_refl _)]
    simp
  have hsetL := list_set_self (t.buckets ++ [({ entries := [] } : ABucket V)])
    t.buckets.length hlen
  rw [hgetL] at hsetL
  have hmap : t.directory.mapIdx (fun i d =>
      if d.bucketIndex = b then
        if i % 2 = 0 then { d with bucketIndex := b }
        else { d with bucketIndex := t.buckets.length }
      else d) = t.directory := by
    refine mapIdx_eq_self _ _ fun i hi => ?_
    by_cases hqb : (t.directory.get ⟨i, hi⟩).bucketIndex = b
    · rw [if_pos hqb, if_pos (hdir i hi hqb)]
      cases hq : t.directory.get ⟨i, hi⟩ with
      | mk bi d => rw [hq] at hqb; cases hqb; rfl
    · rw [if_neg hqb]
  simp only [splitBucket, updateDirectory]
  rw [hkeep, hmoved]
  have hbucket : ({ (t.bucketAt b) with entries := (t.bucketAt b).entries } : ABucket V) =
      t.bucketAt b := rfl
  rw [hbucket, hsetb, hsetL, hmap]

/-- A bucket that is full of entries which all re-address to it, addressed
through even directory slots only, makes setExtendible recurse forever:
every split appends an empty bucket the directory never points at, and
retries in an equivalent state. -/
theorem setExtendible_stuck {V : Type} [DecidableEq V] (k : List Nat) (v : V) (b : Nat) :
    ∀ (fuel : Nat) (t : AdvancedHashTable V),
      b = t.getExtendibleHashIndex k →
      b < t.buckets.length →
      0 < t.bucketCapacity →
      t.bucketCapacity ≤ (t.bucketAt b).entries.length →
      (∀ e ∈ (t.bucketAt b).entries, ¬ e.key = k) →
      (∀ e ∈ (t.bucketAt b).entries, t.getExtendibleHashIndex e.key = b) →
      (∀ i (hi : i < t.directory.length),
        (t.directory.get ⟨i, hi⟩).bucketIndex = b → i % 2 = 0) →
      setExtendible fuel t k v = none
  | 0, _, _, _, _, _, _, _, _ => rfl
  | fuel + 1, t, hb, hblt, hcap, hfull, hnk, hredis, hdir => by
    have hsplit := splitBucket_stuck_eq t b hblt hredis hdir
    have hne : ¬ (t.bucketAt (t.getExtendibleHashIndex k)).entries.length = 0 := by
      rw [← hb]
      exact Nat.ne_of_gt (Nat.lt_of_lt_of_le hcap hfull)
    have hfind : (t.bucketAt (t.getExtendibleHashIndex k)).entries.findIdx?
        (fun e => decide (e.key = k)) = none := by
      rw [← hb]
      exact findIdx_none_of _ _ fun e he => by
        simpa using hnk e he
    show setExtendible (fuel + 1) t k v = none
    rw [setExtendible, if_neg hne, hfind]
    simp only
    rw [if_pos (by rw [← hb]; exact hfull)]
    rw [← hb, hsplit]
    refine setExtendible_stuck k v b fuel _ hb ?_ hcap ?_ ?_ ?_ ?_
    · show b < (t.buckets ++ [({ entries := [] } : ABucket V)]).length
      rw [List.length_append]
      exact Nat.lt_succ_of_lt hblt
    · show t.bucketCapacity ≤
        ((t.buckets ++ [({ entries := [] } : ABucket V)]).getD b { entries := [] }).entries.length
      rwa [List.getD_append _ _ _ _ hblt]
    · show ∀ e ∈ ((t.buckets ++ [({ entries := [] } : ABucket V)]).getD b
        { entries := [] }).entries, ¬ e.key = k
      rwa [List.getD_append _ _ _ _ hblt]
    · show ∀ e ∈ ((t.buckets ++ [({ entries := [] } : ABucket V)]).getD b
        { entries := [] }).entries, _
      rw [List.getD_append _ _ _ _ hblt]
      exact hredis
    · exact hdir

/-- C6: in the claimed scenario (EXTENDIBLE_HASH, capacity 4, bucketCapacity
4, five keys hashing to the same low-order directory bits — here the
single-character keys with codes 97,101,105,109,113, all addressed through
directory slot 1) the code performs exactly one bucket split (4 buckets
before, 5 after), but the directory size stays 4 instead of doubling, and
only the 5th key remains retrievable: the directory slot is redirected to
the new bucket while the first four keys stay in the old one, so get loses
them. -/
theorem C6_extendible_split_run :
    advOdd4.buckets.length = 4 ∧
      (advOdd4.buckets.map fun b => b.entries.map (fun e => e.key)) =
        [[], [[97], [101], [105], [109]], [], []] ∧
      advOdd5.buckets.length = 5 ∧
      advOdd5.directory.length = 4 ∧
      advOdd5.get [113] = some 5 ∧
      advOdd5.get [97] = none ∧
      advOdd5.get [101] = none ∧
      advOdd5.get [105] = none ∧
      advOdd5.get [109] = none := by
  refine ⟨by decide, by decide, by decide, by decide, by decide, by decide, by decide,
    by decide, by decide⟩

/-- C7: AdvancedHashTable.set under EXTENDIBLE_HASH does not terminate on
every input: with capacity 4 and bucketCapacity 4, after four keys addressed
through directory slot 0 (codes 48,52,56,60) fill bucket 0, inserting a
fifth slot-0 key (code 64) recurses forever — every split re-addresses all
entries back to the full bucket and leaves the even directory slot
unchanged, so no fuel bound suffices for setExtendible to return. -/
theorem C7_setExtendible_diverges :
    ∀ fuel : Nat, setExtendible fuel advEven4 [64] (5 : Nat) = none := by
  intro fuel
  exact setExtendible_stuck [64] 5 0 fuel advEven4 (by decide) (by decide) (by decide)
    (by decide) (by decide) (by decide) (by decide)

/-! ## buscar is pure (C10) -/

/-- The probing search loop always hands back the table it was given. -/
theorem buscarProbe_snd (t : StaticHashTable K V) (k : K) :
    ∀ (is : List Nat) (r : Option V × StaticHashTable K V),
      buscarProbe t k is = some r → r.2 = t := by
  intro is
  induction is with
  | nil =>
    intro r h
    rw [buscarProbe] at h
    cases h
    rfl
  | cons i rest ih =>
    intro r h
    rw [buscarProbe] at h
    split at h
    · cases h
    · split at h
      · cases h
        rfl
      · exact ih r h

/-- C10: buscar never mutates the table.  In the state-passing embedding,
whenever `buscar` returns (does not throw), the table it hands back is the
very table it was given — every bucket, the overflow area and every scalar
field included. -/
theorem C10_buscar_pure (t : StaticHashTable K V) (k : K)
    (r : Option V × StaticHashTable K V) (h : t.buscar k = some r) : r.2 = t := by
  rcases hs : t.strategy with _ | _ | _ | _ <;>
    simp only [StaticHashTable.buscar, hs] at h
  · exact buscarProbe_snd t k _ r h
  · cases h; rfl
  · exact buscarProbe_snd t k _ r h
  · rcases hfl : findLive k (t.bucketAt (t.baseIndex k)) with _ | v <;> rw [hfl] at h <;>
      cases h <;> rfl

/-- C10, witness: buscar on the concrete ten-entry LINEAR_PROBING table
returns and, by C10_buscar_pure, hands back that same table. -/
theorem C10_buscar_pure_witness : (lpEx10.buscar 0).map Prod.snd = some lpEx10 := by
  have h : lpEx10.buscar 0 = some (some 1, lpEx10) := rfl
  rw [h]
  exact congrArg some (C10_buscar_pure lpEx10 0 (some 1, lpEx10) h)

/-! ## The missing-secondary-hash error is raised at call time (C8) -/

/-- Under DOUBLE_HASHING with no secondary hash, probeIndex throws. -/
theorem probeIndex_none_of (t : StaticHashTable K V) (k : K) (i : Nat)
    (hs : t.strategy = CollisionStrategy.DOUBLE_HASHING)
    (hsec : t.secondaryHash = none) : t.probeIndex k i = none := by
  simp [StaticHashTable.probeIndex, hs, hsec]

/-- C8, amended: selecting DOUBLE_HASHING without a secondaryHash is not
detected by the StaticHashTable constructor at all — the constructor
succeeds and stores the configuration verbatim — and the error is thrown
only when insertar, buscar or eliminar first computes a probe index. -/
theorem C8_deferred_secondary_error (opts : HashStaticOptions K) (k : K) (v : V)
    (h1 : opts.strategy = some CollisionStrategy.DOUBLE_HASHING)
    (h2 : opts.secondaryHash = none)
    (h3 : 0 < opts.numBuckets) :
    (mkStaticHashTable opts : StaticHashTable K V).strategy =
        CollisionStrategy.DOUBLE_HASHING ∧
      (mkStaticHashTable opts : StaticHashTable K V).secondaryHash = none ∧
      (mkStaticHashTable opts : StaticHashTable K V).insertar k v = none ∧
      (mkStaticHashTable opts : StaticHashTable K V).buscar k = none ∧
      (mkStaticHashTable opts : StaticHashTable K V).eliminar k = none := by
  set t : StaticHashTable K V := mkStaticHashTable opts with ht
  have hs : t.strategy = CollisionStrategy.DOUBLE_HASHING := by
    rw [ht]; simp [mkStaticHashTable, h1]
  have hsec : t.secondaryHash = none := by
    rw [ht]; simp [mkStaticHashTable, h2]
  have hm : 0 < t.numBuckets := by
    rw [ht]; simpa [mkStaticHashTable] using h3
  obtain ⟨m, hmeq⟩ : ∃ m, t.numBuckets = m + 1 :=
    ⟨t.numBuckets - 1, (Nat.succ_pred_eq_of_pos hm).symm⟩
  have hrange : List.range t.numBuckets = 0 :: (List.range m).map Nat.succ := by
    rw [hmeq, List.range_succ_eq_map]
  refine ⟨hs, hsec, ?_, ?_, ?_⟩
  · rw [StaticHashTable.insertar]
    rw [hs]
    simp only
    rw [hrange, insertProbe, probeIndex_none_of t k 0 hs hsec]
  · rw [StaticHashTable.buscar]
    rw [hs]
    simp only
    rw [hrange, buscarProbe, probeIndex_none_of t k 0 hs hsec]
  · rw [StaticHashTable.eliminar]
    rw [hs]
    simp only
    rw [hrange, eliminarProbe, probeIndex_none_of t k 0 hs hsec]

/-- C8, witness: the amended claim applied to the concrete misconfigured
table dhEx0. -/
theorem C8_deferred_secondary_error_witness :
    dhEx0.strategy = CollisionStrategy.DOUBLE_HASHING ∧
      dhEx0.secondaryHash = none ∧
      dhEx0.insertar 1 2 = none ∧
      dhEx0.buscar 1 = none ∧
      dhEx0.eliminar 1 = none := by
  have h := C8_deferred_secondary_error dhOpts 1 (2 : Nat) rfl rfl (by decide)
  unfold dhEx0
  exact h

/-! ## eliminar under CHAINED_LINEAR tombstones (C4) -/

/-- tombstoneLive preserves the number of entries. -/
theorem tombstoneLive_length (k : K) :
    ∀ (b b2 : List (Entry K V)), tombstoneLive k b = some b2 → b2.length = b.length := by
  intro b
  induction b with
  | nil => intro b2 h; cases h
  | cons e es ih =>
    intro b2 h
    rw [tombstoneLive] at h
    by_cases hc : e.deleted = false ∧ e.key = k
    · rw [if_pos hc] at h
      cases h
      rfl
    · rw [if_neg hc] at h
      rcases hrec : tombstoneLive k es with _ | es2
      · rw [hrec] at h; cases h
      · rw [hrec] at h
        cases h
        simpa using ih es2 hrec

/-- tombstoneLive leaves a tombstoned entry with the key in place. -/
theorem tombstoneLive_mem (k : K) :
    ∀ (b b2 : List (Entry K V)), tombstoneLive k b = some b2 →
      ∃ e ∈ b2, e.key = k ∧ e.deleted = true := by
  intro b
  induction b with
  | nil => intro b2 h; cases h
  | cons e es ih =>
    intro b2 h
    rw [tombstoneLive] at h
    by_cases hc : e.deleted = false ∧ e.key = k
    · rw [if_pos hc] at h
      cases h
      exact ⟨{ e with deleted := true }, List.mem_cons_self _ _, hc.2, rfl⟩
    · rw [if_neg hc] at h
      rcases hrec : tombstoneLive k es with _ | es2
      · rw [hrec] at h; cases h
      · rw [hrec] at h
        cases h
        obtain ⟨e2, hmem, hk, hd⟩ := ih es2 hrec
        exact ⟨e2, List.mem_cons_of_mem _ hmem, hk, hd⟩

/-- The chained delete loop, when it reports success, has tombstoned one
entry in place: the overflow area is untouched, every bucket keeps its
length, and a tombstoned entry with the key is present. -/
theorem eliminarChained_tombstones (t : StaticHashTable K V) (k : K) :
    ∀ (n cursor : Nat) (t' : StaticHashTable K V),
      eliminarChained t k n cursor = (true, t') →
      t'.overflow = t.overflow ∧
        t'.buckets.map List.length = t.buckets.map List.length ∧
        ∃ e ∈ t'.buckets.flatten, e.key = k ∧ e.deleted = true := by
  intro n
  induction n with
  | zero => intro cursor t' h; cases h
  | succ n ih =>
    intro cursor t' h
    rw [eliminarChained] at h
    rcases hts : tombstoneLive k (t.bucketAt cursor) with _ | b2
    · rw [hts] at h
      exact ih _ t' h
    · rw [hts] at h
      cases h
      have hlt : cursor < t.buckets.length := by
        by_contra hge
        have : t.bucketAt cursor = [] := List.getD_eq_default _ _ (Nat.le_of_not_lt hge)
        rw [this] at hts
        cases hts
      have hgetc : (t.buckets.map List.length).get
          ⟨cursor, by rw [List.length_map]; exact hlt⟩ = (t.bucketAt cursor).length := by
        rw [List.get_eq_getElem, List.getElem_map]
        unfold StaticHashTable.bucketAt
        rw [List.getD_eq_getElem _ _ hlt]
      refine ⟨rfl, ?_, ?_⟩
      · show (t.buckets.set cursor b2).map List.length = t.buckets.map List.length
        rw [List.map_set]
        rw [tombstoneLive_length k _ _ hts, ← hgetc]
        exact list_set_self _ cursor (by rw [List.length_map]; exact hlt)
      · obtain ⟨e, hmem, hk, hd⟩ := tombstoneLive_mem k _ _ hts
        refine ⟨e, List.mem_flatten.mpr ⟨b2, ?_, hmem⟩, hk, hd⟩
        have hcur2 : cursor < (t.buckets.set cursor b2).length := by
          rw [List.length_set]; exact hlt
        have hset : (t.buckets.set cursor b2).get ⟨cursor, hcur2⟩ = b2 := by
          rw [List.get_eq_getElem]
          exact List.getElem_set_self hcur2
        have hmm2 := List.get_mem (t.buckets.set cursor b2) cursor hcur2
        rw [hset] at hmm2
        exact hmm2

/-- C4, amended: under CHAINED_LINEAR, eliminar(k) on a table containing a
live entry for k performs logical deletion, not splicing: when it returns
true the overflow area is untouched, every bucket keeps its exact length
(nothing was spliced out), and an Entry with key k — now marked deleted —
remains in the structure. -/
theorem C4_chained_delete_tombstones (t t' : StaticHashTable K V) (k : K)
    (hs : t.strategy = CollisionStrategy.CHAINED_LINEAR)
    (h : t.eliminar k = some (true, t')) :
    t'.overflow = t.overflow ∧
      t'.buckets.map List.length = t.buckets.map List.length ∧
      ∃ e ∈ t'.buckets.flatten, e.key = k ∧ e.deleted = true := by
  simp only [StaticHashTable.eliminar, hs, Option.some.injEq] at h
  exact eliminarChained_tombstones t k t.numBuckets (t.baseIndex k) t' h

/-- C4, witness: the amended claim applied to the concrete chained table
chDel1 holding key 3; its lengths are preserved after eliminar(3). -/
theorem C4_chained_delete_tombstones_witness :
    chDel2.overflow = chDel1.overflow ∧
      chDel2.buckets.map List.length = chDel1.buckets.map List.length :=
  And.intro (C4_chained_delete_tombstones chDel1 chDel2 3 rfl (by rfl)).1
    (C4_chained_delete_tombstones chDel1 chDel2 3 rfl (by rfl)).2.1

/-! ## Exhausted inserts fail without touching the table (C3) -/

/-- The update loop misses exactly when the bucket has no live entry with
the key. -/
theorem updateLive_eq_none_iff (k : K) (v : V) :
    ∀ b : List (Entry K V), updateLive k v b = none ↔ NoLiveKey k b := by
  intro b
  induction b with
  | nil =>
    exact ⟨fun _ e he _ _ => absurd he (List.not_mem_nil e), fun _ => rfl⟩
  | cons e es ih =>
    rw [updateLive]
    by_cases hc : e.deleted = false ∧ e.key = k
    · rw [if_pos hc]
      exact ⟨fun h => Option.noConfusion h, fun hno =>
        absurd hc.2 (hno e (List.mem_cons_self _ _) hc.1)⟩
    · rw [if_neg hc]
      constructor
      · intro h
        have hes : updateLive k v es = none := by
          rcases hrec : updateLive k v es with _ | es2
          · rfl
          · rw [hrec] at h; cases h
        intro e2 he2 hd hk
        rcases List.mem_cons.mp he2 with he2 | he2
        · exact hc (he2 ▸ ⟨hd, hk⟩)
        · exact (ih.mp hes) e2 he2 hd hk
      · intro hno
        have : updateLive k v es = none :=
          ih.mpr fun e2 he2 => hno e2 (List.mem_cons_of_mem _ he2)
        rw [this]
        rfl

/-- Under a present secondary hash (when needed) probeIndex never throws. -/
theorem probeIndex_isSome (t : StaticHashTable K V) (k : K) (i : Nat)
    (hsec : t.strategy = CollisionStrategy.DOUBLE_HASHING → t.secondaryHash.isSome = true) :
    ∃ idx, t.probeIndex k i = some idx := by
  by_cases hs : t.strategy = CollisionStrategy.DOUBLE_HASHING
  · obtain ⟨sh, hsh⟩ := Option.isSome_iff_exists.mp (hsec hs)
    simp only [StaticHashTable.probeIndex, hs, hsh, if_true]
    exact ⟨_, rfl⟩
  · simp only [StaticHashTable.probeIndex, if_neg hs]
    exact ⟨_, rfl⟩

/-- A probing insert over attempts that are all exhausted fails and leaves
the table alone. -/
theorem insertProbe_exhausted (t : StaticHashTable K V) (k : K) (v : V)
    (hsec : t.strategy = CollisionStrategy.DOUBLE_HASHING → t.secondaryHash.isSome = true) :
    ∀ is : List Nat, (∀ i ∈ is, probeExhausted t k i = true) →
      insertProbe t k v is = some (false, t) := by
  intro is
  induction is with
  | nil => intro _; rfl
  | cons i rest ih =>
    intro hall
    obtain ⟨idx, hidx⟩ := probeIndex_isSome t k i hsec
    have hex := hall i (List.mem_cons_self _ _)
    rw [probeExhausted, hidx, Option.all_some] at hex
    rw [Bool.and_eq_true, decide_eq_true_eq, decide_eq_true_eq] at hex
    have hupd := (updateLive_eq_none_iff k v (t.bucketAt idx.toNat)).mpr hex.1
    simp only [insertProbe, hidx, hupd]
    rw [if_neg (Nat.not_lt.mpr hex.2)]
    exact ih fun j hj => hall j (List.mem_cons_of_mem _ hj)

/-- The overflow scan over slots that are all taken by other keys fails and
leaves the table alone. -/
theorem overflowScan_nomatch (t : StaticHashTable K V) (k : K) (v : V) :
    ∀ is : List Nat,
      (∀ i ∈ is, ((t.overflow.getD i none).any fun e => decide (e.key ≠ k)) = true) →
      overflowScan t k v is = (false, t) := by
  intro is
  induction is with
  | nil => intro _; rfl
  | cons i rest ih =>
    intro hall
    have hi := hall i (List.mem_cons_self _ _)
    rcases hslot : t.overflow.getD i none with _ | ov
    · rw [hslot] at hi; cases hi
    · rw [hslot, Option.any_some, decide_eq_true_eq] at hi
      simp only [overflowScan, hslot]
      rw [if_neg (fun hcontra => hi hcontra.2), if_neg (fun hcontra => hi hcontra.2)]
      exact ih fun j hj => hall j (List.mem_cons_of_mem _ hj)

/-- C3: when an insert exhausts its full attempt budget — every probe
position full and free of the key for the probing strategies, or base
bucket full and every overflow slot taken by a different key for
SEPARATE_OVERFLOW — insertar returns the boolean false (no exception), the
entry is stored nowhere, and the table returned is the table passed in,
unchanged. -/
theorem C3_table_full_returns_false (t : StaticHashTable K V) (k : K) (v : V)
    (h : InsertExhausted t k) : t.insertar k v = some (false, t) := by
  obtain ⟨hnc, hprob, hsep⟩ := h
  rcases hs : t.strategy with _ | _ | _ | _
  · obtain ⟨hsec, hall⟩ := hprob (Or.inl hs)
    simp only [StaticHashTable.insertar, hs]
    exact insertProbe_exhausted t k v hsec _ fun i hi =>
      hall i (List.mem_range.mp hi)
  · exact absurd hs hnc
  · obtain ⟨hsec, hall⟩ := hprob (Or.inr hs)
    simp only [StaticHashTable.insertar, hs]
    exact insertProbe_exhausted t k v hsec _ fun i hi =>
      hall i (List.mem_range.mp hi)
  · obtain ⟨hnolive, hfull, hslots⟩ := hsep hs
    have hupd := (updateLive_eq_none_iff k v (t.bucketAt (t.baseIndex k))).mpr hnolive
    simp only [StaticHashTable.insertar, hs, hupd]
    rw [if_neg (Nat.not_lt.mpr hfull)]
    rw [overflowScan_nomatch t k v _ fun i hi => hslots i (List.mem_range.mp hi)]

/-- C3, witness: the concrete full LINEAR_PROBING table lpFull1 (one bucket
of capacity one, already holding key 1) rejects key 2 and is returned
unchanged. -/
theorem C3_table_full_returns_false_witness :
    lpFull1.insertar 2 20 = some (false, lpFull1) :=
  C3_table_full_returns_false lpFull1 2 20 (by decide)

/-! ## Overflow placement under SEPARATE_OVERFLOW (C5) -/

/-- Splitting an index range at a position. -/
theorem range_split (n j : Nat) (h : j ≤ n) :
    List.range n = List.range' 0 j ++ List.range' j (n - j) := by
  rw [List.range_eq_range']
  have h2 := List.range'_append 0 j (n - j) 1
  simp only [Nat.one_mul, Nat.zero_add] at h2
  rw [h2]
  congr 1
  omega

/-- The overflow scan passes over any prefix of slots taken by other keys. -/
theorem overflowScan_skip (t : StaticHashTable K V) (k : K) (v : V) :
    ∀ is1 is2 : List Nat,
      (∀ i ∈ is1, ((t.overflow.getD i none).any fun e => decide (e.key ≠ k)) = true) →
      overflowScan t k v (is1 ++ is2) = overflowScan t k v is2 := by
  intro is1
  induction is1 with
  | nil => intro is2 _; rfl
  | cons i rest ih =>
    intro is2 hall
    have hi := hall i (List.mem_cons_self _ _)
    rcases hslot : t.overflow.getD i none with _ | ov
    · rw [hslot] at hi; cases hi
    · rw [hslot, Option.any_some, decide_eq_true_eq] at hi
      rw [List.cons_append]
      simp only [overflowScan, hslot]
      rw [if_neg (fun hcontra => hi hcontra.2), if_neg (fun hcontra => hi hcontra.2)]
      exact ih is2 fun j hj => hall j (List.mem_cons_of_mem _ hj)

/-- The overflow scan places a fresh entry at a slot that is free or holds a
tombstoned occupant with the same key. -/
theorem overflowScan_place (t : StaticHashTable K V) (k : K) (v : V) (j : Nat)
    (rest : List Nat)
    (husable : t.overflow.getD j none = none ∨
      ∃ e, t.overflow.getD j none = some e ∧ e.deleted = true ∧ e.key = k) :
    overflowScan t k v (j :: rest) =
      (true, { t with overflow := t.overflow.set j (some { key := k, value := v }) }) := by
  rcases husable with hnone | ⟨e, hsome, hdel, hkey⟩
  · simp only [overflowScan, hnone]
  · simp only [overflowScan, hsome]
    rw [if_pos ⟨hdel, hkey⟩]

/-- If some scanned slot is free or keyed with the inserted key, the scan
reports success. -/
theorem overflowScan_hits (t : StaticHashTable K V) (k : K) (v : V) :
    ∀ is : List Nat,
      (∃ i ∈ is, ((t.overflow.getD i none).any fun e => decide (e.key ≠ k)) = false) →
      (overflowScan t k v is).1 = true := by
  intro is
  induction is with
  | nil => rintro ⟨i, hi, _⟩; cases hi
  | cons i rest ih =>
    rintro ⟨i2, hi2, hfalse⟩
    rcases hslot : t.overflow.getD i none with _ | ov
    · simp only [overflowScan, hslot]
    · by_cases hc1 : ov.deleted = true ∧ ov.key = k
      · simp only [overflowScan, hslot]
        rw [if_pos hc1]
      · by_cases hc2 : ov.deleted = false ∧ ov.key = k
        · simp only [overflowScan, hslot]
          rw [if_neg hc1, if_pos hc2]
        · simp only [overflowScan, hslot]
          rw [if_neg hc1, if_neg hc2]
          refine ih ⟨i2, ?_, hfalse⟩
          rcases List.mem_cons.mp hi2 with hh | hh
          · exfalso
            subst hh
            rw [hslot, Option.any_some] at hfalse
            have hkey : ov.key = k := not_not.mp (of_decide_eq_false hfalse)
            rcases Bool.eq_false_or_eq_true ov.deleted with hd | hd
            · exact hc1 ⟨hd, hkey⟩
            · exact hc2 ⟨hd, hkey⟩
          · exact hh

/-- C5, amended: under SEPARATE_OVERFLOW, when the base bucket is full with
no live entry for k, the insert places a fresh entry in the OverflowArea's
first slot that is free or holds a tombstoned occupant with an equal key —
tombstoned slots of other keys are skipped, not reused — and insertar
returns false exactly when every overflow slot holds an entry (live or
tombstoned) whose key differs from k. -/
theorem C5_overflow_placement_amended (t : StaticHashTable K V) (k : K) (v : V)
    (hs : t.strategy = CollisionStrategy.SEPARATE_OVERFLOW)
    (hfull : t.bucketCapacity ≤ (t.bucketAt (t.baseIndex k)).length)
    (hnolive : NoLiveKey k (t.bucketAt (t.baseIndex k))) :
    ((t.insertar k v).map Prod.fst = some false ↔
      ∀ i < t.overflowSize,
        ((t.overflow.getD i none).any fun e => decide (e.key ≠ k)) = true) ∧
    ∀ j < t.overflowSize,
      (t.overflow.getD j none = none ∨
        ∃ e, t.overflow.getD j none = some e ∧ e.deleted = true ∧ e.key = k) →
      (∀ i < j, ((t.overflow.getD i none).any fun e => decide (e.key ≠ k)) = true) →
      t.insertar k v =
        some (true, { t with overflow := t.overflow.set j (some { key := k, value := v }) }) := by
  have hupd := (updateLive_eq_none_iff k v (t.bucketAt (t.baseIndex k))).mpr hnolive
  have hins : t.insertar k v = some (overflowScan t k v (List.range t.overflowSize)) := by
    simp only [StaticHashTable.insertar, hs, hupd]
    rw [if_neg (Nat.not_lt.mpr hfull)]
  constructor
  · rw [hins]
    constructor
    · intro hfalse i hi
      by_contra hne
      have hhit := overflowScan_hits t k v (List.range t.overflowSize)
        ⟨i, List.mem_range.mpr hi, Bool.eq_false_iff.mpr hne⟩
      have hfst : (overflowScan t k v (List.range t.overflowSize)).1 = false :=
        Option.some.inj hfalse
      rw [hfst] at hhit
      cases hhit
    · intro hall
      rw [overflowScan_nomatch t k v _ fun i hi => hall i (List.mem_range.mp hi)]
      rfl
  · intro j hj husable hpre
    rw [hins]
    have hsub : t.overflowSize - j = (t.overflowSize - j - 1) + 1 := by omega
    have hcons : List.range' j (t.overflowSize - j) =
        j :: List.range' (j + 1) (t.overflowSize - j - 1) := by
      conv_lhs => rw [hsub]
      rw [List.range'_succ]
    have hsplit : List.range t.overflowSize =
        List.range' 0 j ++ (j :: List.range' (j + 1) (t.overflowSize - j - 1)) := by
      rw [range_split t.overflowSize j (Nat.le_of_lt hj), hcons]
    rw [hsplit]
    rw [overflowScan_skip t k v _ _ fun i hi => hpre i (by
      have := List.mem_range'_1.mp hi
      omega)]
    rw [overflowScan_place t k v j _ husable]

/-- C5, witness: on the concrete table soEx3 (base full, overflow slot 0
tombstoned with key 2) reinserting key 2 reuses slot 0 with a fresh live
entry, as the amended claim prescribes. -/
theorem C5_overflow_placement_amended_witness :
    soEx3.insertar 2 99 =
      some (true, { soEx3 with overflow := soEx3.overflow.set 0 (some { key := 2, value := 99 }) }) :=
  (C5_overflow_placement_amended soEx3 2 99 rfl (by decide) (by decide)).2 0 (by decide)
    (Or.inr ⟨{ key := 2, value := 20, deleted := true }, by rfl, rfl, rfl⟩)
    (fun i hi => absurd hi (Nat.not_lt_zero i))

/-! ## Arithmetic and list bookkeeping for the reachability invariant -/

/-- The truncated remainder of any integer by a positive integer exceeds its
negation. -/
theorem tmod_gt_neg (a : Int) {b : Int} (hb : 0 < b) : -b < a.tmod b := by
  rcases a with n | n
  · have h0 : (0 : Int) ≤ Int.ofNat n := Int.ofNat_nonneg n
    have := Int.tmod_nonneg b h0
    omega
  · rcases b with m | m
    · have hm : 0 < m := Int.ofNat_pos.mp hb
      have hdef : (Int.negSucc n).tmod (Int.ofNat m) = -Int.ofNat (Nat.succ n % m) := rfl
      rw [hdef]
      exact Int.neg_lt_neg (Int.ofNat_lt.mpr (Nat.mod_lt _ hm))
    · exact absurd hb (by exact not_lt.mpr (le_of_lt (Int.negSucc_lt_zero m)))

/-- StaticHashTable.mod lands in `[0, m)` for positive m, whatever the sign
of its argument — the negative-hash safety property. -/
theorem mod_nonneg_lt (n : Int) {m : Int} (hm : 0 < m) :
    0 ≤ StaticHashTable.mod n m ∧ StaticHashTable.mod n m < m := by
  have h1 : (0 : Int) ≤ n.tmod m + m := by
    have := tmod_gt_neg n hm
    omega
  exact ⟨Int.tmod_nonneg m h1, Int.tmod_lt_of_pos _ hm⟩

/-- The base index is a valid bucket index. -/
theorem baseIndex_lt (t : StaticHashTable K V) (k : K) (hm : 0 < t.numBuckets) :
    t.baseIndex k < t.numBuckets := by
  have hm2 : (0 : Int) < (t.numBuckets : Int) := by exact_mod_cast hm
  have := mod_nonneg_lt (t.primaryHash k) hm2
  rw [StaticHashTable.baseIndex, Int.toNat_lt this.1]
  exact this.2

/-- Whatever probeIndex yields is a valid bucket index. -/
theorem probeIndex_lt (t : StaticHashTable K V) (k : K) (i : Nat) (idx : Int)
    (h : t.probeIndex k i = some idx) (hm : 0 < t.numBuckets) :
    0 ≤ idx ∧ idx.toNat < t.numBuckets := by
  have hm2 : (0 : Int) < (t.numBuckets : Int) := by exact_mod_cast hm
  rw [StaticHashTable.probeIndex] at h
  split at h
  · rcases hsec : t.secondaryHash with _ | sh <;> rw [hsec] at h
    · cases h
    · simp only [Option.some.injEq] at h
      subst h
      have := mod_nonneg_lt (StaticHashTable.mod (t.primaryHash k) t.numBuckets +
        (i : Int) * (if StaticHashTable.mod (sh k) t.numBuckets = 0 then 1
          else StaticHashTable.mod (sh k) t.numBuckets)) hm2
      exact ⟨this.1, by rw [Int.toNat_lt this.1]; exact this.2⟩
  · simp only [Option.some.injEq] at h
    subst h
    have := mod_nonneg_lt (StaticHashTable.mod (t.primaryHash k) t.numBuckets + (i : Int)) hm2
    exact ⟨this.1, by rw [Int.toNat_lt this.1]; exact this.2⟩

/-- A predicate satisfied at most once picks out at most one list member. -/
theorem countP_le_one_unique {α : Type _} (p : α → Bool) :
    ∀ l : List α, l.countP p ≤ 1 →
      ∀ a ∈ l, p a = true → ∀ b ∈ l, p b = true → a = b := by
  intro l
  induction l with
  | nil => intro _ a ha; cases ha
  | cons x xs ih =>
    intro hle a ha hpa b hb hpb
    rw [List.countP_cons] at hle
    by_cases hpx : p x = true
    · rw [if_pos hpx] at hle
      have hzero : xs.countP p = 0 := by omega
      have hnone : ∀ c ∈ xs, ¬p c = true := List.countP_eq_zero.mp hzero
      rcases List.mem_cons.mp ha with rfl | ha2
      · rcases List.mem_cons.mp hb with rfl | hb2
        · rfl
        · exact absurd hpb (hnone b hb2)
      · exact absurd hpa (hnone a ha2)
    · rw [if_neg hpx] at hle
      rcases List.mem_cons.mp ha with rfl | ha2
      · exact absurd hpa hpx
      · rcases List.mem_cons.mp hb with rfl | hb2
        · exact absurd hpb hpx
        · exact ih (by omega) a ha2 hpa b hb2 hpb

/-- Replacing one list element trades its count for the new element's. -/
theorem countP_set_add {α : Type _} (p : α → Bool) :
    ∀ (l : List α) (i : Nat) (h : i < l.length) (a : α),
      (l.set i a).countP p + (if p (l.get ⟨i, h⟩) = true then 1 else 0) =
        l.countP p + (if p a = true then 1 else 0)
  | [], i, h, _ => absurd h (Nat.not_lt_zero i)
  | x :: xs, 0, _, a => by
    simp only [List.set, List.get, List.countP_cons]
    omega
  | x :: xs, i + 1, h, a => by
    simp only [List.set, List.get, List.countP_cons]
    have := countP_set_add p xs i (Nat.lt_of_succ_lt_succ h) a
    omega

/-- Sum after replacing one element, in symmetric form. -/
theorem sum_set_add : ∀ (l : List Nat) (i : Nat) (h : i < l.length) (a : Nat),
    (l.set i a).sum + l.get ⟨i, h⟩ = l.sum + a
  | [], i, h, _ => absurd h (Nat.not_lt_zero i)
  | x :: xs, 0, _, a => by simp [List.set, List.sum_cons]; omega
  | x :: xs, i + 1, h, a => by
    simp only [List.set, List.get, List.sum_cons]
    have := sum_set_add xs i (Nat.lt_of_succ_lt_succ h) a
    omega

/-- Replacing one bucket trades its count for the new bucket's, over the
flattened store. -/
theorem countP_flatten_set {α : Type _} (p : α → Bool) (bs : List (List α)) (i : Nat)
    (h : i < bs.length) (b : List α) :
    (bs.set i b).flatten.countP p + (bs.get ⟨i, h⟩).countP p =
      bs.flatten.countP p + b.countP p := by
  rw [List.countP_flatten, List.countP_flatten, List.map_set]
  have hlen : i < (bs.map (List.countP p)).length := by rw [List.length_map]; exact h
  have := sum_set_add (bs.map (List.countP p)) i hlen (b.countP p)
  have hget : (bs.map (List.countP p)).get ⟨i, hlen⟩ = (bs.get ⟨i, h⟩).countP p := by
    rw [List.get_eq_getElem, List.get_eq_getElem, List.getElem_map]
  omega

/-- One bucket's count is bounded by the whole store's. -/
theorem countP_get_le_flatten {α : Type _} (p : α → Bool) (bs : List (List α)) (i : Nat)
    (h : i < bs.length) : (bs.get ⟨i, h⟩).countP p ≤ bs.flatten.countP p := by
  rw [List.countP_flatten]
  refine List.single_le_sum (fun x _ => Nat.zero_le x) _ ?_
  exact List.mem_map_of_mem _ (List.get_mem bs i h)

/-- Membership in the flattened store, by bucket index. -/
theorem mem_flatten_idx {α : Type _} (a : α) (bs : List (List α)) :
    a ∈ bs.flatten ↔ ∃ i, ∃ h : i < bs.length, a ∈ bs.get ⟨i, h⟩ := by
  rw [List.mem_flatten]
  constructor
  · rintro ⟨l, hl, hal⟩
    obtain ⟨i, hi, heq⟩ := List.mem_iff_getElem.mp hl
    exact ⟨i, hi, by rw [List.get_eq_getElem, heq]; exact hal⟩
  · rintro ⟨i, hi, hal⟩
    exact ⟨bs.get ⟨i, hi⟩, List.get_mem bs i hi, hal⟩

/-- Membership, by slot index with a default. -/
theorem mem_iff_getD {α : Type _} (o : Option α) (l : List (Option α)) :
    o ∈ l ↔ ∃ i, ∃ _ : i < l.length, l.getD i none = o := by
  rw [List.mem_iff_getElem]
  constructor
  · rintro ⟨i, hi, heq⟩
    exact ⟨i, hi, by rw [List.getD_eq_getElem _ _ hi]; exact heq⟩
  · rintro ⟨i, hi, heq⟩
    exact ⟨i, hi, by rw [← List.getD_eq_getElem _ none hi]; exact heq⟩

/-- getD after set, same position. -/
theorem getD_set_self {α : Type _} (l : List α) (i : Nat) (h : i < l.length) (a d : α) :
    (l.set i a).getD i d = a := by
  have h2 : i < (l.set i a).length := by rw [List.length_set]; exact h
  rw [List.getD_eq_getElem _ _ h2]
  exact List.getElem_set_self h2

/-- getD after set, other positions. -/
theorem getD_set_ne {α : Type _} (l : List α) (i j : Nat) (hne : i ≠ j) (a d : α) :
    (l.set i a).getD j d = l.getD j d := by
  by_cases hj : j < l.length
  · have h2 : j < (l.set i a).length := by rw [List.length_set]; exact hj
    rw [List.getD_eq_getElem _ _ h2, List.getD_eq_getElem _ _ hj]
    exact List.getElem_set_ne hne h2
  · rw [List.getD_eq_default _ _ (Nat.le_of_not_lt hj),
      List.getD_eq_default _ _ (by rw [List.length_set]; exact Nat.le_of_not_lt hj)]

/-! ## Positional characterisations of the bucket loops -/

/-- The update loop succeeds exactly by replacing the value of the first
live entry with the key, leaving everything else in place. -/
theorem updateLive_spec (k : K) (v : V) :
    ∀ b b2 : List (Entry K V), updateLive k v b = some b2 →
      ∃ pre e post, b = pre ++ e :: post ∧ NoLiveKey k pre ∧
        e.deleted = false ∧ e.key = k ∧ b2 = pre ++ { e with value := v } :: post := by
  intro b
  induction b with
  | nil => intro b2 h; cases h
  | cons x xs ih =>
    intro b2 h
    rw [updateLive] at h
    by_cases hc : x.deleted = false ∧ x.key = k
    · rw [if_pos hc] at h
      cases h
      exact ⟨[], x, xs, rfl, fun e he => absurd he (List.not_mem_nil e), hc.1, hc.2, rfl⟩
    · rw [if_neg hc] at h
      rcases hrec : updateLive k v xs with _ | xs2
      · rw [hrec] at h; cases h
      · rw [hrec] at h
        cases h
        obtain ⟨pre, e, post, hxs, hpre, hd, hk, hxs2⟩ := ih xs2 hrec
        refine ⟨x :: pre, e, post, by rw [hxs]; rfl, ?_, hd, hk, by rw [hxs2]; rfl⟩
        intro e2 he2 hd2 hk2
        rcases List.mem_cons.mp he2 with rfl | he3
        · exact hc ⟨hd2, hk2⟩
        · exact hpre e2 he3 hd2 hk2

/-- The delete loop succeeds exactly by tombstoning the first live entry
with the key, leaving everything else in place. -/
theorem tombstoneLive_spec (k : K) :
    ∀ b b2 : List (Entry K V), tombstoneLive k b = some b2 →
      ∃ pre e post, b = pre ++ e :: post ∧ NoLiveKey k pre ∧
        e.deleted = false ∧ e.key = k ∧ b2 = pre ++ { e with deleted := true } :: post := by
  intro b
  induction b with
  | nil => intro b2 h; cases h
  | cons x xs ih =>
    intro b2 h
    rw [tombstoneLive] at h
    by_cases hc : x.deleted = false ∧ x.key = k
    · rw [if_pos hc] at h
      cases h
      exact ⟨[], x, xs, rfl, fun e he => absurd he (List.not_mem_nil e), hc.1, hc.2, rfl⟩
    · rw [if_neg hc] at h
      rcases hrec : tombstoneLive k xs with _ | xs2
      · rw [hrec] at h; cases h
      · rw [hrec] at h
        cases h
        obtain ⟨pre, e, post, hxs, hpre, hd, hk, hxs2⟩ := ih xs2 hrec
        refine ⟨x :: pre, e, post, by rw [hxs]; rfl, ?_, hd, hk, by rw [hxs2]; rfl⟩
        intro e2 he2 hd2 hk2
        rcases List.mem_cons.mp he2 with rfl | he3
        · exact hc ⟨hd2, hk2⟩
        · exact hpre e2 he3 hd2 hk2

/-- The search loop misses exactly when no live entry with the key is
present. -/
theorem findLive_eq_none_iff (k : K) :
    ∀ b : List (Entry K V), findLive k b = none ↔ NoLiveKey k b := by
  intro b
  induction b with
  | nil =>
    exact ⟨fun _ e he _ _ => absurd he (List.not_mem_nil e), fun _ => rfl⟩
  | cons x xs ih =>
    rw [findLive]
    by_cases hc : x.deleted = false ∧ x.key = k
    · rw [if_pos hc]
      exact ⟨fun h => Option.noConfusion h, fun hno =>
        absurd hc.2 (hno x (List.mem_cons_self _ _) hc.1)⟩
    · rw [if_neg hc]
      constructor
      · intro h e2 he2 hd hk
        rcases List.mem_cons.mp he2 with rfl | he3
        · exact hc ⟨hd, hk⟩
        · exact (ih.mp h) e2 he3 hd hk
      · intro hno
        exact ih.mpr fun e2 he2 => hno e2 (List.mem_cons_of_mem _ he2)

/-- A hit of the search loop is a live entry with the key and that value. -/
theorem findLive_some (k : K) :
    ∀ (b : List (Entry K V)) (v : V), findLive k b = some v →
      ∃ e ∈ b, e.deleted = false ∧ e.key = k ∧ e.value = v := by
  intro b
  induction b with
  | nil => intro v h; cases h
  | cons x xs ih =>
    intro v h
    rw [findLive] at h
    by_cases hc : x.deleted = false ∧ x.key = k
    · rw [if_pos hc] at h
      cases h
      exact ⟨x, List.mem_cons_self _ _, hc.1, hc.2, rfl⟩
    · rw [if_neg hc] at h
      obtain ⟨e, he, hprops⟩ := ih v h
      exact ⟨e, List.mem_cons_of_mem _ he, hprops⟩

/-! ## Every operation preserves configuration and array shapes -/

theorem sameShape_refl (t : StaticHashTable K V) : SameShape t t :=
  ⟨rfl, rfl, rfl, rfl, rfl, rfl, rfl, rfl⟩

theorem sameShape_setBucket (t : StaticHashTable K V) (i : Nat) (b : List (Entry K V)) :
    SameShape t { t with buckets := t.buckets.set i b } :=
  ⟨rfl, rfl, rfl, rfl, rfl, rfl, List.length_set _ _ _, rfl⟩

theorem sameShape_setOverflow (t : StaticHashTable K V) (i : Nat) (o : Option (Entry K V)) :
    SameShape t { t with overflow := t.overflow.set i o } :=
  ⟨rfl, rfl, rfl, rfl, rfl, rfl, rfl, List.length_set _ _ _⟩

theorem insertProbe_shape (t : StaticHashTable K V) (k : K) (v : V) :
    ∀ (is : List Nat) (r : Bool) (t' : StaticHashTable K V),
      insertProbe t k v is = some (r, t') → SameShape t t' := by
  intro is
  induction is with
  | nil =>
    intro r t' h
    cases h
    exact sameShape_refl t
  | cons i rest ih =>
    intro r t' h
    rw [insertProbe] at h
    split at h
    · cases h
    · dsimp only at h
      split at h
      · cases h
        exact sameShape_setBucket t _ _
      · split at h
        · cases h
          exact sameShape_setBucket t _ _
        · exact ih r t' h

theorem chainedOffsetScan_shape (t : StaticHashTable K V) (k : K) (v : V) (cursor : Nat) :
    ∀ (is : List Nat) (r : Bool) (t' : StaticHashTable K V),
      chainedOffsetScan t k v cursor is = (r, t') → SameShape t t' := by
  intro is
  induction is with
  | nil =>
    intro r t' h
    cases h
    exact sameShape_refl t
  | cons i rest ih =>
    intro r t' h
    rw [chainedOffsetScan] at h
    split at h
    · cases h
      exact sameShape_setBucket t _ _
    · exact ih r t' h

theorem overflowScan_shape (t : StaticHashTable K V) (k : K) (v : V) :
    ∀ (is : List Nat) (r : Bool) (t' : StaticHashTable K V),
      overflowScan t k v is = (r, t') → SameShape t t' := by
  intro is
  induction is with
  | nil =>
    intro r t' h
    cases h
    exact sameShape_refl t
  | cons i rest ih =>
    intro r t' h
    rw [overflowScan] at h
    split at h
    · cases h
      exact sameShape_setOverflow t _ _
    · split at h
      · cases h
        exact sameShape_setOverflow t _ _
      · split at h
        · cases h
          exact sameShape_setOverflow t _ _
        · exact ih r t' h

theorem eliminarProbe_shape (t : StaticHashTable K V) (k : K) :
    ∀ (is : List Nat) (r : Bool) (t' : StaticHashTable K V),
      eliminarProbe t k is = some (r, t') → SameShape t t' := by
  intro is
  induction is with
  | nil =>
    intro r t' h
    cases h
    exact sameShape_refl t
  | cons i rest ih =>
    intro r t' h
    rw [eliminarProbe] at h
    split at h
    · cases h
    · dsimp only at h
      split at h
      · cases h
        exact sameShape_setBucket t _ _
      · exact ih r t' h

theorem eliminarChained_shape (t : StaticHashTable K V) (k : K) :
    ∀ (n cursor : Nat) (r : Bool) (t' : StaticHashTable K V),
      eliminarChained t k n cursor = (r, t') → SameShape t t' := by
  intro n
  induction n with
  | zero =>
    intro cursor r t' h
    cases h
    exact sameShape_refl t
  | succ n ih =>
    intro cursor r t' h
    rw [eliminarChained] at h
    split at h
    · cases h
      exact sameShape_setBucket t _ _
    · exact ih _ r t' h

theorem overflowDelete_shape (t : StaticHashTable K V) (k : K) :
    ∀ (is : List Nat) (r : Bool) (t' : StaticHashTable K V),
      overflowDelete t k is = (r, t') → SameShape t t' := by
  intro is
  induction is with
  | nil =>
    intro r t' h
    cases h
    exact sameShape_refl t
  | cons i rest ih =>
    intro r t' h
    rw [overflowDelete] at h
    split at h
    · split at h
      · cases h
        exact sameShape_setOverflow t _ _
      · exact ih r t' h
    · exact ih r t' h

/-- insertar preserves the configuration and the array shapes. -/
theorem insertar_shape (t : StaticHashTable K V) (k : K) (v : V) (r : Bool)
    (t' : StaticHashTable K V) (h : t.insertar k v = some (r, t')) : SameShape t t' := by
  rw [StaticHashTable.insertar] at h
  dsimp only at h
  split at h
  · exact insertProbe_shape t k v _ r t' h
  · exact insertProbe_shape t k v _ r t' h
  · split at h
    · cases h
      exact sameShape_setBucket t _ _
    · split at h
      · cases h
        exact sameShape_setBucket t _ _
      · exact chainedOffsetScan_shape t k v _ _ r t' (Option.some.inj h)
  · split at h
    · cases h
      exact sameShape_setBucket t _ _
    · split at h
      · cases h
        exact sameShape_setBucket t _ _
      · exact overflowScan_shape t k v _ r t' (Option.some.inj h)

/-- eliminar preserves the configuration and the array shapes. -/
theorem eliminar_shape (t : StaticHashTable K V) (k : K) (r : Bool)
    (t' : StaticHashTable K V) (h : t.eliminar k = some (r, t')) : SameShape t t' := by
  rw [StaticHashTable.eliminar] at h
  split at h
  · exact eliminarProbe_shape t k _ r t' h
  · exact eliminarProbe_shape t k _ r t' h
  · exact eliminarChained_shape t k _ _ r t' (Option.some.inj h)
  · split at h
    · cases h
      exact sameShape_setBucket t _ _
    · exact overflowDelete_shape t k _ r t' (Option.some.inj h)

/-! ## Inversion of the insert and delete scans -/

/-- What a completed probing insert scan can have done: either every attempt
was skipped and the table is untouched, or a first non-skipped attempt
updated an existing live entry or pushed a fresh one into a bucket with
room. -/
theorem insertProbe_inv (t : StaticHashTable K V) (k : K) (v : V) :
    ∀ (is : List Nat) (r : Bool) (t' : StaticHashTable K V),
      insertProbe t k v is = some (r, t') →
      (r = false ∧ t' = t ∧ ∀ i ∈ is, ProbeSkip t k i) ∨
      (r = true ∧ ∃ is1 i is2, is = is1 ++ i :: is2 ∧ (∀ j ∈ is1, ProbeSkip t k j) ∧
        ∃ idx, t.probeIndex k i = some idx ∧
          ((∃ b2, updateLive k v (t.bucketAt idx.toNat) = some b2 ∧
              t' = { t with buckets := t.buckets.set idx.toNat b2 }) ∨
            (updateLive k v (t.bucketAt idx.toNat) = none ∧
              (t.bucketAt idx.toNat).length < t.bucketCapacity ∧
              t' = { t with buckets := t.buckets.set idx.toNat (t.bucketAt idx.toNat ++ [{ key := k, value := v }]) }))) := by
  intro is
  induction is with
  | nil =>
    intro r t' h
    cases h
    exact Or.inl ⟨rfl, rfl, fun i hi => absurd hi (List.not_mem_nil i)⟩
  | cons i rest ih =>
    intro r t' h
    rcases hpi : t.probeIndex k i with _ | idx
    · rw [insertProbe, hpi] at h
      cases h
    · rw [insertProbe, hpi] at h
      dsimp only at h
      rcases hup : updateLive k v (t.bucketAt idx.toNat) with _ | b2
      · rw [hup] at h
        by_cases hlt : (t.bucketAt idx.toNat).length < t.bucketCapacity
        · rw [if_pos hlt] at h
          cases h
          exact Or.inr ⟨rfl, [], i, rest, rfl, fun j hj => absurd hj (List.not_mem_nil j),
            idx, hpi, Or.inr ⟨hup, hlt, rfl⟩⟩
        · rw [if_neg hlt] at h
          have hskipi : ProbeSkip t k i := by
            intro idx2 hidx2
            rw [hpi] at hidx2
            cases hidx2
            exact ⟨(updateLive_eq_none_iff k v _).mp hup, Nat.le_of_not_lt hlt⟩
          rcases ih r t' h with ⟨hr, ht, hskip⟩ | ⟨hr, is1, i2, is2, heq, hskip, hrest⟩
          · refine Or.inl ⟨hr, ht, fun j hj => ?_⟩
            rcases List.mem_cons.mp hj with rfl | hj2
            · exact hskipi
            · exact hskip j hj2
          · refine Or.inr ⟨hr, i :: is1, i2, is2, by rw [heq]; rfl, fun j hj => ?_, hrest⟩
            rcases List.mem_cons.mp hj with rfl | hj2
            · exact hskipi
            · exact hskip j hj2
      · rw [hup] at h
        cases h
        exact Or.inr ⟨rfl, [], i, rest, rfl, fun j hj => absurd hj (List.not_mem_nil j),
          idx, hpi, Or.inl ⟨b2, hup, rfl⟩⟩

/-- What a completed overflow scan can have done: either every slot was
occupied by a different key and the table is untouched, or after a prefix of
such slots it placed a fresh entry on a free or tombstoned-equal-key slot,
or updated a live equal-key slot in place. -/
theorem overflowScan_inv (t : StaticHashTable K V) (k : K) (v : V) :
    ∀ (is : List Nat) (r : Bool) (t' : StaticHashTable K V),
      overflowScan t k v is = (r, t') →
      (r = false ∧ t' = t ∧ ∀ i ∈ is, SlotSkip t k i) ∨
      (r = true ∧ ∃ is1 i is2, is = is1 ++ i :: is2 ∧ (∀ j ∈ is1, SlotSkip t k j) ∧
        (((t.overflow.getD i none = none ∨
            ∃ ov, t.overflow.getD i none = some ov ∧ ov.deleted = true ∧ ov.key = k) ∧
           t' = { t with overflow := t.overflow.set i (some { key := k, value := v }) }) ∨
         (∃ ov, t.overflow.getD i none = some ov ∧ ov.deleted = false ∧ ov.key = k ∧
           t' = { t with overflow := t.overflow.set i (some { ov with value := v }) }))) := by
  intro is
  induction is with
  | nil =>
    intro r t' h
    cases h
    exact Or.inl ⟨rfl, rfl, fun i hi => absurd hi (List.not_mem_nil i)⟩
  | cons i rest ih =>
    intro r t' h
    rcases hslot : t.overflow.getD i none with _ | ov
    · rw [overflowScan, hslot] at h
      cases h
      exact Or.inr ⟨rfl, [], i, rest, rfl, fun j hj => absurd hj (List.not_mem_nil j),
        Or.inl ⟨Or.inl hslot, rfl⟩⟩
    · rw [overflowScan, hslot] at h
      dsimp only at h
      by_cases hc1 : ov.deleted = true ∧ ov.key = k
      · rw [if_pos hc1] at h
        cases h
        exact Or.inr ⟨rfl, [], i, rest, rfl, fun j hj => absurd hj (List.not_mem_nil j),
          Or.inl ⟨Or.inr ⟨ov, hslot, hc1.1, hc1.2⟩, rfl⟩⟩
      · rw [if_neg hc1] at h
        by_cases hc2 : ov.deleted = false ∧ ov.key = k
        · rw [if_pos hc2] at h
          cases h
          exact Or.inr ⟨rfl, [], i, rest, rfl, fun j hj => absurd hj (List.not_mem_nil j),
            Or.inr ⟨ov, hslot, hc2.1, hc2.2, rfl⟩⟩
        · rw [if_neg hc2] at h
          have hskipi : SlotSkip t k i := by
            refine ⟨ov, hslot, fun hk => ?_⟩
            rcases Bool.eq_false_or_eq_true ov.deleted with hd | hd
            · exact hc1 ⟨hd, hk⟩
            · exact hc2 ⟨hd, hk⟩
          rcases ih r t' h with ⟨hr, ht, hskip⟩ | ⟨hr, is1, i2, is2, heq, hskip, hrest⟩
          · refine Or.inl ⟨hr, ht, fun j hj => ?_⟩
            rcases List.mem_cons.mp hj with rfl | hj2
            · exact hskipi
            · exact hskip j hj2
          · refine Or.inr ⟨hr, i :: is1, i2, is2, by rw [heq]; rfl, fun j hj => ?_, hrest⟩
            rcases List.mem_cons.mp hj with rfl | hj2
            · exact hskipi
            · exact hskip j hj2

/-- What a completed probing delete scan can have done. -/
theorem eliminarProbe_inv (t : StaticHashTable K V) (k : K) :
    ∀ (is : List Nat) (r : Bool) (t' : StaticHashTable K V),
      eliminarProbe t k is = some (r, t') →
      (r = false ∧ t' = t) ∨
      (r = true ∧ ∃ i ∈ is, ∃ idx, t.probeIndex k i = some idx ∧
        ∃ b2, tombstoneLive k (t.bucketAt idx.toNat) = some b2 ∧
          t' = { t with buckets := t.buckets.set idx.toNat b2 }) := by
  intro is
  induction is with
  | nil =>
    intro r t' h
    cases h
    exact Or.inl ⟨rfl, rfl⟩
  | cons i rest ih =>
    intro r t' h
    rcases hpi : t.probeIndex k i with _ | idx
    · rw [eliminarProbe, hpi] at h
      cases h
    · rw [eliminarProbe, hpi] at h
      dsimp only at h
      rcases hts : tombstoneLive k (t.bucketAt idx.toNat) with _ | b2
      · rw [hts] at h
        rcases ih r t' h with ⟨hr, ht⟩ | ⟨hr, i2, hi2, hrest⟩
        · exact Or.inl ⟨hr, ht⟩
        · exact Or.inr ⟨hr, i2, List.mem_cons_of_mem _ hi2, hrest⟩
      · rw [hts] at h
        cases h
        exact Or.inr ⟨rfl, i, List.mem_cons_self _ _, idx, hpi, b2, hts, rfl⟩

/-- What a completed overflow delete scan can have done. -/
theorem overflowDelete_inv (t : StaticHashTable K V) (k : K) :
    ∀ (is : List Nat) (r : Bool) (t' : StaticHashTable K V),
      overflowDelete t k is = (r, t') →
      (r = false ∧ t' = t) ∨
      (r = true ∧ ∃ i ∈ is, ∃ ov, t.overflow.getD i none = some ov ∧
        ov.deleted = false ∧ ov.key = k ∧
        t' = { t with overflow := t.overflow.set i (some { ov with deleted := true }) }) := by
  intro is
  induction is with
  | nil =>
    intro r t' h
    cases h
    exact Or.inl ⟨rfl, rfl⟩
  | cons i rest ih =>
    intro r t' h
    rcases hslot : t.overflow.getD i none with _ | ov
    · rw [overflowDelete, hslot] at h
      rcases ih r t' h with ⟨hr, ht⟩ | ⟨hr, i2, hi2, hrest⟩
      · exact Or.inl ⟨hr, ht⟩
      · exact Or.inr ⟨hr, i2, List.mem_cons_of_mem _ hi2, hrest⟩
    · rw [overflowDelete, hslot] at h
      dsimp only at h
      by_cases hc : ov.deleted = false ∧ ov.key = k
      · rw [if_pos hc] at h
        cases h
        exact Or.inr ⟨rfl, i, List.mem_cons_self _ _, ov, hslot, hc.1, hc.2, rfl⟩
      · rw [if_neg hc] at h
        rcases ih r t' h with ⟨hr, ht⟩ | ⟨hr, i2, hi2, hrest⟩
        · exact Or.inl ⟨hr, ht⟩
        · exact Or.inr ⟨hr, i2, List.mem_cons_of_mem _ hi2, hrest⟩

/-! ## Strategy-level unfoldings -/

theorem insertar_eq_probe (t : StaticHashTable K V) (k : K) (v : V)
    (hs : t.strategy = CollisionStrategy.LINEAR_PROBING ∨
      t.strategy = CollisionStrategy.DOUBLE_HASHING) :
    t.insertar k v = insertProbe t k v (List.range t.numBuckets) := by
  rcases hs with hs | hs <;> simp only [StaticHashTable.insertar, hs]

theorem eliminar_eq_probe (t : StaticHashTable K V) (k : K)
    (hs : t.strategy = CollisionStrategy.LINEAR_PROBING ∨
      t.strategy = CollisionStrategy.DOUBLE_HASHING) :
    t.eliminar k = eliminarProbe t k (List.range t.numBuckets) := by
  rcases hs with hs | hs <;> simp only [StaticHashTable.eliminar, hs]

theorem buscar_eq_probe (t : StaticHashTable K V) (k : K)
    (hs : t.strategy = CollisionStrategy.LINEAR_PROBING ∨
      t.strategy = CollisionStrategy.DOUBLE_HASHING) :
    t.buscar k = buscarProbe t k (List.range t.numBuckets) := by
  rcases hs with hs | hs <;> simp only [StaticHashTable.buscar, hs]

/-- Inversion of the SEPARATE_OVERFLOW insert at the strategy level. -/
theorem insertar_sep_inv (t : StaticHashTable K V) (k : K) (v : V) (r : Bool)
    (t' : StaticHashTable K V) (hs : t.strategy = CollisionStrategy.SEPARATE_OVERFLOW)
    (h : t.insertar k v = some (r, t')) :
    (∃ b2, updateLive k v (t.bucketAt (t.baseIndex k)) = some b2 ∧ r = true ∧
      t' = { t with buckets := t.buckets.set (t.baseIndex k) b2 }) ∨
    (updateLive k v (t.bucketAt (t.baseIndex k)) = none ∧
      (t.bucketAt (t.baseIndex k)).length < t.bucketCapacity ∧ r = true ∧
      t' = { t with buckets := t.buckets.set (t.baseIndex k) (t.bucketAt (t.baseIndex k) ++ [{ key := k, value := v }]) }) ∨
    (updateLive k v (t.bucketAt (t.baseIndex k)) = none ∧
      t.bucketCapacity ≤ (t.bucketAt (t.baseIndex k)).length ∧
      overflowScan t k v (List.range t.overflowSize) = (r, t')) := by
  simp only [StaticHashTable.insertar, hs] at h
  rcases hup : updateLive k v (t.bucketAt (t.baseIndex k)) with _ | b2
  · rw [hup] at h
    dsimp only at h
    by_cases hlt : (t.bucketAt (t.baseIndex k)).length < t.bucketCapacity
    · rw [if_pos hlt] at h
      cases h
      refine Or.inr (Or.inl ⟨rfl, hlt, rfl, ?_⟩)
      rw [hs]
    · rw [if_neg hlt] at h
      exact Or.inr (Or.inr ⟨rfl, Nat.le_of_not_lt hlt, Option.some.inj h⟩)
  · rw [hup] at h
    dsimp only at h
    cases h
    refine Or.inl ⟨b2, rfl, rfl, ?_⟩
    rw [hs]

/-- Inversion of the SEPARATE_OVERFLOW delete at the strategy level. -/
theorem eliminar_sep_inv (t : StaticHashTable K V) (k : K) (r : Bool)
    (t' : StaticHashTable K V) (hs : t.strategy = CollisionStrategy.SEPARATE_OVERFLOW)
    (h : t.eliminar k = some (r, t')) :
    (∃ b2, tombstoneLive k (t.bucketAt (t.baseIndex k)) = some b2 ∧ r = true ∧
      t' = { t with buckets := t.buckets.set (t.baseIndex k) b2 }) ∨
    (tombstoneLive k (t.bucketAt (t.baseIndex k)) = none ∧
      overflowDelete t k (List.range t.overflowSize) = (r, t')) := by
  simp only [StaticHashTable.eliminar, hs] at h
  rcases hts : tombstoneLive k (t.bucketAt (t.baseIndex k)) with _ | b2
  · rw [hts] at h
    exact Or.inr ⟨rfl, Option.some.inj h⟩
  · rw [hts] at h
    cases h
    refine Or.inl ⟨b2, rfl, rfl, ?_⟩
    rw [hs]

/-- A successful probeIndex under DOUBLE_HASHING means the secondary hash is
present. -/
theorem probeIndex_some_sec (t : StaticHashTable K V) (k : K) (i : Nat) (idx : Int)
    (hs : t.strategy = CollisionStrategy.DOUBLE_HASHING)
    (h : t.probeIndex k i = some idx) : t.secondaryHash.isSome = true := by
  rcases hsec : t.secondaryHash with _ | sh
  · rw [probeIndex_none_of t k i hs hsec] at h
    cases h
  · rfl

/-! ## Well-formedness and counting plumbing -/

theorem wf_of_shape (t t' : StaticHashTable K V) (hw : WfStatic t) (hs : SameShape t t') :
    WfStatic t' := by
  obtain ⟨h1, h2, h3, h4, h5, h6, h7, h8⟩ := hs
  exact ⟨by rw [h7, h5]; exact hw.1, by rw [h8, h6]; exact hw.2.1, by rw [h5]; exact hw.2.2⟩

theorem wf_init (opts : HashStaticOptions K) (h : 0 < opts.numBuckets) :
    WfStatic (mkStaticHashTable opts : StaticHashTable K V) := by
  refine ⟨?_, ?_, ?_⟩ <;> simp [mkStaticHashTable]
  exact h

/-- liveCount after replacing one bucket, in symmetric form. -/
theorem liveCount_setBucket (t : StaticHashTable K V) (k : K) (i : Nat)
    (hi : i < t.buckets.length) (b2 : List (Entry K V)) :
    liveCount { t with buckets := t.buckets.set i b2 } k +
        (t.buckets.get ⟨i, hi⟩).countP (liveFor k) =
      liveCount t k + b2.countP (liveFor k) := by
  have := countP_flatten_set (liveFor k) t.buckets i hi b2
  rw [liveCount, liveCount]
  dsimp only
  omega

/-- liveCount after replacing one overflow slot, in symmetric form. -/
theorem liveCount_setOverflow (t : StaticHashTable K V) (k : K) (i : Nat)
    (hi : i < t.overflow.length) (o : Option (Entry K V)) :
    liveCount { t with overflow := t.overflow.set i o } k +
        (if (t.overflow.get ⟨i, hi⟩).any (liveFor k) = true then 1 else 0) =
      liveCount t k + (if o.any (liveFor k) = true then 1 else 0) := by
  have := countP_set_add (fun x => x.any (liveFor k)) t.overflow i hi o
  rw [liveCount, liveCount]
  dsimp only
  omega

/-- The bucket store holds no live entry for the key exactly when its count
is zero. -/
theorem bucket_count_zero_iff (t : StaticHashTable K V) (k : K) :
    t.buckets.flatten.countP (liveFor k) = 0 ↔
      ∀ e ∈ t.buckets.flatten, ¬(e.deleted = false ∧ e.key = k) := by
  rw [List.countP_eq_zero]
  constructor
  · intro h e he hc
    exact h e he (by rw [liveFor, hc.1, hc.2]; simp)
  · intro h e he hp
    rw [liveFor, Bool.and_eq_true, Bool.not_eq_true', decide_eq_true_eq] at hp
    exact h e he ⟨Bool.not_eq_true _ ▸ hp.1, hp.2⟩

/-- A live entry with the key makes liveFor true. -/
theorem liveFor_eq_true (k : K) (e : Entry K V) :
    liveFor k e = true ↔ e.deleted = false ∧ e.key = k := by
  rw [liveFor, Bool.and_eq_true, decide_eq_true_eq, Bool.not_eq_true']

/-- An all-null overflow area contributes nothing to any live count. -/
theorem overflow_count_zero (t : StaticHashTable K V) (k : K)
    (h : ∀ x ∈ t.overflow, x = none) :
    t.overflow.countP (fun o => o.any (liveFor k)) = 0 := by
  refine List.countP_eq_zero.mpr fun o ho => ?_
  rw [h o ho]
  simp

/-! ## Bucket access across updates -/

theorem bucketAt_set_self (t : StaticHashTable K V) (i : Nat) (hi : i < t.buckets.length)
    (b : List (Entry K V)) :
    ({ t with buckets := t.buckets.set i b } : StaticHashTable K V).bucketAt i = b :=
  getD_set_self t.buckets i hi b []

theorem bucketAt_set_ne (t : StaticHashTable K V) (i j : Nat) (hne : i ≠ j)
    (b : List (Entry K V)) :
    ({ t with buckets := t.buckets.set i b } : StaticHashTable K V).bucketAt j =
      t.bucketAt j :=
  getD_set_ne t.buckets i j hne b []

theorem bucketAt_get (t : StaticHashTable K V) (i : Nat) (hi : i < t.buckets.length) :
    t.buckets.get ⟨i, hi⟩ = t.bucketAt i := by
  rw [List.get_eq_getElem, StaticHashTable.bucketAt, List.getD_eq_getElem _ _ hi]

/-- Bucket lengths after replacing one bucket by an equal-length one. -/
theorem bucketAt_length_set (t : StaticHashTable K V) (i : Nat)
    (hi : i < t.buckets.length) (b2 : List (Entry K V))
    (hlen : b2.length = (t.bucketAt i).length) (j : Nat) :
    (({ t with buckets := t.buckets.set i b2 } : StaticHashTable K V).bucketAt j).length =
      (t.bucketAt j).length := by
  by_cases hij : i = j
  · subst hij
    rw [bucketAt_set_self t i hi b2, hlen]
  · rw [bucketAt_set_ne t i j hij b2]

/-- Bucket lengths never shrink when one bucket is extended. -/
theorem bucketAt_length_push (t : StaticHashTable K V) (i : Nat)
    (hi : i < t.buckets.length) (e : Entry K V) (j : Nat) :
    (t.bucketAt j).length ≤
      (({ t with buckets := t.buckets.set i (t.bucketAt i ++ [e]) } :
        StaticHashTable K V).bucketAt j).length := by
  by_cases hij : i = j
  · subst hij
    rw [bucketAt_set_self t i hi _, List.length_append]
    omega
  · rw [bucketAt_set_ne t i j hij _]

/-! ## Preservation of the placement invariant -/

/-- Replacing a bucket with one having the same key sequence preserves
Placed. -/
theorem placed_set_keys (t : StaticHashTable K V) (hP : Placed t) (i : Nat)
    (hi : i < t.buckets.length) (b2 : List (Entry K V))
    (hkeys : b2.map Entry.key = (t.bucketAt i).map Entry.key) :
    Placed ({ t with buckets := t.buckets.set i b2 } : StaticHashTable K V) := by
  have hlen : b2.length = (t.bucketAt i).length := by
    have := congrArg List.length hkeys
    simpa using this
  intro b hb e he
  rw [List.length_set] at hb
  have hkey0 : ∃ e0 ∈ t.bucketAt b, e0.key = e.key := by
    by_cases hib : i = b
    · subst hib
      rw [bucketAt_set_self t i hi b2] at he
      have : e.key ∈ (t.bucketAt i).map Entry.key := by
        rw [← hkeys]
        exact List.mem_map_of_mem _ he
      obtain ⟨e0, he0, hk0⟩ := List.mem_map.mp this
      exact ⟨e0, he0, hk0⟩
    · rw [bucketAt_set_ne t i b hib b2] at he
      exact ⟨e, he, rfl⟩
  obtain ⟨e0, he0, hk0⟩ := hkey0
  obtain ⟨i2, hi2, idx, hpidx, hidxb, hfull⟩ := hP b hb e0 he0
  refine ⟨i2, hi2, idx, ?_, hidxb, ?_⟩
  · show t.probeIndex e.key i2 = some idx
    rw [← hk0]
    exact hpidx
  · intro j hj idx2 h2
    show t.bucketCapacity ≤ _
    rw [bucketAt_length_set t i hi b2 hlen]
    refine hfull j hj idx2 ?_
    show t.probeIndex e0.key j = some idx2
    rw [hk0]
    exact h2

/-- Appending a key-k entry at one of its probe positions whose probe prefix
is full preserves Placed. -/
theorem placed_push (t : StaticHashTable K V) (k : K) (hP : Placed t) (idx : Int)
    (i : Nat) (hi : idx.toNat < t.buckets.length) (him : i < t.numBuckets)
    (hpidx : t.probeIndex k i = some idx) (hpre : ∀ j < i, ProbeSkip t k j)
    (fresh : Entry K V) (hfk : fresh.key = k) :
    Placed ({ t with buckets := t.buckets.set idx.toNat (t.bucketAt idx.toNat ++ [fresh]) } : StaticHashTable K V) := by
  intro b hb e he
  rw [List.length_set] at hb
  have hmono := bucketAt_length_push t idx.toNat hi fresh
  by_cases hib : idx.toNat = b
  · subst hib
    rw [bucketAt_set_self t idx.toNat hi _] at he
    rcases List.mem_append.mp he with he2 | he2
    · obtain ⟨i2, hi2, idx2, hpidx2, hidxb, hfull⟩ := hP idx.toNat hb e he2
      exact ⟨i2, hi2, idx2, hpidx2, hidxb, fun j hj idx3 h3 =>
        le_trans (hfull j hj idx3 h3) (hmono idx3.toNat)⟩
    · rcases List.mem_singleton.mp he2 with rfl
      refine ⟨i, him, idx, by rw [hfk]; exact hpidx, rfl, ?_⟩
      intro j hj idx3 h3
      rw [hfk] at h3
      exact le_trans ((hpre j hj idx3 h3).2) (hmono idx3.toNat)
  · rw [bucketAt_set_ne t idx.toNat b hib _] at he
    obtain ⟨i2, hi2, idx2, hpidx2, hidxb, hfull⟩ := hP b hb e he
    exact ⟨i2, hi2, idx2, hpidx2, hidxb, fun j hj idx3 h3 =>
      le_trans (hfull j hj idx3 h3) (hmono idx3.toNat)⟩

/-! ## The unique live entry -/

/-- With at most one live entry for the key, any two of them coincide. -/
theorem liveIn_unique (t : StaticHashTable K V) (k : K) (h : liveCount t k ≤ 1)
    (e1 e2 : Entry K V) (h1 : LiveIn t k e1) (h2 : LiveIn t k e2) : e1 = e2 := by
  rw [liveCount] at h
  obtain ⟨hm1, hp1⟩ := h1
  obtain ⟨hm2, hp2⟩ := h2
  have hof : ∀ e : Entry K V, some e ∈ t.overflow → liveFor k e = true →
      1 ≤ t.overflow.countP (fun o => o.any (liveFor k)) := by
    intro e hmem hp
    exact List.countP_pos.mpr ⟨some e, hmem, hp⟩
  have hbf : ∀ e : Entry K V, e ∈ t.buckets.flatten → liveFor k e = true →
      1 ≤ t.buckets.flatten.countP (liveFor k) := by
    intro e hmem hp
    exact List.countP_pos.mpr ⟨e, hmem, hp⟩
  rcases hm1 with hm1 | hm1 <;> rcases hm2 with hm2 | hm2
  · refine countP_le_one_unique (liveFor k) t.buckets.flatten ?_ e1 hm1 hp1 e2 hm2 hp2
    omega
  · exact absurd h (by have := hbf e1 hm1 hp1; have := hof e2 hm2 hp2; omega)
  · exact absurd h (by have := hbf e2 hm2 hp2; have := hof e1 hm1 hp1; omega)
  · have huniq := countP_le_one_unique (fun o => o.any (liveFor k)) t.overflow
      (by omega) (some e1) hm1 hp1 (some e2) hm2 hp2
    exact Option.some.inj huniq

/-- A positive live count exhibits a live entry. -/
theorem liveIn_exists (t : StaticHashTable K V) (k : K) (h : 1 ≤ liveCount t k) :
    ∃ e, LiveIn t k e := by
  rw [liveCount] at h
  by_cases hb : 1 ≤ t.buckets.flatten.countP (liveFor k)
  · obtain ⟨e, he, hp⟩ := List.countP_pos.mp hb
    exact ⟨e, Or.inl he, hp⟩
  · have ho : 1 ≤ t.overflow.countP (fun o => o.any (liveFor k)) := by omega
    obtain ⟨o, ho2, hp⟩ := List.countP_pos.mp ho
    rcases o with _ | e
    · cases hp
    · exact ⟨e, Or.inr ho2, hp⟩

/-- A live entry makes the live count positive. -/
theorem liveIn_count_pos (t : StaticHashTable K V) (k : K) (e : Entry K V)
    (h : LiveIn t k e) : 1 ≤ liveCount t k := by
  rw [liveCount]
  obtain ⟨hm, hp⟩ := h
  rcases hm with hm | hm
  · have := List.countP_pos.mpr ⟨e, hm, hp⟩
    omega
  · have : 0 < t.overflow.countP (fun o => o.any (liveFor k)) :=
      List.countP_pos.mpr ⟨some e, hm, hp⟩
    omega

/-- Decomposing the attempt range at the first non-skipped attempt. -/
theorem range_decomp (m : Nat) (is1 : List Nat) (i : Nat) (is2 : List Nat)
    (h : List.range m = is1 ++ i :: is2) : i < m ∧ ∀ j, j ∈ is1 ↔ j < i := by
  rw [List.range_eq_range'] at h
  obtain ⟨c, hc, his1, his2⟩ := List.range'_eq_append_iff.mp h
  have hpos : 0 < m - c := by
    by_contra hz
    have : m - c = 0 := by omega
    rw [this] at his2
    cases his2
  obtain ⟨u, hu⟩ : ∃ u, m - c = u + 1 := ⟨m - c - 1, by omega⟩
  rw [hu, List.range'_succ] at his2
  have hic : i = 0 + c := (List.cons.injEq _ _ _ _ ▸ his2).1
  subst his1
  constructor
  · omega
  · intro j
    rw [List.mem_range'_1]
    omega

/-- Entry membership after one bucket is replaced. -/
theorem liveIn_setBucket_elim (t : StaticHashTable K V) (k2 : K) (i : Nat)
    (b2 : List (Entry K V)) (e : Entry K V)
    (h : LiveIn ({ t with buckets := t.buckets.set i b2 } : StaticHashTable K V) k2 e) :
    (e ∈ b2 ∧ liveFor k2 e = true) ∨ LiveIn t k2 e := by
  obtain ⟨hm, hp⟩ := h
  rcases hm with hm | hm
  · obtain ⟨l, hl, hel⟩ := List.mem_flatten.mp hm
    rcases List.mem_or_eq_of_mem_set hl with hl2 | rfl
    · exact Or.inr ⟨Or.inl (List.mem_flatten.mpr ⟨l, hl2, hel⟩), hp⟩
    · exact Or.inl ⟨hel, hp⟩
  · exact Or.inr ⟨Or.inr hm, hp⟩

/-- Entry membership in a freshly set bucket. -/
theorem liveIn_setBucket_intro (t : StaticHashTable K V) (k2 : K) (i : Nat)
    (hi : i < t.buckets.length) (b2 : List (Entry K V)) (e : Entry K V) (he : e ∈ b2)
    (hp : liveFor k2 e = true) :
    LiveIn ({ t with buckets := t.buckets.set i b2 } : StaticHashTable K V) k2 e := by
  refine ⟨Or.inl (List.mem_flatten.mpr ⟨b2, ?_, he⟩), hp⟩
  have hi2 : i < (t.buckets.set i b2).length := by rw [List.length_set]; exact hi
  exact List.mem_iff_getElem.mpr ⟨i, hi2, List.getElem_set_self hi2⟩

/-- A bucket of the store is one of its members. -/
theorem bucketAt_mem (t : StaticHashTable K V) (i : Nat) (hi : i < t.buckets.length) :
    t.bucketAt i ∈ t.buckets := by
  rw [← bucketAt_get t i hi]
  exact List.get_mem t.buckets i hi

/-- An entry of a bucket is in the flattened store. -/
theorem mem_flatten_of_bucketAt (t : StaticHashTable K V) (i : Nat)
    (hi : i < t.buckets.length) (e : Entry K V) (he : e ∈ t.bucketAt i) :
    e ∈ t.buckets.flatten :=
  List.mem_flatten.mpr ⟨t.bucketAt i, bucketAt_mem t i hi, he⟩

/-- When a probing insert reaches an attempt with room after skipping every
earlier attempt, its key is live nowhere in the store. -/
theorem probing_no_live (t : StaticHashTable K V) (k : K) (hP : Placed t)
    (hW : WfStatic t) (i : Nat) (idx : Int) (hpidx : t.probeIndex k i = some idx)
    (hpre : ∀ j < i, ProbeSkip t k j)
    (hnl : NoLiveKey k (t.bucketAt idx.toNat))
    (hroom : (t.bucketAt idx.toNat).length < t.bucketCapacity) :
    t.buckets.flatten.countP (liveFor k) = 0 := by
  refine List.countP_eq_zero.mpr fun e he hp => ?_
  rw [liveFor_eq_true] at hp
  obtain ⟨i2, hi2, he2⟩ := (mem_flatten_idx e t.buckets).mp he
  rw [bucketAt_get t i2 hi2] at he2
  obtain ⟨i3, hi3, idx3, hpidx3, hidxb, hfull⟩ := hP i2 hi2 e he2
  rw [hp.2] at hpidx3 hfull
  rcases Nat.lt_trichotomy i3 i with hlt | heq | hgt
  · obtain ⟨hnl2, _⟩ := hpre i3 hlt idx3 hpidx3
    rw [hidxb] at hnl2
    exact hnl2 e he2 hp.1 hp.2
  · subst heq
    rw [hpidx3] at hpidx
    cases hpidx
    rw [hidxb] at hnl
    exact hnl e he2 hp.1 hp.2
  · have := hfull i hgt idx hpidx
    omega

theorem countP_decomp {α : Type _} (p : α → Bool) (pre : List α) (x : α) (post : List α) :
    (pre ++ x :: post).countP p =
      pre.countP p + (if p x = true then 1 else 0) + post.countP p := by
  rw [List.countP_append, List.countP_cons]
  omega

theorem liveFor_value_update (k2 : K) (v : V) (e : Entry K V) :
    liveFor k2 { e with value := v } = liveFor k2 e := rfl

theorem liveFor_tombstone (k2 : K) (e : Entry K V) :
    liveFor k2 { e with deleted := true } = false := by
  rw [liveFor]
  rfl

/-- What updateLive does to counts, keys and lengths. -/
theorem updateLive_countP (k : K) (v : V) (b b2 : List (Entry K V))
    (h : updateLive k v b = some b2) :
    (∀ k2, b2.countP (liveFor k2) = b.countP (liveFor k2)) ∧
      b2.map Entry.key = b.map Entry.key := by
  obtain ⟨pre, e0, post, hb, hpre, hd, hk, hb2⟩ := updateLive_spec k v b b2 h
  subst hb hb2
  constructor
  · intro k2
    rw [countP_decomp, countP_decomp, liveFor_value_update]
  · simp

/-- What tombstoneLive does to counts, keys and lengths. -/
theorem tombstoneLive_countP (k : K) (b b2 : List (Entry K V))
    (h : tombstoneLive k b = some b2) :
    (∀ k2, k2 ≠ k → b2.countP (liveFor k2) = b.countP (liveFor k2)) ∧
      b2.countP (liveFor k) + 1 = b.countP (liveFor k) ∧
      b2.map Entry.key = b.map Entry.key := by
  obtain ⟨pre, e0, post, hb, hpre, hd, hk, hb2⟩ := tombstoneLive_spec k b b2 h
  subst hb hb2
  refine ⟨?_, ?_, by simp⟩
  · intro k2 hk2
    rw [countP_decomp, countP_decomp, liveFor_tombstone]
    have : liveFor k2 e0 = false := by
      rw [liveFor]
      have : decide (e0.key = k2) = false := by
        rw [decide_eq_false_iff_not, hk]
        exact fun hh => hk2 hh.symm
      rw [this]
      exact Bool.and_false _
    rw [this]
  · rw [countP_decomp, countP_decomp, liveFor_tombstone]
    have : liveFor k e0 = true := (liveFor_eq_true k e0).mpr ⟨hd, hk⟩
    rw [this]
    simp
    omega

/-- Master effect lemma for a probing-strategy insert: the invariant is
preserved, a successful insert leaves exactly one live entry for the key,
holding the inserted value, and other keys are untouched. -/
theorem insertar_probing_effects (t : StaticHashTable K V) (k : K) (v : V) (r : Bool)
    (t' : StaticHashTable K V)
    (hs : t.strategy = CollisionStrategy.LINEAR_PROBING ∨
      t.strategy = CollisionStrategy.DOUBLE_HASHING)
    (hInv : Inv t) (h : t.insertar k v = some (r, t')) :
    Inv t' ∧
      (r = true → liveCount t' k = 1 ∧ ∀ e, LiveIn t' k e → e.value = v) ∧
      ∀ k2, k2 ≠ k → liveCount t' k2 = liveCount t k2 ∧
        ∀ e, LiveIn t' k2 e → LiveIn t k2 e := by
  obtain ⟨hW, hProbImp, hSepImp⟩ := hInv
  obtain ⟨⟨hPlaced, hOvNone⟩, hUniq⟩ := hProbImp hs
  have hshape := insertar_shape t k v r t' h
  have hs' : t'.strategy = CollisionStrategy.LINEAR_PROBING ∨
      t'.strategy = CollisionStrategy.DOUBLE_HASHING := by
    rw [hshape.1]; exact hs
  have hnotsep : ¬ t'.strategy = CollisionStrategy.SEPARATE_OVERFLOW := by
    rw [hshape.1]
    rcases hs with hs | hs <;> rw [hs] <;> intro hcon <;> cases hcon
  rw [insertar_eq_probe t k v hs] at h
  rcases insertProbe_inv t k v _ r t' h with ⟨hr, ht', hskip⟩ |
    ⟨hr, is1, i, is2, heq, hskip, idx, hpidx, hcase⟩
  · subst ht'
    exact ⟨⟨hW, hProbImp, hSepImp⟩, fun htrue => absurd (hr ▸ htrue) (by simp),
      fun k2 _ => ⟨rfl, fun e he => he⟩⟩
  · subst hr
    obtain ⟨him, hmem1⟩ := range_decomp t.numBuckets is1 i is2 heq
    have hpre : ∀ j < i, ProbeSkip t k j := fun j hj => hskip j ((hmem1 j).mpr hj)
    obtain ⟨hidx0, hidxm⟩ := probeIndex_lt t k i idx hpidx hW.2.2
    have hib : idx.toNat < t.buckets.length := by rw [hW.1]; exact hidxm
    rcases hcase with ⟨b2, hup, ht'⟩ | ⟨hup, hroom, ht'⟩
    · -- update in place
      obtain ⟨hcnt, hkeys⟩ := updateLive_countP k v _ b2 hup
      have hcount : ∀ k2, liveCount t' k2 = liveCount t k2 := by
        intro k2
        have := liveCount_setBucket t k2 idx.toNat hib b2
        rw [bucketAt_get t idx.toNat hib, hcnt k2] at this
        rw [ht']
        omega
      have hUniq' : ∀ k2, liveCount t' k2 ≤ 1 := fun k2 => (hcount k2) ▸ hUniq k2
      obtain ⟨pre, e0, post, hbdec, hpre0, hd0, hk0, hb2dec⟩ := updateLive_spec k v _ b2 hup
      have hwit : LiveIn t' k { e0 with value := v } := by
        rw [ht']
        refine liveIn_setBucket_intro t k idx.toNat hib b2 _ ?_ ?_
        · rw [hb2dec]
          exact List.mem_append.mpr (Or.inr (List.mem_cons_self _ _))
        · exact (liveFor_eq_true _ _).mpr ⟨hd0, hk0⟩
      refine ⟨⟨wf_of_shape t t' hW hshape, fun _ => ⟨⟨?_, ?_⟩, hUniq'⟩,
        fun hsep => absurd hsep hnotsep⟩, fun _ => ⟨?_, ?_⟩, ?_⟩
      · rw [ht']
        exact placed_set_keys t hPlaced idx.toNat hib b2
          (by rw [hkeys])
      · rw [ht']
        exact hOvNone
      · have h1 := liveIn_count_pos t' k _ hwit
        have h2 := hUniq' k
        omega
      · intro e he
        have he0 : e = { e0 with value := v } := by
          refine liveIn_unique t' k (hUniq' k) e _ he hwit
        rw [he0]
      · intro k2 hk2
        refine ⟨hcount k2, fun e he => ?_⟩
        rw [ht'] at he
        rcases liveIn_setBucket_elim t k2 idx.toNat b2 e he with ⟨heb, hp⟩ | hLive
        · rw [hb2dec] at heb
          rcases List.mem_append.mp heb with hh | hh
          · exact ⟨Or.inl (mem_flatten_of_bucketAt t idx.toNat hib e
              (hbdec ▸ List.mem_append.mpr (Or.inl hh))), hp⟩
          · rcases List.mem_cons.mp hh with rfl | hh2
            · exfalso
              rw [liveFor_eq_true] at hp
              exact hk2 ((hp.2).symm.trans hk0)
            · exact ⟨Or.inl (mem_flatten_of_bucketAt t idx.toNat hib e
                (hbdec ▸ List.mem_append.mpr (Or.inr (List.mem_cons_of_mem _ hh2)))), hp⟩
        · exact hLive
    · -- push a fresh entry
      have hnl : NoLiveKey k (t.bucketAt idx.toNat) := (updateLive_eq_none_iff k v _).mp hup
      have hzero : t.buckets.flatten.countP (liveFor k) = 0 :=
        probing_no_live t k hPlaced hW i idx hpidx hpre hnl hroom
      have hocount : ∀ k2, t.overflow.countP (fun o => o.any (liveFor k2)) = 0 :=
        fun k2 => overflow_count_zero t k2 hOvNone
      have hcount : ∀ k2, liveCount t' k2 + (t.bucketAt idx.toNat).countP (liveFor k2) =
          liveCount t k2 + (t.bucketAt idx.toNat ++
            [({ key := k, value := v } : Entry K V)]).countP (liveFor k2) := by
        intro k2
        have := liveCount_setBucket t k2 idx.toNat hib (t.bucketAt idx.toNat ++
          [({ key := k, value := v } : Entry K V)])
        rw [bucketAt_get t idx.toNat hib] at this
        rw [ht']
        omega
      have hfreshlive : ∀ k2, liveFor k2 ({ key := k, value := v } : Entry K V) =
          decide (k = k2) := by
        intro k2
        rw [liveFor]
        rfl
      have happc : ∀ k2, (t.bucketAt idx.toNat ++
          [({ key := k, value := v } : Entry K V)]).countP (liveFor k2) =
          (t.bucketAt idx.toNat).countP (liveFor k2) +
            (if k = k2 then 1 else 0) := by
        intro k2
        rw [List.countP_append, List.countP_cons, List.countP_nil, hfreshlive]
        by_cases hkk : k = k2
        · rw [if_pos hkk, if_pos (decide_eq_true hkk)]
        · rw [if_neg hkk, if_neg (by rw [decide_eq_false hkk]; exact Bool.false_ne_true)]
      have hcountk : liveCount t' k = 1 := by
        have h1 := hcount k
        have h2 := happc k
        rw [if_pos rfl] at h2
        have h3 : liveCount t k = 0 := by
          rw [liveCount, hzero, hocount k]
        omega
      have hcountne : ∀ k2, k2 ≠ k → liveCount t' k2 = liveCount t k2 := by
        intro k2 hk2
        have h1 := hcount k2
        have h2 := happc k2
        rw [if_neg (fun hh => hk2 hh.symm)] at h2
        omega
      have hUniq' : ∀ k2, liveCount t' k2 ≤ 1 := by
        intro k2
        by_cases hkk : k2 = k
        · rw [hkk, hcountk]
        · rw [hcountne k2 hkk]
          exact hUniq k2
      have hwit : LiveIn t' k { key := k, value := v } := by
        rw [ht']
        refine liveIn_setBucket_intro t k idx.toNat hib _ _
          (List.mem_append.mpr (Or.inr (List.mem_cons_self _ _))) ?_
        rw [hfreshlive]
        exact decide_eq_true rfl
      refine ⟨⟨wf_of_shape t t' hW hshape, fun _ => ⟨⟨?_, ?_⟩, hUniq'⟩,
        fun hsep => absurd hsep hnotsep⟩, fun _ => ⟨hcountk, ?_⟩, ?_⟩
      · rw [ht']
        exact placed_push t k hPlaced idx i hib him hpidx hpre _ rfl
      · rw [ht']
        exact hOvNone
      · intro e he
        have he0 : e = { key := k, value := v } :=
          liveIn_unique t' k (hUniq' k) e _ he hwit
        rw [he0]
      · intro k2 hk2
        refine ⟨hcountne k2 hk2, fun e he => ?_⟩
        rw [ht'] at he
        rcases liveIn_setBucket_elim t k2 idx.toNat _ e he with ⟨heb, hp⟩ | hLive
        · rcases List.mem_append.mp heb with hh | hh
          · exact ⟨Or.inl (mem_flatten_of_bucketAt t idx.toNat hib e hh), hp⟩
          · rcases List.mem_cons.mp hh with rfl | hh2
            · exfalso
              rw [hfreshlive] at hp
              exact hk2 (of_decide_eq_true hp).symm
            · cases hh2
        · exact hLive

/-- Live entries of a SEPARATE_OVERFLOW bucket store sit in their home
bucket, so a base bucket free of the key means the key is live in no
bucket. -/
theorem sep_bucket_zero (t : StaticHashTable K V) (k : K)
    (hhome : ∀ b < t.buckets.length, ∀ e ∈ t.bucketAt b, t.baseIndex e.key = b)
    (hnl : NoLiveKey k (t.bucketAt (t.baseIndex k))) :
    t.buckets.flatten.countP (liveFor k) = 0 := by
  refine List.countP_eq_zero.mpr fun e he hp => ?_
  rw [liveFor_eq_true] at hp
  obtain ⟨b, hb, heb⟩ := (mem_flatten_idx e t.buckets).mp he
  rw [bucketAt_get t b hb] at heb
  have hbase : t.baseIndex k = b := by rw [← hp.2]; exact hhome b hb e heb
  rw [← hbase] at heb
  exact hnl e heb hp.1 hp.2

/-- After the overflow scan stops at slot `i`, no other slot holds an entry
with the key. -/
theorem sep_other_slots (t : StaticHashTable K V) (k : K) (i : Nat)
    (hS2 : ∀ i j : Nat, i ≤ j → j < t.overflow.length →
      (t.overflow.getD j none).isSome = true → (t.overflow.getD i none).isSome = true)
    (hS3 : ∀ i j : Nat, i < j → j < t.overflow.length → ∀ ei ej : Entry K V,
      t.overflow.getD i none = some ei → t.overflow.getD j none = some ej →
      ei.key ≠ ej.key)
    (hpre : ∀ j < i, SlotSkip t k j)
    (hslot : t.overflow.getD i none = none ∨
      ∃ ov, t.overflow.getD i none = some ov ∧ ov.key = k) :
    ∀ j < t.overflow.length, j ≠ i → ∀ e : Entry K V,
      t.overflow.getD j none = some e → e.key ≠ k := by
  intro j hj hne e hej hek
  rcases Nat.lt_trichotomy j i with hlt | heq | hgt
  · obtain ⟨ov, hov, hovk⟩ := hpre j hlt
    rw [hej] at hov
    have he2 : e = ov := Option.some.inj hov
    exact hovk (he2 ▸ hek)
  · exact hne heq
  · rcases hslot with hnone | ⟨ov, hov, hovk⟩
    · have := hS2 i j (Nat.le_of_lt hgt) hj (by rw [hej]; rfl)
      rw [hnone] at this
      cases this
    · exact hS3 i j hgt hj ov e hov hej (by rw [hovk, hek])

/-- SepInv is preserved when a bucket is replaced by one with the same
keys. -/
theorem sepInv_set_keys (t : StaticHashTable K V) (hS : SepInv t) (i : Nat)
    (hi : i < t.buckets.length) (b2 : List (Entry K V))
    (hkeys : b2.map Entry.key = (t.bucketAt i).map Entry.key) :
    SepInv ({ t with buckets := t.buckets.set i b2 } : StaticHashTable K V) := by
  obtain ⟨h1, h2, h3, h4⟩ := hS
  have hlen : b2.length = (t.bucketAt i).length := by
    have := congrArg List.length hkeys
    simpa using this
  refine ⟨?_, h2, h3, ?_⟩
  · intro b hb e he
    rw [List.length_set] at hb
    by_cases hib : i = b
    · subst hib
      rw [bucketAt_set_self t i hi b2] at he
      have hkmem : e.key ∈ (t.bucketAt i).map Entry.key := by
        rw [← hkeys]
        exact List.mem_map_of_mem Entry.key he
      obtain ⟨e0, he0, hke⟩ := List.mem_map.mp hkmem
      show t.baseIndex e.key = i
      rw [← hke]
      exact h1 i hb e0 he0
    · rw [bucketAt_set_ne t i b hib b2] at he
      exact h1 b hb e he
  · intro j hj e hoe hd
    have hx := h4 j hj e hoe hd
    show t.bucketCapacity ≤
      (({ t with buckets := t.buckets.set i b2 } :
        StaticHashTable K V).bucketAt (t.baseIndex e.key)).length
    rw [bucketAt_length_set t i hi b2 hlen]
    exact hx

/-- SepInv is preserved when a fresh entry for a key is appended to its home
bucket. -/
theorem sepInv_push (t : StaticHashTable K V) (hS : SepInv t) (k : K) (v : V)
    (hb : t.baseIndex k < t.buckets.length) :
    SepInv ({ t with buckets := t.buckets.set (t.baseIndex k) (t.bucketAt (t.baseIndex k) ++ [({ key := k, value := v } : Entry K V)]) } : StaticHashTable K V) := by
  obtain ⟨h1, h2, h3, h4⟩ := hS
  refine ⟨?_, h2, h3, ?_⟩
  · intro b hb2 e he
    rw [List.length_set] at hb2
    by_cases hib : t.baseIndex k = b
    · subst hib
      rw [bucketAt_set_self t _ hb _] at he
      rcases List.mem_append.mp he with hh | hh
      · exact h1 _ hb2 e hh
      · rcases List.mem_cons.mp hh with rfl | hh2
        · show t.baseIndex k = t.baseIndex k
          rfl
        · cases hh2
    · rw [bucketAt_set_ne t _ b hib _] at he
      exact h1 b hb2 e he
  · intro j hj e hoe hd
    have hx := h4 j hj e hoe hd
    show t.bucketCapacity ≤ _
    exact Nat.le_trans hx (bucketAt_length_push t (t.baseIndex k) hb
      ({ key := k, value := v } : Entry K V) (t.baseIndex e.key))

/-- LiveIn after writing an overflow slot: the new entry is live there when
its liveFor holds. -/
theorem liveIn_setOverflow_intro (t : StaticHashTable K V) (k2 : K) (i : Nat)
    (hi : i < t.overflow.length) (e : Entry K V) (hp : liveFor k2 e = true) :
    LiveIn ({ t with overflow := t.overflow.set i (some e) } :
      StaticHashTable K V) k2 e := by
  refine ⟨Or.inr ?_, hp⟩
  show some e ∈ t.overflow.set i (some e)
  have hi2 : i < (t.overflow.set i (some e)).length := by
    rw [List.length_set]; exact hi
  exact List.mem_iff_getElem.mpr ⟨i, hi2, List.getElem_set_self hi2⟩

/-- LiveIn after writing an overflow slot comes from the new slot or was
already there. -/
theorem liveIn_setOverflow_elim (t : StaticHashTable K V) (k2 : K) (i : Nat)
    (o : Option (Entry K V)) (e : Entry K V)
    (h : LiveIn ({ t with overflow := t.overflow.set i o } :
      StaticHashTable K V) k2 e) :
    (some e = o ∧ liveFor k2 e = true) ∨ LiveIn t k2 e := by
  obtain ⟨hm, hp⟩ := h
  rcases hm with hm | hm
  · exact Or.inr ⟨Or.inl hm, hp⟩
  · have hm2 : some e ∈ t.overflow.set i o := hm
    rcases List.mem_or_eq_of_mem_set hm2 with hh | hh
    · exact Or.inr ⟨Or.inr hh, hp⟩
    · exact Or.inl ⟨hh, hp⟩

/-- SepInv is preserved when the insert writes the key into the first usable
overflow slot, the home bucket being full. -/
theorem sepInv_write_overflow (t : StaticHashTable K V) (hS : SepInv t) (k : K)
    (e1 : Entry K V) (hnek : e1.key = k) (i : Nat) (hi : i < t.overflow.length)
    (hpre : ∀ j < i, SlotSkip t k j)
    (hslot : t.overflow.getD i none = none ∨
      ∃ ov, t.overflow.getD i none = some ov ∧ ov.key = k)
    (hfull : t.bucketCapacity ≤ (t.bucketAt (t.baseIndex k)).length) :
    SepInv ({ t with overflow := t.overflow.set i (some e1) } :
      StaticHashTable K V) := by
  obtain ⟨h1, h2, h3, h4⟩ := hS
  refine ⟨h1, ?_, ?_, ?_⟩
  · -- occupied slots stay a prefix
    intro i0 j0 hij hj0 hsome
    have hj02 : j0 < t.overflow.length := by
      have hx : j0 < (t.overflow.set i (some e1)).length := hj0
      rw [List.length_set] at hx
      exact hx
    have hsome2 : ((t.overflow.set i (some e1)).getD j0 none).isSome = true := hsome
    show ((t.overflow.set i (some e1)).getD i0 none).isSome = true
    by_cases hi0 : i0 = i
    · rw [hi0, getD_set_self t.overflow i hi (some e1) none]
      rfl
    · rw [getD_set_ne t.overflow i i0 (fun hh => hi0 hh.symm) (some e1) none]
      rcases Nat.lt_or_ge i0 i with hlt | hge
      · obtain ⟨ov, hov, _⟩ := hpre i0 hlt
        rw [hov]
        rfl
      · have hlt2 : i < i0 := Nat.lt_of_le_of_ne hge (fun hh => hi0 hh.symm)
        have hji : j0 ≠ i := by omega
        rw [getD_set_ne t.overflow i j0 (fun hh => hji hh.symm) (some e1) none] at hsome2
        exact h2 i0 j0 hij hj02 hsome2
  · -- pairwise key distinctness of occupied slots
    intro i0 j0 hlt hj0 ei ej hei hej
    have hj02 : j0 < t.overflow.length := by
      have hx : j0 < (t.overflow.set i (some e1)).length := hj0
      rw [List.length_set] at hx
      exact hx
    have hei2 : (t.overflow.set i (some e1)).getD i0 none = some ei := hei
    have hej2 : (t.overflow.set i (some e1)).getD j0 none = some ej := hej
    by_cases hii : i0 = i
    · rw [hii, getD_set_self t.overflow i hi (some e1) none] at hei2
      have hje : j0 ≠ i := by omega
      rw [getD_set_ne t.overflow i j0 (fun hh => hje hh.symm) (some e1) none] at hej2
      have heq1 : ei = e1 := (Option.some.inj hei2).symm
      rcases hslot with hnone | ⟨ov, hov, hovk⟩
      · exfalso
        have hx := h2 i j0 (by omega) hj02 (by rw [hej2]; rfl)
        rw [hnone] at hx
        cases hx
      · intro hkk
        exact h3 i j0 (by omega) hj02 ov ej hov hej2
          (by rw [hovk, ← hkk, heq1, hnek])
    · by_cases hjj : j0 = i
      · rw [hjj, getD_set_self t.overflow i hi (some e1) none] at hej2
        have heq2 : ej = e1 := (Option.some.inj hej2).symm
        have hi0i : i0 ≠ i := by omega
        rw [getD_set_ne t.overflow i i0 (fun hh => hi0i hh.symm) (some e1) none] at hei2
        obtain ⟨ov, hov, hovk⟩ := hpre i0 (by omega)
        have hieq : ei = ov := by
          rw [hov] at hei2
          exact (Option.some.inj hei2).symm
        intro hkk
        exact hovk (by rw [← hieq, hkk, heq2, hnek])
      · rw [getD_set_ne t.overflow i i0 (fun hh => hii hh.symm) (some e1) none] at hei2
        rw [getD_set_ne t.overflow i j0 (fun hh => hjj hh.symm) (some e1) none] at hej2
        exact h3 i0 j0 hlt hj02 ei ej hei2 hej2
  · -- a live overflow entry has a full home bucket
    intro j hj e hoe hd
    have hj2 : j < t.overflow.length := by
      have hx : j < (t.overflow.set i (some e1)).length := hj
      rw [List.length_set] at hx
      exact hx
    have hoe2 : (t.overflow.set i (some e1)).getD j none = some e := hoe
    by_cases hji : j = i
    · rw [hji, getD_set_self t.overflow i hi (some e1) none] at hoe2
      have he : e = e1 := (Option.some.inj hoe2).symm
      show t.bucketCapacity ≤ (t.bucketAt (t.baseIndex e.key)).length
      rw [he, hnek]
      exact hfull
    · rw [getD_set_ne t.overflow i j (fun hh => hji hh.symm) (some e1) none] at hoe2
      exact h4 j hj2 e hoe2 hd

/-- The overflow slot read by getD versus get. -/
theorem overflow_get_getD (t : StaticHashTable K V) (i : Nat)
    (hi : i < t.overflow.length) :
    t.overflow.get ⟨i, hi⟩ = t.overflow.getD i none := by
  rw [List.get_eq_getElem, List.getD_eq_getElem _ _ hi]

/-- Master effect lemma for a SEPARATE_OVERFLOW insert: the invariant is
preserved, a successful insert leaves exactly one live entry for the key,
holding the inserted value, and other keys are untouched. -/
theorem insertar_sep_effects (t : StaticHashTable K V) (k : K) (v : V) (r : Bool)
    (t' : StaticHashTable K V)
    (hs : t.strategy = CollisionStrategy.SEPARATE_OVERFLOW)
    (hInv : Inv t) (h : t.insertar k v = some (r, t')) :
    Inv t' ∧
      (r = true → liveCount t' k = 1 ∧ ∀ e, LiveIn t' k e → e.value = v) ∧
      ∀ k2, k2 ≠ k → liveCount t' k2 = liveCount t k2 ∧
        ∀ e, LiveIn t' k2 e → LiveIn t k2 e := by
  obtain ⟨hW, hProbImp, hSepImp⟩ := hInv
  obtain ⟨hSep, hUniq⟩ := hSepImp hs
  obtain ⟨h1, h2, h3, h4⟩ := hSep
  have hshape := insertar_shape t k v r t' h
  have hnotprob : ¬(t'.strategy = CollisionStrategy.LINEAR_PROBING ∨
      t'.strategy = CollisionStrategy.DOUBLE_HASHING) := by
    rw [hshape.1, hs]
    rintro (hh | hh) <;> cases hh
  have hs' : t'.strategy = CollisionStrategy.SEPARATE_OVERFLOW := by
    rw [hshape.1]; exact hs
  have hbase : t.baseIndex k < t.buckets.length := by
    rw [hW.1]; exact baseIndex_lt t k hW.2.2
  rcases insertar_sep_inv t k v r t' hs h with
    ⟨b2, hup, hr, ht'⟩ | ⟨hup, hroom, hr, ht'⟩ | ⟨hup, hfull, hscan⟩
  · -- live entry updated in the home bucket
    subst hr
    obtain ⟨hcnt, hkeys⟩ := updateLive_countP k v _ b2 hup
    have hcount : ∀ k2, liveCount t' k2 = liveCount t k2 := by
      intro k2
      have hx := liveCount_setBucket t k2 (t.baseIndex k) hbase b2
      rw [bucketAt_get t _ hbase, hcnt k2] at hx
      rw [ht']
      omega
    have hUniq' : ∀ k2, liveCount t' k2 ≤ 1 := fun k2 => (hcount k2) ▸ hUniq k2
    obtain ⟨pre, e0, post, hbdec, hpre0, hd0, hk0, hb2dec⟩ := updateLive_spec k v _ b2 hup
    have hwit : LiveIn t' k { e0 with value := v } := by
      rw [ht']
      refine liveIn_setBucket_intro t k (t.baseIndex k) hbase b2 _ ?_ ?_
      · rw [hb2dec]
        exact List.mem_append.mpr (Or.inr (List.mem_cons_self _ _))
      · exact (liveFor_eq_true _ _).mpr ⟨hd0, hk0⟩
    refine ⟨⟨wf_of_shape t t' hW hshape, fun hp => absurd hp hnotprob,
      fun _ => ⟨?_, hUniq'⟩⟩, fun _ => ⟨?_, ?_⟩, ?_⟩
    · rw [ht']
      exact sepInv_set_keys t ⟨h1, h2, h3, h4⟩ _ hbase b2 hkeys
    · have hpos := liveIn_count_pos t' k _ hwit
      have hle := hUniq' k
      omega
    · intro e he
      have he0 : e = { e0 with value := v } :=
        liveIn_unique t' k (hUniq' k) e _ he hwit
      rw [he0]
    · intro k2 hk2
      refine ⟨hcount k2, fun e he => ?_⟩
      rw [ht'] at he
      rcases liveIn_setBucket_elim t k2 (t.baseIndex k) b2 e he with ⟨heb, hp⟩ | hLive
      · rw [hb2dec] at heb
        rcases List.mem_append.mp heb with hh | hh
        · exact ⟨Or.inl (mem_flatten_of_bucketAt t _ hbase e
            (hbdec ▸ List.mem_append.mpr (Or.inl hh))), hp⟩
        · rcases List.mem_cons.mp hh with rfl | hh2
          · exfalso
            rw [liveFor_eq_true] at hp
            exact hk2 ((hp.2).symm.trans hk0)
          · exact ⟨Or.inl (mem_flatten_of_bucketAt t _ hbase e
              (hbdec ▸ List.mem_append.mpr (Or.inr (List.mem_cons_of_mem _ hh2)))), hp⟩
      · exact hLive
  · -- fresh entry appended to the home bucket
    subst hr
    have hnl : NoLiveKey k (t.bucketAt (t.baseIndex k)) :=
      (updateLive_eq_none_iff k v _).mp hup
    have hzero : t.buckets.flatten.countP (liveFor k) = 0 := sep_bucket_zero t k h1 hnl
    have hov0 : t.overflow.countP (fun o => o.any (liveFor k)) = 0 := by
      refine List.countP_eq_zero.mpr fun o ho => ?_
      obtain ⟨j, hj, hgd⟩ := (mem_iff_getD o t.overflow).mp ho
      rcases o with _ | e
      · simp
      · intro hany
        have hlf : liveFor k e = true := hany
        rw [liveFor_eq_true] at hlf
        have hx := h4 j hj e hgd hlf.1
        rw [hlf.2] at hx
        omega
    have hlc0 : liveCount t k = 0 := by rw [liveCount, hzero, hov0]
    have hcount : ∀ k2, liveCount t' k2 + (t.bucketAt (t.baseIndex k)).countP (liveFor k2) =
        liveCount t k2 + (t.bucketAt (t.baseIndex k) ++
          [({ key := k, value := v } : Entry K V)]).countP (liveFor k2) := by
      intro k2
      have hx := liveCount_setBucket t k2 (t.baseIndex k) hbase
        (t.bucketAt (t.baseIndex k) ++ [({ key := k, value := v } : Entry K V)])
      rw [bucketAt_get t _ hbase] at hx
      rw [ht']
      omega
    have hfreshlive : ∀ k2, liveFor k2 ({ key := k, value := v } : Entry K V) =
        decide (k = k2) := by
      intro k2
      rw [liveFor]
      rfl
    have happc : ∀ k2, (t.bucketAt (t.baseIndex k) ++
        [({ key := k, value := v } : Entry K V)]).countP (liveFor k2) =
        (t.bucketAt (t.baseIndex k)).countP (liveFor k2) +
          (if k = k2 then 1 else 0) := by
      intro k2
      rw [List.countP_append, List.countP_cons, List.countP_nil, hfreshlive]
      by_cases hkk : k = k2
      · rw [if_pos hkk, if_pos (decide_eq_true hkk)]
      · rw [if_neg hkk, if_neg (by rw [decide_eq_false hkk]; exact Bool.false_ne_true)]
    have hcountk : liveCount t' k = 1 := by
      have hx1 := hcount k
      have hx2 := happc k
      rw [if_pos rfl] at hx2
      omega
    have hcountne : ∀ k2, k2 ≠ k → liveCount t' k2 = liveCount t k2 := by
      intro k2 hk2
      have hx1 := hcount k2
      have hx2 := happc k2
      rw [if_neg (fun hh => hk2 hh.symm)] at hx2
      omega
    have hUniq' : ∀ k2, liveCount t' k2 ≤ 1 := by
      intro k2
      by_cases hkk : k2 = k
      · rw [hkk, hcountk]
      · rw [hcountne k2 hkk]
        exact hUniq k2
    have hwit : LiveIn t' k ({ key := k, value := v } : Entry K V) := by
      rw [ht']
      refine liveIn_setBucket_intro t k (t.baseIndex k) hbase _ _
        (List.mem_append.mpr (Or.inr (List.mem_cons_self _ _))) ?_
      rw [hfreshlive]
      exact decide_eq_true rfl
    refine ⟨⟨wf_of_shape t t' hW hshape, fun hp => absurd hp hnotprob,
      fun _ => ⟨?_, hUniq'⟩⟩, fun _ => ⟨hcountk, ?_⟩, ?_⟩
    · rw [ht']
      exact sepInv_push t ⟨h1, h2, h3, h4⟩ k v hbase
    · intro e he
      have he0 : e = { key := k, value := v } :=
        liveIn_unique t' k (hUniq' k) e _ he hwit
      rw [he0]
    · intro k2 hk2
      refine ⟨hcountne k2 hk2, fun e he => ?_⟩
      rw [ht'] at he
      rcases liveIn_setBucket_elim t k2 (t.baseIndex k) _ e he with ⟨heb, hp⟩ | hLive
      · rcases List.mem_append.mp heb with hh | hh
        · exact ⟨Or.inl (mem_flatten_of_bucketAt t _ hbase e hh), hp⟩
        · rcases List.mem_cons.mp hh with rfl | hh2
          · exfalso
            rw [hfreshlive] at hp
            exact hk2 (of_decide_eq_true hp).symm
          · cases hh2
      · exact hLive
  · -- home bucket full: the overflow area is scanned
    rcases overflowScan_inv t k v _ r t' hscan with ⟨hr, ht', hskipall⟩ |
      ⟨hr, is1, i, is2, heq, hskip, hrest⟩
    · -- no usable slot: the table is unchanged
      subst ht'
      exact ⟨⟨hW, hProbImp, hSepImp⟩, fun htrue => absurd (hr ▸ htrue) (by simp),
        fun k2 _ => ⟨rfl, fun e he => he⟩⟩
    · subst hr
      obtain ⟨hio, hmem1⟩ := range_decomp t.overflowSize is1 i is2 heq
      have hi : i < t.overflow.length := by rw [hW.2.1]; exact hio
      have hpre : ∀ j < i, SlotSkip t k j := fun j hj => hskip j ((hmem1 j).mpr hj)
      have hnl : NoLiveKey k (t.bucketAt (t.baseIndex k)) :=
        (updateLive_eq_none_iff k v _).mp hup
      have hzero : t.buckets.flatten.countP (liveFor k) = 0 := sep_bucket_zero t k h1 hnl
      have hgetslot := overflow_get_getD t i hi
      rcases hrest with ⟨hslot0, ht'⟩ | ⟨ov, hov, hovd, hovk, ht'⟩
      · -- slot i was empty or a tombstone of the key: a fresh entry is written
        have hslotc : t.overflow.getD i none = none ∨
            ∃ ov, t.overflow.getD i none = some ov ∧ ov.key = k := by
          rcases hslot0 with hnone | ⟨ov, hov, _, hovk⟩
          · exact Or.inl hnone
          · exact Or.inr ⟨ov, hov, hovk⟩
        have hother := sep_other_slots t k i h2 h3 hpre hslotc
        have hov0 : t.overflow.countP (fun o => o.any (liveFor k)) = 0 := by
          refine List.countP_eq_zero.mpr fun o ho => ?_
          obtain ⟨j, hj, hgd⟩ := (mem_iff_getD o t.overflow).mp ho
          rcases o with _ | e
          · simp
          · intro hany
            have hlf : liveFor k e = true := hany
            rw [liveFor_eq_true] at hlf
            by_cases hji : j = i
            · rcases hslot0 with hnone | ⟨ov, hov2, hovd2, _⟩
              · rw [hji, hnone] at hgd
                cases hgd
              · rw [hji, hov2] at hgd
                have he : ov = e := Option.some.inj hgd
                rw [← he] at hlf
                exact Bool.noConfusion ((hlf.1).symm.trans hovd2)
            · exact hother j hj hji e hgd hlf.2
        have hlc0 : liveCount t k = 0 := by rw [liveCount, hzero, hov0]
        have holdslot : ∀ k2, (t.overflow.getD i none).any (liveFor k2) = false := by
          intro k2
          rcases hslot0 with hnone | ⟨ov, hov2, hovd2, _⟩
          · rw [hnone]
            rfl
          · rw [hov2]
            show liveFor k2 ov = false
            rw [liveFor, hovd2]
            rfl
        have hnewk : ∀ k2, ((some ({ key := k, value := v } : Entry K V)).any
            (liveFor k2)) = decide (k = k2) := by
          intro k2
          show liveFor k2 ({ key := k, value := v } : Entry K V) = decide (k = k2)
          rw [liveFor]
          rfl
        have hsetc : ∀ k2, liveCount t' k2 +
            (if (t.overflow.getD i none).any (liveFor k2) = true then 1 else 0) =
            liveCount t k2 +
              (if ((some ({ key := k, value := v } : Entry K V)).any
                (liveFor k2)) = true then 1 else 0) := by
          intro k2
          have hx := liveCount_setOverflow t k2 i hi
            (some ({ key := k, value := v } : Entry K V))
          rw [hgetslot] at hx
          rw [ht']
          omega
        have hcountk : liveCount t' k = 1 := by
          have hx := hsetc k
          rw [holdslot k, hnewk k] at hx
          simp at hx
          omega
        have hcountne : ∀ k2, k2 ≠ k → liveCount t' k2 = liveCount t k2 := by
          intro k2 hk2
          have hx := hsetc k2
          rw [holdslot k2, hnewk k2,
            decide_eq_false (fun hh => hk2 hh.symm)] at hx
          simp at hx
          omega
        have hUniq' : ∀ k2, liveCount t' k2 ≤ 1 := by
          intro k2
          by_cases hkk : k2 = k
          · rw [hkk, hcountk]
          · rw [hcountne k2 hkk]
            exact hUniq k2
        have hwit : LiveIn t' k ({ key := k, value := v } : Entry K V) := by
          rw [ht']
          refine liveIn_setOverflow_intro t k i hi _ ?_
          rw [liveFor]
          show (!false && decide (k = k)) = true
          rw [decide_eq_true rfl]
          rfl
        refine ⟨⟨wf_of_shape t t' hW hshape, fun hp => absurd hp hnotprob,
          fun _ => ⟨?_, hUniq'⟩⟩, fun _ => ⟨hcountk, ?_⟩, ?_⟩
        · rw [ht']
          exact sepInv_write_overflow t ⟨h1, h2, h3, h4⟩ k _ rfl i hi hpre hslotc hfull
        · intro e he
          have he0 : e = { key := k, value := v } :=
            liveIn_unique t' k (hUniq' k) e _ he hwit
          rw [he0]
        · intro k2 hk2
          refine ⟨hcountne k2 hk2, fun e he => ?_⟩
          rw [ht'] at he
          rcases liveIn_setOverflow_elim t k2 i _ e he with ⟨heq2, hp⟩ | hLive
          · exfalso
            have he0 : e = { key := k, value := v } := Option.some.inj heq2
            rw [he0] at hp
            have hp2 : decide (k = k2) = true := hp
            exact hk2 (of_decide_eq_true hp2).symm
          · exact hLive
      · -- slot i held the live entry of the key: its value is replaced
        have hslotc : t.overflow.getD i none = none ∨
            ∃ ov2, t.overflow.getD i none = some ov2 ∧ ov2.key = k :=
          Or.inr ⟨ov, hov, hovk⟩
        have hlive : liveFor k ov = true := (liveFor_eq_true k ov).mpr ⟨hovd, hovk⟩
        have holdslot : (t.overflow.getD i none).any (liveFor k) = true := by
          rw [hov]
          exact hlive
        have hnewlive : ∀ k2, ((some ({ ov with value := v } : Entry K V)).any
            (liveFor k2)) = ((some ov).any (liveFor k2)) := by
          intro k2
          rfl
        have hge : 1 ≤ liveCount t k :=
          liveIn_count_pos t k ov ⟨Or.inr ((mem_iff_getD _ _).mpr ⟨i, hi, hov⟩), hlive⟩
        have hsetc : ∀ k2, liveCount t' k2 +
            (if (t.overflow.getD i none).any (liveFor k2) = true then 1 else 0) =
            liveCount t k2 +
              (if ((some ({ ov with value := v } : Entry K V)).any
                (liveFor k2)) = true then 1 else 0) := by
          intro k2
          have hx := liveCount_setOverflow t k2 i hi
            (some ({ ov with value := v } : Entry K V))
          rw [hgetslot] at hx
          rw [ht']
          omega
        have hcount : ∀ k2, liveCount t' k2 = liveCount t k2 := by
          intro k2
          have hx := hsetc k2
          rw [hnewlive k2, hov] at hx
          omega
        have hcountk : liveCount t' k = 1 := by
          have := hUniq k
          have := hcount k
          omega
        have hUniq' : ∀ k2, liveCount t' k2 ≤ 1 := fun k2 => (hcount k2) ▸ hUniq k2
        have hwit : LiveIn t' k ({ ov with value := v } : Entry K V) := by
          rw [ht']
          refine liveIn_setOverflow_intro t k i hi _ ?_
          show liveFor k ({ ov with value := v } : Entry K V) = true
          exact hlive
        refine ⟨⟨wf_of_shape t t' hW hshape, fun hp => absurd hp hnotprob,
          fun _ => ⟨?_, hUniq'⟩⟩, fun _ => ⟨hcountk, ?_⟩, ?_⟩
        · rw [ht']
          exact sepInv_write_overflow t ⟨h1, h2, h3, h4⟩ k
            ({ ov with value := v } : Entry K V) hovk i hi hpre hslotc hfull
        · intro e he
          have he0 : e = { ov with value := v } :=
            liveIn_unique t' k (hUniq' k) e _ he hwit
          rw [he0]
        · intro k2 hk2
          refine ⟨hcount k2, fun e he => ?_⟩
          rw [ht'] at he
          rcases liveIn_setOverflow_elim t k2 i _ e he with ⟨heq2, hp⟩ | hLive
          · exfalso
            have he0 : e = { ov with value := v } := Option.some.inj heq2
            rw [he0] at hp
            have hpk : liveFor k2 ov = true := hp
            rw [liveFor_eq_true] at hpk
            exact hk2 ((hpk.2).symm.trans hovk)
          · exact hLive

/-- SepInv is preserved when an occupied overflow slot is rewritten with an
entry of the same key, live only if the home bucket is full. -/
theorem sepInv_rewrite_slot (t : StaticHashTable K V) (hS : SepInv t) (i : Nat)
    (hi : i < t.overflow.length) (ov e1 : Entry K V)
    (hov : t.overflow.getD i none = some ov) (hkey : e1.key = ov.key)
    (hlive : e1.deleted = false →
      t.bucketCapacity ≤ (t.bucketAt (t.baseIndex e1.key)).length) :
    SepInv ({ t with overflow := t.overflow.set i (some e1) } :
      StaticHashTable K V) := by
  obtain ⟨h1, h2, h3, h4⟩ := hS
  refine ⟨h1, ?_, ?_, ?_⟩
  · intro i0 j0 hij hj0 hsome
    have hj02 : j0 < t.overflow.length := by
      have hx : j0 < (t.overflow.set i (some e1)).length := hj0
      rw [List.length_set] at hx
      exact hx
    have hsome2 : ((t.overflow.set i (some e1)).getD j0 none).isSome = true := hsome
    show ((t.overflow.set i (some e1)).getD i0 none).isSome = true
    by_cases hi0 : i0 = i
    · rw [hi0, getD_set_self t.overflow i hi (some e1) none]
      rfl
    · rw [getD_set_ne t.overflow i i0 (fun hh => hi0 hh.symm) (some e1) none]
      by_cases hj0i : j0 = i
      · refine h2 i0 i (hj0i ▸ hij) hi ?_
        rw [hov]
        rfl
      · rw [getD_set_ne t.overflow i j0 (fun hh => hj0i hh.symm) (some e1) none] at hsome2
        exact h2 i0 j0 hij hj02 hsome2
  · intro i0 j0 hlt hj0 ei ej hei hej
    have hj02 : j0 < t.overflow.length := by
      have hx : j0 < (t.overflow.set i (some e1)).length := hj0
      rw [List.length_set] at hx
      exact hx
    have hei2 : (t.overflow.set i (some e1)).getD i0 none = some ei := hei
    have hej2 : (t.overflow.set i (some e1)).getD j0 none = some ej := hej
    by_cases hii : i0 = i
    · rw [hii, getD_set_self t.overflow i hi (some e1) none] at hei2
      have hje : j0 ≠ i := by omega
      rw [getD_set_ne t.overflow i j0 (fun hh => hje hh.symm) (some e1) none] at hej2
      have heq1 : ei = e1 := (Option.some.inj hei2).symm
      intro hkk
      refine h3 i j0 (by omega) hj02 ov ej hov hej2 ?_
      rw [← hkey, ← heq1, hkk]
    · by_cases hjj : j0 = i
      · rw [hjj, getD_set_self t.overflow i hi (some e1) none] at hej2
        have heq2 : ej = e1 := (Option.some.inj hej2).symm
        have hi0i : i0 ≠ i := by omega
        rw [getD_set_ne t.overflow i i0 (fun hh => hi0i hh.symm) (some e1) none] at hei2
        intro hkk
        refine h3 i0 i (by omega) hi ei ov hei2 hov ?_
        rw [hkk, heq2, hkey]
      · rw [getD_set_ne t.overflow i i0 (fun hh => hii hh.symm) (some e1) none] at hei2
        rw [getD_set_ne t.overflow i j0 (fun hh => hjj hh.symm) (some e1) none] at hej2
        exact h3 i0 j0 hlt hj02 ei ej hei2 hej2
  · intro j hj e hoe hd
    have hj2 : j < t.overflow.length := by
      have hx : j < (t.overflow.set i (some e1)).length := hj
      rw [List.length_set] at hx
      exact hx
    have hoe2 : (t.overflow.set i (some e1)).getD j none = some e := hoe
    by_cases hji : j = i
    · rw [hji, getD_set_self t.overflow i hi (some e1) none] at hoe2
      have he : e = e1 := (Option.some.inj hoe2).symm
      show t.bucketCapacity ≤ (t.bucketAt (t.baseIndex e.key)).length
      rw [he]
      exact hlive (he ▸ hd)
    · rw [getD_set_ne t.overflow i j (fun hh => hji hh.symm) (some e1) none] at hoe2
      exact h4 j hj2 e hoe2 hd

/-- Master effect lemma for a probing-strategy delete: the invariant is
preserved and other keys are untouched. -/
theorem eliminar_probing_effects (t : StaticHashTable K V) (k : K) (r : Bool)
    (t' : StaticHashTable K V)
    (hs : t.strategy = CollisionStrategy.LINEAR_PROBING ∨
      t.strategy = CollisionStrategy.DOUBLE_HASHING)
    (hInv : Inv t) (h : t.eliminar k = some (r, t')) :
    Inv t' ∧ ∀ k2, k2 ≠ k → liveCount t' k2 = liveCount t k2 ∧
      ∀ e, LiveIn t' k2 e → LiveIn t k2 e := by
  obtain ⟨hW, hProbImp, hSepImp⟩ := hInv
  obtain ⟨⟨hPlaced, hOvNone⟩, hUniq⟩ := hProbImp hs
  have hshape := eliminar_shape t k r t' h
  have hnotsep : ¬ t'.strategy = CollisionStrategy.SEPARATE_OVERFLOW := by
    rw [hshape.1]
    rcases hs with hs | hs <;> rw [hs] <;> intro hcon <;> cases hcon
  rw [eliminar_eq_probe t k hs] at h
  rcases eliminarProbe_inv t k _ r t' h with ⟨hr, ht'⟩ |
    ⟨hr, i, him, idx, hpidx, b2, hts, ht'⟩
  · subst ht'
    exact ⟨⟨hW, hProbImp, hSepImp⟩, fun k2 _ => ⟨rfl, fun e he => he⟩⟩
  · obtain ⟨hcnt_ne, hcnt_k, hkeys⟩ := tombstoneLive_countP k _ b2 hts
    have him2 : i < t.numBuckets := List.mem_range.mp him
    obtain ⟨hidx0, hidxm⟩ := probeIndex_lt t k i idx hpidx hW.2.2
    have hib : idx.toNat < t.buckets.length := by rw [hW.1]; exact hidxm
    have hcount : ∀ k2, k2 ≠ k → liveCount t' k2 = liveCount t k2 := by
      intro k2 hk2
      have hx := liveCount_setBucket t k2 idx.toNat hib b2
      rw [bucketAt_get t _ hib, hcnt_ne k2 hk2] at hx
      rw [ht']
      omega
    have hcountk : liveCount t' k + 1 = liveCount t k := by
      have hx := liveCount_setBucket t k idx.toNat hib b2
      rw [bucketAt_get t _ hib] at hx
      rw [ht']
      omega
    have hUniq' : ∀ k2, liveCount t' k2 ≤ 1 := by
      intro k2
      by_cases hkk : k2 = k
      · have := hUniq k
        rw [hkk]
        omega
      · rw [hcount k2 hkk]
        exact hUniq k2
    obtain ⟨pre, e0, post, hbdec, hpre0, hd0, hk0, hb2dec⟩ := tombstoneLive_spec k _ b2 hts
    refine ⟨⟨wf_of_shape t t' hW hshape, fun _ => ⟨⟨?_, ?_⟩, hUniq'⟩,
      fun hsep => absurd hsep hnotsep⟩, ?_⟩
    · rw [ht']
      exact placed_set_keys t hPlaced idx.toNat hib b2 (by rw [hkeys])
    · rw [ht']
      exact hOvNone
    · intro k2 hk2
      refine ⟨hcount k2 hk2, fun e he => ?_⟩
      rw [ht'] at he
      rcases liveIn_setBucket_elim t k2 idx.toNat b2 e he with ⟨heb, hp⟩ | hLive
      · rw [hb2dec] at heb
        rcases List.mem_append.mp heb with hh | hh
        · exact ⟨Or.inl (mem_flatten_of_bucketAt t _ hib e
            (hbdec ▸ List.mem_append.mpr (Or.inl hh))), hp⟩
        · rcases List.mem_cons.mp hh with rfl | hh2
          · exfalso
            rw [liveFor_eq_true] at hp
            exact Bool.noConfusion hp.1
          · exact ⟨Or.inl (mem_flatten_of_bucketAt t _ hib e
              (hbdec ▸ List.mem_append.mpr (Or.inr (List.mem_cons_of_mem _ hh2)))), hp⟩
      · exact hLive

/-- Master effect lemma for a SEPARATE_OVERFLOW delete: the invariant is
preserved and other keys are untouched. -/
theorem eliminar_sep_effects (t : StaticHashTable K V) (k : K) (r : Bool)
    (t' : StaticHashTable K V)
    (hs : t.strategy = CollisionStrategy.SEPARATE_OVERFLOW)
    (hInv : Inv t) (h : t.eliminar k = some (r, t')) :
    Inv t' ∧ ∀ k2, k2 ≠ k → liveCount t' k2 = liveCount t k2 ∧
      ∀ e, LiveIn t' k2 e → LiveIn t k2 e := by
  obtain ⟨hW, hProbImp, hSepImp⟩ := hInv
  obtain ⟨hSep, hUniq⟩ := hSepImp hs
  obtain ⟨h1, h2, h3, h4⟩ := hSep
  have hshape := eliminar_shape t k r t' h
  have hnotprob : ¬(t'.strategy = CollisionStrategy.LINEAR_PROBING ∨
      t'.strategy = CollisionStrategy.DOUBLE_HASHING) := by
    rw [hshape.1, hs]
    rintro (hh | hh) <;> cases hh
  have hbase : t.baseIndex k < t.buckets.length := by
    rw [hW.1]; exact baseIndex_lt t k hW.2.2
  rcases eliminar_sep_inv t k r t' hs h with
    ⟨b2, hts, hr, ht'⟩ | ⟨hts, hdel⟩
  · obtain ⟨hcnt_ne, hcnt_k, hkeys⟩ := tombstoneLive_countP k _ b2 hts
    have hcount : ∀ k2, k2 ≠ k → liveCount t' k2 = liveCount t k2 := by
      intro k2 hk2
      have hx := liveCount_setBucket t k2 (t.baseIndex k) hbase b2
      rw [bucketAt_get t _ hbase, hcnt_ne k2 hk2] at hx
      rw [ht']
      omega
    have hcountk : liveCount t' k + 1 = liveCount t k := by
      have hx := liveCount_setBucket t k (t.baseIndex k) hbase b2
      rw [bucketAt_get t _ hbase] at hx
      rw [ht']
      omega
    have hUniq' : ∀ k2, liveCount t' k2 ≤ 1 := by
      intro k2
      by_cases hkk : k2 = k
      · have := hUniq k
        rw [hkk]
        omega
      · rw [hcount k2 hkk]
        exact hUniq k2
    obtain ⟨pre, e0, post, hbdec, hpre0, hd0, hk0, hb2dec⟩ := tombstoneLive_spec k _ b2 hts
    refine ⟨⟨wf_of_shape t t' hW hshape, fun hp => absurd hp hnotprob,
      fun _ => ⟨?_, hUniq'⟩⟩, ?_⟩
    · rw [ht']
      exact sepInv_set_keys t ⟨h1, h2, h3, h4⟩ _ hbase b2 hkeys
    · intro k2 hk2
      refine ⟨hcount k2 hk2, fun e he => ?_⟩
      rw [ht'] at he
      rcases liveIn_setBucket_elim t k2 (t.baseIndex k) b2 e he with ⟨heb, hp⟩ | hLive
      · rw [hb2dec] at heb
        rcases List.mem_append.mp heb with hh | hh
        · exact ⟨Or.inl (mem_flatten_of_bucketAt t _ hbase e
            (hbdec ▸ List.mem_append.mpr (Or.inl hh))), hp⟩
        · rcases List.mem_cons.mp hh with rfl | hh2
          · exfalso
            rw [liveFor_eq_true] at hp
            exact Bool.noConfusion hp.1
          · exact ⟨Or.inl (mem_flatten_of_bucketAt t _ hbase e
              (hbdec ▸ List.mem_append.mpr (Or.inr (List.mem_cons_of_mem _ hh2)))), hp⟩
      · exact hLive
  · rcases overflowDelete_inv t k _ r t' hdel with ⟨hr, ht'⟩ |
      ⟨hr, i, him, ov, hov, hovd, hovk, ht'⟩
    · subst ht'
      exact ⟨⟨hW, hProbImp, hSepImp⟩, fun k2 _ => ⟨rfl, fun e he => he⟩⟩
    · have hi : i < t.overflow.length := by
        rw [hW.2.1]; exact List.mem_range.mp him
      have hgetslot := overflow_get_getD t i hi
      have hlivek : liveFor k ov = true := (liveFor_eq_true k ov).mpr ⟨hovd, hovk⟩
      have hnewdead : ∀ k2, liveFor k2 ({ ov with deleted := true } : Entry K V) = false :=
        fun k2 => liveFor_tombstone k2 ov
      have hsetc : ∀ k2, liveCount t' k2 +
          (if (t.overflow.getD i none).any (liveFor k2) = true then 1 else 0) =
          liveCount t k2 +
            (if ((some ({ ov with deleted := true } : Entry K V)).any
              (liveFor k2)) = true then 1 else 0) := by
        intro k2
        have hx := liveCount_setOverflow t k2 i hi
          (some ({ ov with deleted := true } : Entry K V))
        rw [hgetslot] at hx
        rw [ht']
        omega
      have hcount : ∀ k2, k2 ≠ k → liveCount t' k2 = liveCount t k2 := by
        intro k2 hk2
        have hx := hsetc k2
        have hoslot : (t.overflow.getD i none).any (liveFor k2) = false := by
          rw [hov]
          show liveFor k2 ov = false
          rw [liveFor, decide_eq_false
            (fun hh : ov.key = k2 => hk2 (hh.symm.trans hovk))]
          exact Bool.and_false _
        have hnslot : ((some ({ ov with deleted := true } : Entry K V)).any
            (liveFor k2)) = false := hnewdead k2
        rw [hoslot, hnslot] at hx
        simp at hx
        omega
      have hcountk : liveCount t' k + 1 = liveCount t k := by
        have hx := hsetc k
        have hoslot : (t.overflow.getD i none).any (liveFor k) = true := by
          rw [hov]
          exact hlivek
        have hnslot : ((some ({ ov with deleted := true } : Entry K V)).any
            (liveFor k)) = false := hnewdead k
        rw [hoslot, hnslot] at hx
        simp at hx
        omega
      have hUniq' : ∀ k2, liveCount t' k2 ≤ 1 := by
        intro k2
        by_cases hkk : k2 = k
        · have := hUniq k
          rw [hkk]
          omega
        · rw [hcount k2 hkk]
          exact hUniq k2
      refine ⟨⟨wf_of_shape t t' hW hshape, fun hp => absurd hp hnotprob,
        fun _ => ⟨?_, hUniq'⟩⟩, ?_⟩
      · rw [ht']
        refine sepInv_rewrite_slot t ⟨h1, h2, h3, h4⟩ i hi ov _ hov rfl ?_
        intro hd
        exact absurd hd (by intro hh; exact Bool.noConfusion hh)
      · intro k2 hk2
        refine ⟨hcount k2 hk2, fun e he => ?_⟩
        rw [ht'] at he
        rcases liveIn_setOverflow_elim t k2 i _ e he with ⟨heq2, hp⟩ | hLive
        · exfalso
          have he0 : e = { ov with deleted := true } := Option.some.inj heq2
          rw [he0, hnewdead k2] at hp
          exact Bool.noConfusion hp
        · exact hLive

/-- A mutation under CHAINED_LINEAR preserves the invariant, whose strong
components are vacuous for that strategy. -/
theorem inv_of_shape_chained (t t' : StaticHashTable K V)
    (hc : t.strategy = CollisionStrategy.CHAINED_LINEAR) (hInv : Inv t)
    (hshape : SameShape t t') : Inv t' := by
  refine ⟨wf_of_shape t t' hInv.1 hshape, ?_, ?_⟩
  · rw [hshape.1, hc]
    rintro (hh | hh) <;> cases hh
  · rw [hshape.1, hc]
    intro hh
    cases hh

/-- insertar preserves the invariant. -/
theorem inv_insertar (t : StaticHashTable K V) (k : K) (v : V) (r : Bool)
    (t' : StaticHashTable K V) (hInv : Inv t) (h : t.insertar k v = some (r, t')) :
    Inv t' := by
  rcases hst : t.strategy with _ | _ | _ | _
  · exact (insertar_probing_effects t k v r t' (Or.inl hst) hInv h).1
  · exact inv_of_shape_chained t t' hst hInv (insertar_shape t k v r t' h)
  · exact (insertar_probing_effects t k v r t' (Or.inr hst) hInv h).1
  · exact (insertar_sep_effects t k v r t' hst hInv h).1

/-- eliminar preserves the invariant. -/
theorem inv_eliminar (t : StaticHashTable K V) (k : K) (r : Bool)
    (t' : StaticHashTable K V) (hInv : Inv t) (h : t.eliminar k = some (r, t')) :
    Inv t' := by
  rcases hst : t.strategy with _ | _ | _ | _
  · exact (eliminar_probing_effects t k r t' (Or.inl hst) hInv h).1
  · exact inv_of_shape_chained t t' hst hInv (eliminar_shape t k r t' h)
  · exact (eliminar_probing_effects t k r t' (Or.inr hst) hInv h).1
  · exact (eliminar_sep_effects t k r t' hst hInv h).1

theorem getD_replicate {α : Type _} (n j : Nat) (a : α) :
    (List.replicate n a).getD j a = a := by
  by_cases hj : j < n
  · have hj2 : j < (List.replicate n a).length := by
      rw [List.length_replicate]; exact hj
    rw [List.getD_eq_getElem _ _ hj2]
    exact List.getElem_replicate a hj2
  · exact List.getD_eq_default _ _ (by rw [List.length_replicate]; omega)

/-- Every bucket of a fresh table is empty. -/
theorem init_bucket_empty (opts : HashStaticOptions K) (b : Nat) :
    (mkStaticHashTable opts : StaticHashTable K V).bucketAt b = [] := by
  show (List.replicate opts.numBuckets ([] : List (Entry K V))).getD b [] = []
  exact getD_replicate _ b []

/-- The fresh overflow area is all null. -/
theorem init_overflow_none (opts : HashStaticOptions K) :
    ∀ x ∈ (mkStaticHashTable opts : StaticHashTable K V).overflow, x = none := by
  intro x hx
  have hx2 : x ∈ List.replicate (opts.overflowSize.getD (max 4 (opts.numBuckets / 2)))
      (none : Option (Entry K V)) := hx
  exact List.eq_of_mem_replicate hx2

/-- Every fresh overflow slot reads null. -/
theorem init_overflow_slot (opts : HashStaticOptions K) (j : Nat) :
    (mkStaticHashTable opts : StaticHashTable K V).overflow.getD j none = none := by
  show (List.replicate (opts.overflowSize.getD (max 4 (opts.numBuckets / 2)))
    (none : Option (Entry K V))).getD j none = none
  exact getD_replicate _ j none

/-- The flattened fresh bucket store is empty. -/
theorem init_flatten_empty (opts : HashStaticOptions K) :
    ∀ e : Entry K V, e ∈ (mkStaticHashTable opts : StaticHashTable K V).buckets.flatten →
      False := by
  intro e he
  obtain ⟨l, hl, hel⟩ := List.mem_flatten.mp he
  have hl2 : l ∈ List.replicate opts.numBuckets ([] : List (Entry K V)) := hl
  rw [List.eq_of_mem_replicate hl2] at hel
  exact absurd hel (List.not_mem_nil e)

/-- A fresh table satisfies the invariant. -/
theorem inv_init (opts : HashStaticOptions K) (h : 0 < opts.numBuckets) :
    Inv (mkStaticHashTable opts : StaticHashTable K V) := by
  have hW : WfStatic (mkStaticHashTable opts : StaticHashTable K V) := wf_init opts h
  have hcount : ∀ k : K, liveCount (mkStaticHashTable opts : StaticHashTable K V) k = 0 := by
    intro k
    rw [liveCount]
    rw [List.countP_eq_zero.mpr fun e he _ => init_flatten_empty opts e he,
      overflow_count_zero _ k (init_overflow_none opts)]
  have hplaced : Placed (mkStaticHashTable opts : StaticHashTable K V) := by
    intro b hb e he
    rw [init_bucket_empty opts b] at he
    exact absurd he (List.not_mem_nil e)
  refine ⟨hW, fun _ => ⟨⟨hplaced, init_overflow_none opts⟩,
    fun k => by rw [hcount k]; omega⟩, fun _ => ⟨⟨?_, ?_, ?_, ?_⟩,
      fun k => by rw [hcount k]; omega⟩⟩
  · intro b hb e he
    rw [init_bucket_empty opts b] at he
    exact absurd he (List.not_mem_nil e)
  · intro i j hij hj hsome
    rw [init_overflow_slot opts j] at hsome
    exact absurd hsome (by simp)
  · intro i j hij hj ei ej hei hej
    rw [init_overflow_slot opts i] at hei
    cases hei
  · intro i hi e hoe hd
    rw [init_overflow_slot opts i] at hoe
    cases hoe

/-- Every reachable table satisfies the invariant. -/
theorem inv_reachable (t : StaticHashTable K V) (hR : Reachable t) : Inv t := by
  induction hR with
  | init opts h => exact inv_init opts h
  | ins ht h ih => exact inv_insertar _ _ _ _ _ ih h
  | del ht h ih => exact inv_eliminar _ _ _ _ ih h

/-- The attempt range splits at any attempt below the bound. -/
theorem range_decomp_at (m i : Nat) (h : i < m) :
    ∃ is1 is2, List.range m = is1 ++ i :: is2 := by
  refine ⟨List.range' 0 i, List.range' (i + 1) (m - i - 1), ?_⟩
  rw [range_split m i (Nat.le_of_lt h)]
  congr 1
  have hsub : m - i = (m - i - 1) + 1 := by omega
  conv_lhs => rw [hsub]
  rw [List.range'_succ]

/-- A probing lookup over attempts whose probe indices all resolve returns
the common value of the live entries of the key as soon as some attempt's
bucket holds one. -/
theorem buscarProbe_finds (t : StaticHashTable K V) (k : K) (v : V)
    (hW : WfStatic t)
    (hsec : t.strategy = CollisionStrategy.DOUBLE_HASHING →
      t.secondaryHash.isSome = true)
    (hval : ∀ e ∈ t.buckets.flatten, liveFor k e = true → e.value = v) :
    ∀ (is1 : List Nat) (i : Nat) (is2 : List Nat) (idx : Int),
      t.probeIndex k i = some idx →
      (∃ e ∈ t.bucketAt idx.toNat, liveFor k e = true) →
      buscarProbe t k (is1 ++ i :: is2) = some (some v, t) := by
  intro is1
  induction is1 with
  | nil =>
    intro i is2 idx hpidx hex
    obtain ⟨e, he, hp⟩ := hex
    obtain ⟨hidx0, hidxm⟩ := probeIndex_lt t k i idx hpidx hW.2.2
    have hib : idx.toNat < t.buckets.length := by rw [hW.1]; exact hidxm
    show buscarProbe t k (i :: is2) = some (some v, t)
    rcases hfl : findLive k (t.bucketAt idx.toNat) with _ | v0
    · exfalso
      rw [liveFor_eq_true] at hp
      exact ((findLive_eq_none_iff k _).mp hfl) e he hp.1 hp.2
    · obtain ⟨e0, he0, hd0, hk0, hv0⟩ := findLive_some k _ v0 hfl
      have hev : e0.value = v := hval e0 (mem_flatten_of_bucketAt t _ hib e0 he0)
        ((liveFor_eq_true k e0).mpr ⟨hd0, hk0⟩)
      have hveq : v0 = v := by rw [← hv0, hev]
      simp only [buscarProbe, hpidx, hfl, hveq]
  | cons j rest ih =>
    intro i is2 idx hpidx hex
    obtain ⟨idxj, hpj⟩ := probeIndex_isSome t k j hsec
    obtain ⟨hj0, hjm⟩ := probeIndex_lt t k j idxj hpj hW.2.2
    have hjb : idxj.toNat < t.buckets.length := by rw [hW.1]; exact hjm
    show buscarProbe t k (j :: (rest ++ i :: is2)) = some (some v, t)
    rcases hfl : findLive k (t.bucketAt idxj.toNat) with _ | v0
    · simp only [buscarProbe, hpj, hfl]
      exact ih i is2 idx hpidx hex
    · obtain ⟨e0, he0, hd0, hk0, hv0⟩ := findLive_some k _ v0 hfl
      have hev : e0.value = v := hval e0 (mem_flatten_of_bucketAt t _ hjb e0 he0)
        ((liveFor_eq_true k e0).mpr ⟨hd0, hk0⟩)
      have hveq : v0 = v := by rw [← hv0, hev]
      simp only [buscarProbe, hpj, hfl, hveq]

/-- The overflow lookup returns the common value of the key's live overflow
entries as soon as some slot holds one. -/
theorem overflowFind_finds (t : StaticHashTable K V) (k : K) (v : V)
    (hval : ∀ e : Entry K V, some e ∈ t.overflow → liveFor k e = true →
      e.value = v) :
    ∀ (is1 : List Nat) (i : Nat) (is2 : List Nat),
      (∃ ov, t.overflow.getD i none = some ov ∧ liveFor k ov = true) →
      overflowFind t k (is1 ++ i :: is2) = some v := by
  intro is1
  induction is1 with
  | nil =>
    intro i is2 hex
    obtain ⟨ov, hov, hp⟩ := hex
    have hi : i < t.overflow.length := by
      by_contra hlt
      rw [List.getD_eq_default _ _ (Nat.le_of_not_lt hlt)] at hov
      cases hov
    have hpc := (liveFor_eq_true k ov).mp hp
    have hev : ov.value = v := hval ov ((mem_iff_getD _ _).mpr ⟨i, hi, hov⟩) hp
    show overflowFind t k (i :: is2) = some v
    simp only [overflowFind, hov, if_pos hpc, hev]
  | cons j rest ih =>
    intro i is2 hex
    show overflowFind t k (j :: (rest ++ i :: is2)) = some v
    rcases hj : t.overflow.getD j none with _ | ovj
    · simp only [overflowFind, hj]
      exact ih i is2 hex
    · by_cases hc : ovj.deleted = false ∧ ovj.key = k
      · have hjlen : j < t.overflow.length := by
          by_contra hlt
          rw [List.getD_eq_default _ _ (Nat.le_of_not_lt hlt)] at hj
          cases hj
        have hev : ovj.value = v := hval ovj ((mem_iff_getD _ _).mpr ⟨j, hjlen, hj⟩)
          ((liveFor_eq_true k ovj).mpr hc)
        simp only [overflowFind, hj, if_pos hc, hev]
      · simp only [overflowFind, hj, if_neg hc]
        exact ih i is2 hex

/-- Buscar on an invariant-satisfying table with exactly one live entry for
the key, all of whose live entries hold `v`, returns `v` (and hands the
table back unchanged). -/
theorem buscar_found (t : StaticHashTable K V) (k : K) (v : V) (hInv : Inv t)
    (hsec : t.strategy = CollisionStrategy.DOUBLE_HASHING →
      t.secondaryHash.isSome = true)
    (hs : t.strategy = CollisionStrategy.LINEAR_PROBING ∨
      t.strategy = CollisionStrategy.DOUBLE_HASHING ∨
      t.strategy = CollisionStrategy.SEPARATE_OVERFLOW)
    (hc1 : liveCount t k = 1)
    (hval : ∀ e, LiveIn t k e → e.value = v) :
    t.buscar k = some (some v, t) := by
  obtain ⟨hW, hProbImp, hSepImp⟩ := hInv
  obtain ⟨e, hm, hp⟩ := liveIn_exists t k (by omega)
  by_cases hprob : t.strategy = CollisionStrategy.LINEAR_PROBING ∨
      t.strategy = CollisionStrategy.DOUBLE_HASHING
  · obtain ⟨⟨hPlaced, hOvNone⟩, hUniq⟩ := hProbImp hprob
    rcases hm with hmf | hmo
    · obtain ⟨b, hb, heb⟩ := (mem_flatten_idx e t.buckets).mp hmf
      rw [bucketAt_get t b hb] at heb
      obtain ⟨i, him, idx, hpidx, hidxb, _⟩ := hPlaced b hb e heb
      have hpk : e.key = k := ((liveFor_eq_true k e).mp hp).2
      rw [hpk] at hpidx
      obtain ⟨is1, is2, hrange⟩ := range_decomp_at t.numBuckets i him
      rw [buscar_eq_probe t k hprob, hrange]
      refine buscarProbe_finds t k v hW hsec
        (fun e2 he2 hp2 => hval e2 ⟨Or.inl he2, hp2⟩) is1 i is2 idx hpidx ⟨e, ?_, hp⟩
      rw [hidxb]
      exact heb
    · exfalso
      have := hOvNone (some e) hmo
      cases this
  · have hso : t.strategy = CollisionStrategy.SEPARATE_OVERFLOW := by
      rcases hs with h | h | h
      · exact absurd (Or.inl h) hprob
      · exact absurd (Or.inr h) hprob
      · exact h
    obtain ⟨⟨h1, h2, h3, h4⟩, hUniq⟩ := hSepImp hso
    have hbase2 : t.baseIndex k < t.buckets.length := by
      rw [hW.1]; exact baseIndex_lt t k hW.2.2
    rcases hm with hmf | hmo
    · obtain ⟨b, hb, heb⟩ := (mem_flatten_idx e t.buckets).mp hmf
      rw [bucketAt_get t b hb] at heb
      have hpk := (liveFor_eq_true k e).mp hp
      have hbase : t.baseIndex k = b := by rw [← hpk.2]; exact h1 b hb e heb
      rcases hfl : findLive k (t.bucketAt (t.baseIndex k)) with _ | v0
      · exfalso
        rw [hbase] at hfl
        exact ((findLive_eq_none_iff k _).mp hfl) e heb hpk.1 hpk.2
      · obtain ⟨e0, he0, hd0, hk0, hv0⟩ := findLive_some k _ v0 hfl
        have hev : e0.value = v := hval e0
          ⟨Or.inl (mem_flatten_of_bucketAt t _ hbase2 e0 he0),
            (liveFor_eq_true k e0).mpr ⟨hd0, hk0⟩⟩
        have hveq : v0 = v := by rw [← hv0, hev]
        simp only [StaticHashTable.buscar, hso, hfl, hveq]
    · have hovcnt : 1 ≤ t.overflow.countP (fun o => o.any (liveFor k)) :=
        List.countP_pos.mpr ⟨some e, hmo, hp⟩
      have hfz : t.buckets.flatten.countP (liveFor k) = 0 := by
        rw [liveCount] at hc1
        omega
      have hnl : NoLiveKey k (t.bucketAt (t.baseIndex k)) := by
        intro e2 he2 hd2 hk2
        have hm2 : e2 ∈ t.buckets.flatten := mem_flatten_of_bucketAt t _ hbase2 e2 he2
        exact List.countP_eq_zero.mp hfz e2 hm2 ((liveFor_eq_true k e2).mpr ⟨hd2, hk2⟩)
      have hfl : findLive k (t.bucketAt (t.baseIndex k)) = none :=
        (findLive_eq_none_iff k _).mpr hnl
      obtain ⟨i, hi, hgd⟩ := (mem_iff_getD (some e) t.overflow).mp hmo
      have hio : i < t.overflowSize := by rw [← hW.2.1]; exact hi
      obtain ⟨is1, is2, hrange⟩ := range_decomp_at t.overflowSize i hio
      simp only [StaticHashTable.buscar, hso, hfl, hrange]
      rw [overflowFind_finds t k v (fun e2 hm2 hp2 => hval e2 ⟨Or.inr hm2, hp2⟩)
        is1 i is2 ⟨e, hgd, hp⟩]

theorem sameShape_trans (t1 t2 t3 : StaticHashTable K V) (h12 : SameShape t1 t2)
    (h23 : SameShape t2 t3) : SameShape t1 t3 :=
  ⟨h23.1.trans h12.1, h23.2.1.trans h12.2.1, h23.2.2.1.trans h12.2.2.1,
    h23.2.2.2.1.trans h12.2.2.2.1, h23.2.2.2.2.1.trans h12.2.2.2.2.1,
    h23.2.2.2.2.2.1.trans h12.2.2.2.2.2.1,
    h23.2.2.2.2.2.2.1.trans h12.2.2.2.2.2.2.1,
    h23.2.2.2.2.2.2.2.trans h12.2.2.2.2.2.2.2⟩

/-- A DOUBLE_HASHING insert that returns at all had a secondary hash: the
very first probe would otherwise have thrown. -/
theorem insertar_dh_secondary (t : StaticHashTable K V) (k : K) (v : V) (r : Bool)
    (t' : StaticHashTable K V) (hs : t.strategy = CollisionStrategy.DOUBLE_HASHING)
    (hm : 0 < t.numBuckets) (h : t.insertar k v = some (r, t')) :
    t.secondaryHash.isSome = true := by
  rw [insertar_eq_probe t k v (Or.inr hs)] at h
  obtain ⟨m, hmeq⟩ : ∃ m, t.numBuckets = m + 1 := ⟨t.numBuckets - 1, by omega⟩
  rw [hmeq, List.range_succ_eq_map] at h
  rcases hpi : t.probeIndex k 0 with _ | idx
  · exfalso
    have hnone : insertProbe t k v (0 :: List.map Nat.succ (List.range m)) = none := by
      rw [insertProbe, hpi]
    rw [hnone] at h
    cases h
  · exact probeIndex_some_sec t k 0 idx hs hpi

/-- One table operation on a key other than `k` keeps the invariant, the
shape, and `k`'s unique live entry with its value. -/
theorem applyOp_preserve (t : StaticHashTable K V) (k : K) (v : V)
    (op : TableOp K V) (hInv : Inv t)
    (hs : t.strategy = CollisionStrategy.LINEAR_PROBING ∨
      t.strategy = CollisionStrategy.DOUBLE_HASHING ∨
      t.strategy = CollisionStrategy.SEPARATE_OVERFLOW)
    (hk : TableOp.key op ≠ k)
    (hc1 : liveCount t k = 1) (hval : ∀ e, LiveIn t k e → e.value = v) :
    Inv (applyOp t op) ∧ SameShape t (applyOp t op) ∧
      liveCount (applyOp t op) k = 1 ∧
      ∀ e, LiveIn (applyOp t op) k e → e.value = v := by
  rcases op with ⟨k2, v2⟩ | ⟨k2⟩
  · have hk2 : k2 ≠ k := hk
    rcases hins : t.insertar k2 v2 with _ | ⟨r, t2⟩
    · simp only [applyOp, afterInsert, hins]
      exact ⟨hInv, sameShape_refl t, hc1, hval⟩
    · have heff : Inv t2 ∧
          (r = true → liveCount t2 k2 = 1 ∧ ∀ e, LiveIn t2 k2 e → e.value = v2) ∧
          ∀ k3, k3 ≠ k2 → liveCount t2 k3 = liveCount t k3 ∧
            ∀ e, LiveIn t2 k3 e → LiveIn t k3 e := by
        rcases hs with hsp | hsp | hsp
        · exact insertar_probing_effects t k2 v2 r t2 (Or.inl hsp) hInv hins
        · exact insertar_probing_effects t k2 v2 r t2 (Or.inr hsp) hInv hins
        · exact insertar_sep_effects t k2 v2 r t2 hsp hInv hins
      obtain ⟨hframe1, hframe2⟩ := heff.2.2 k (fun hh => hk2 hh.symm)
      simp only [applyOp, afterInsert, hins]
      exact ⟨heff.1, insertar_shape t k2 v2 r t2 hins, by rw [hframe1]; exact hc1,
        fun e he => hval e (hframe2 e he)⟩
  · have hk2 : k2 ≠ k := hk
    rcases hdel : t.eliminar k2 with _ | ⟨r, t2⟩
    · simp only [applyOp, afterDelete, hdel]
      exact ⟨hInv, sameShape_refl t, hc1, hval⟩
    · have heff : Inv t2 ∧ ∀ k3, k3 ≠ k2 → liveCount t2 k3 = liveCount t k3 ∧
          ∀ e, LiveIn t2 k3 e → LiveIn t k3 e := by
        rcases hs with hsp | hsp | hsp
        · exact eliminar_probing_effects t k2 r t2 (Or.inl hsp) hInv hdel
        · exact eliminar_probing_effects t k2 r t2 (Or.inr hsp) hInv hdel
        · exact eliminar_sep_effects t k2 r t2 hsp hInv hdel
      obtain ⟨hframe1, hframe2⟩ := heff.2 k (fun hh => hk2 hh.symm)
      simp only [applyOp, afterDelete, hdel]
      exact ⟨heff.1, eliminar_shape t k2 r t2 hdel, by rw [hframe1]; exact hc1,
        fun e he => hval e (hframe2 e he)⟩

/-- A whole sequence of operations away from `k` keeps the invariant, the
shape, and `k`'s unique live entry with its value. -/
theorem applyOps_preserve (k : K) (v : V) (ops : List (TableOp K V)) :
    ∀ t : StaticHashTable K V, Inv t →
      (t.strategy = CollisionStrategy.LINEAR_PROBING ∨
        t.strategy = CollisionStrategy.DOUBLE_HASHING ∨
        t.strategy = CollisionStrategy.SEPARATE_OVERFLOW) →
      (∀ op ∈ ops, TableOp.key op ≠ k) →
      liveCount t k = 1 → (∀ e, LiveIn t k e → e.value = v) →
      Inv (applyOps t ops) ∧ SameShape t (applyOps t ops) ∧
        liveCount (applyOps t ops) k = 1 ∧
        ∀ e, LiveIn (applyOps t ops) k e → e.value = v := by
  induction ops with
  | nil =>
    intro t hInv _ _ hc1 hval
    exact ⟨hInv, sameShape_refl t, hc1, hval⟩
  | cons op rest ih =>
    intro t hInv hs hks hc1 hval
    obtain ⟨hInv1, hshape1, hc11, hval1⟩ := applyOp_preserve t k v op hInv hs
      (hks op (List.mem_cons_self _ _)) hc1 hval
    have hs1 : (applyOp t op).strategy = CollisionStrategy.LINEAR_PROBING ∨
        (applyOp t op).strategy = CollisionStrategy.DOUBLE_HASHING ∨
        (applyOp t op).strategy = CollisionStrategy.SEPARATE_OVERFLOW := by
      rw [hshape1.1]
      exact hs
    obtain ⟨hInv2, hshape2, hc12, hval2⟩ := ih (applyOp t op) hInv1 hs1
      (fun op2 hop2 => hks op2 (List.mem_cons_of_mem _ hop2)) hc11 hval1
    exact ⟨hInv2, sameShape_trans t _ _ hshape1 hshape2, hc12, hval2⟩

/-- C1, amended: the round trip does hold for the LINEAR_PROBING,
DOUBLE_HASHING and SEPARATE_OVERFLOW strategies (but not, per the
counterexample, for CHAINED_LINEAR): on any reachable table, after
insertar(k,v) returns true, buscar(k) returns v, and keeps returning v
after any further insertar/eliminar calls whose keys differ from k. -/
theorem C1_roundtrip_amended (t t' : StaticHashTable K V) (k : K) (v : V)
    (ops : List (TableOp K V)) (hR : Reachable t)
    (hs : t.strategy = CollisionStrategy.LINEAR_PROBING ∨
      t.strategy = CollisionStrategy.DOUBLE_HASHING ∨
      t.strategy = CollisionStrategy.SEPARATE_OVERFLOW)
    (hins : t.insertar k v = some (true, t'))
    (hks : ∀ op ∈ ops, TableOp.key op ≠ k) :
    (applyOps t' ops).buscar k = some (some v, applyOps t' ops) := by
  have hInv := inv_reachable t hR
  have heff : Inv t' ∧
      (true = true → liveCount t' k = 1 ∧ ∀ e, LiveIn t' k e → e.value = v) ∧
      ∀ k3, k3 ≠ k → liveCount t' k3 = liveCount t k3 ∧
        ∀ e, LiveIn t' k3 e → LiveIn t k3 e := by
    rcases hs with hsp | hsp | hsp
    · exact insertar_probing_effects t k v true t' (Or.inl hsp) hInv hins
    · exact insertar_probing_effects t k v true t' (Or.inr hsp) hInv hins
    · exact insertar_sep_effects t k v true t' hsp hInv hins
  obtain ⟨hc1, hval⟩ := heff.2.1 rfl
  have hshape0 := insertar_shape t k v true t' hins
  have hs' : t'.strategy = CollisionStrategy.LINEAR_PROBING ∨
      t'.strategy = CollisionStrategy.DOUBLE_HASHING ∨
      t'.strategy = CollisionStrategy.SEPARATE_OVERFLOW := by
    rw [hshape0.1]
    exact hs
  obtain ⟨hInvF, hshapeF, hc1F, hvalF⟩ :=
    applyOps_preserve k v ops t' heff.1 hs' hks hc1 hval
  have hsecF : (applyOps t' ops).strategy = CollisionStrategy.DOUBLE_HASHING →
      (applyOps t' ops).secondaryHash.isSome = true := by
    intro hdh
    rw [hshapeF.1, hshape0.1] at hdh
    have hsec0 := insertar_dh_secondary t k v true t' hdh hInv.1.2.2 hins
    rw [hshapeF.2.2.1, hshape0.2.2.1]
    exact hsec0
  have hsF : (applyOps t' ops).strategy = CollisionStrategy.LINEAR_PROBING ∨
      (applyOps t' ops).strategy = CollisionStrategy.DOUBLE_HASHING ∨
      (applyOps t' ops).strategy = CollisionStrategy.SEPARATE_OVERFLOW := by
    rw [hshapeF.1]
    exact hs'
  exact buscar_found (applyOps t' ops) k v hInvF hsecF hsF hc1F hvalF

/-- C1, witness: the amended round trip at work on a concrete reachable
LINEAR_PROBING table; after insertar(0,7), an insert and a delete of the
unrelated key 1, buscar(0) still yields 7. -/
theorem C1_roundtrip_amended_witness :
    (applyOps lpW1 [TableOp.ins 1 9, TableOp.del 1]).buscar 0 =
      some (some 7, applyOps lpW1 [TableOp.ins 1 9, TableOp.del 1]) :=
  C1_roundtrip_amended lpW0 lpW1 0 7 [TableOp.ins 1 9, TableOp.del 1]
    (Reachable.init lpWOpts (by decide)) (Or.inl rfl) (by rfl) (by decide)

/-- C2, amended: uniqueness of live entries does hold for the
LINEAR_PROBING, DOUBLE_HASHING and SEPARATE_OVERFLOW strategies (but not,
per the counterexample, for CHAINED_LINEAR): on any reachable table, each
key occupies at most one live Entry across the base buckets and overflow
area combined. -/
theorem C2_uniqueness_amended (t : StaticHashTable K V) (k : K) (hR : Reachable t)
    (hs : t.strategy = CollisionStrategy.LINEAR_PROBING ∨
      t.strategy = CollisionStrategy.DOUBLE_HASHING ∨
      t.strategy = CollisionStrategy.SEPARATE_OVERFLOW) :
    liveCount t k ≤ 1 := by
  have hInv := inv_reachable t hR
  rcases hs with h | h | h
  · exact (hInv.2.1 (Or.inl h)).2 k
  · exact (hInv.2.1 (Or.inr h)).2 k
  · exact (hInv.2.2 h).2 k

/-- C2, witness: the amended uniqueness on a concrete reachable
LINEAR_PROBING table holding two inserts of the same key 0. -/
theorem C2_uniqueness_amended_witness : liveCount lpW2 0 ≤ 1 :=
  C2_uniqueness_amended lpW2 0
    (@Reachable.ins Nat Nat _ lpW1 lpW2 0 9 true
      (@Reachable.ins Nat Nat _ lpW0 lpW1 0 7 true
        (Reachable.init lpWOpts (by decide)) (by rfl))
      (by rfl))
    (Or.inl rfl)

end HashTableSpec

